import Mathlib

set_option linter.unusedSectionVars false

/-!
Verification of the core hash-table (dict.c), event-loop (ae.c) and
lazy-free (lazyfree.c) logic of the redis-note repository, via a shallow
embedding.  Pointers become list indices, `unsigned long` arithmetic is
Nat arithmetic with explicit reduction modulo 2^64 where the C code can
wrap, destructor invocations are recorded in an explicit event trace, and
the global `dict_can_resize` flag is threaded as an explicit parameter.
-/

namespace RedisNote

/-- Modulus of C `unsigned long` / `uint64_t` arithmetic (64-bit build). -/
def U64 : Nat := 2 ^ 64

/-- C `LONG_MAX` on a 64-bit build. -/
def LONG_MAX : Nat := 2 ^ 63 - 1

/-! ## Data model (dict.h)

A `dictEntry` is a key/value pair; the C `next` pointer is represented by
the position of the entry in its bucket's list.  A `dictht` is a bucket
array with cached size, mask and element count.  A `dict` owns two bucket
tables, the rehash index (-1 = not rehashing) and the safe-iterator count. -/

structure DictEntry (K V : Type) where
  key : K
  val : V
deriving DecidableEq, Repr

structure Dictht (K V : Type) where
  table : List (List (DictEntry K V))
  size : Nat
  sizemask : Nat
  used : Nat
deriving DecidableEq, Repr

structure Dict (K V : Type) where
  ht0 : Dictht K V
  ht1 : Dictht K V
  rehashidx : Int
  iterators : Nat
deriving DecidableEq, Repr

/-- Destructor invocations performed by the table (type-descriptor
`keyDestructor` / `valDestructor` calls), recorded as an event trace. -/
inductive FreeEv (K V : Type) where
  | freeKey (k : K)
  | freeVal (v : V)
deriving DecidableEq, Repr

variable {K V : Type} [DecidableEq K] [DecidableEq V]

/-- Bucket `i` of a table; out-of-range reads never occur on well-formed
tables (the list has length `size`). -/
def bucketAt (t : Dictht K V) (i : Nat) : List (DictEntry K V) :=
  t.table.getD i []

/-- Overwrite bucket `i` of a table. -/
def setBucket (t : Dictht K V) (i : Nat) (c : List (DictEntry K V)) : Dictht K V :=
  { t with table := t.table.set i c }

/-- `_dictReset`: a zeroed table header (NULL table pointer). -/
def dictResetHt : Dictht K V := ⟨[], 0, 0, 0⟩

/-- Total number of entries stored in a bucket array. -/
def countEntries (tbl : List (List (DictEntry K V))) : Nat :=
  (tbl.map List.length).sum

/-- `dictIsRehashing` macro: `rehashidx != -1`. -/
def dictIsRehashing (d : Dict K V) : Bool :=
  d.rehashidx != -1

/-- `dictSize` macro: `ht[0].used + ht[1].used`. -/
def dictSize (d : Dict K V) : Nat :=
  d.ht0.used + d.ht1.used

/-- All entries currently stored in the dictionary (both tables). -/
def dictAllEntries (d : Dict K V) : List (DictEntry K V) :=
  d.ht0.table.flatten ++ d.ht1.table.flatten

/-- A key is present in the dictionary. -/
def dictContainsKey (d : Dict K V) (k : K) : Prop :=
  ∃ e ∈ dictAllEntries d, e.key = k

instance (d : Dict K V) (k : K) : Decidable (dictContainsKey d k) := by
  unfold dictContainsKey; infer_instance

/-! ## Sizing (`_dictNextPower`, `dictExpand`, `_dictExpandIfNeeded`) -/

/-- `DICT_HT_INITIAL_SIZE`. -/
def DICT_HT_INITIAL_SIZE : Nat := 4

/-- `dict_force_resize_ratio` (the "force" load factor, 5). -/
def dict_force_resize_ratio : Nat := 5

/-- The doubling loop of `_dictNextPower`: starting from `i`, double until
`i >= size`.  The C loop is unbounded; 64 doublings from 4 pass `LONG_MAX`,
so a structural fuel of 64 never runs out on the sizes the caller can pass
(`size < LONG_MAX`, checked before the loop). -/
def dictNextPowerGo (size : Nat) : Nat → Nat → Nat
  | 0, i => i
  | fuel + 1, i => if i ≥ size then i else dictNextPowerGo size fuel (i * 2)

/-- `_dictNextPower`: the first power of two `≥ size` starting from 4;
sizes `≥ LONG_MAX` are clamped to `LONG_MAX + 1`. -/
def dictNextPower (size : Nat) : Nat :=
  if size ≥ LONG_MAX then LONG_MAX + 1
  else dictNextPowerGo size 64 DICT_HT_INITIAL_SIZE

/-- `dictExpand`: allocate a table of the next power of two `≥ size`.
Returns the updated dict and `true` for `DICT_OK`.  The first expansion
(NULL `ht[0].table`) installs the new table as `ht[0]`; otherwise the new
table becomes `ht[1]` and rehashing starts at bucket 0. -/
def dictExpand (d : Dict K V) (size : Nat) : Dict K V × Bool :=
  if dictIsRehashing d ∨ d.ht0.used > size then (d, false)
  else if dictNextPower size = d.ht0.size then (d, false)
  else if d.ht0.table = [] then
    ({ d with ht0 := ⟨List.replicate (dictNextPower size) [], dictNextPower size,
        dictNextPower size - 1, 0⟩ }, true)
  else
    ({ d with ht1 := ⟨List.replicate (dictNextPower size) [], dictNextPower size,
        dictNextPower size - 1, 0⟩, rehashidx := 0 }, true)

/-- `_dictExpandIfNeeded` with the global `dict_can_resize` passed as the
`canResize` parameter.  Returns the updated dict and `true` for `DICT_OK`.
Note the integer division in the force-resize test. -/
def dictExpandIfNeeded (canResize : Bool) (d : Dict K V) : Dict K V × Bool :=
  if dictIsRehashing d then (d, true)
  else if d.ht0.size = 0 then dictExpand d DICT_HT_INITIAL_SIZE
  else if d.ht0.used ≥ d.ht0.size ∧
      (canResize = true ∨ d.ht0.used / d.ht0.size > dict_force_resize_ratio) then
    dictExpand d (d.ht0.used * 2)
  else (d, true)

/-! ## Incremental rehash (`dictRehash`, `_dictRehashStep`) -/

/-- Migrate one source chain into `ht[1]`, entry by entry: each entry is
prepended to the `ht[1]` bucket selected by `ht[1].sizemask`, and
`ht[1].used` is incremented (head insertion, chain traversed in order). -/
def migrateChain (hashF : K → Nat) (t1 : Dictht K V) :
    List (DictEntry K V) → Dictht K V
  | [] => t1
  | e :: rest =>
    let hkey := hashF e.key &&& t1.sizemask
    migrateChain hashF
      ⟨t1.table.set hkey (e :: bucketAt t1 hkey), t1.size, t1.sizemask, t1.used + 1⟩ rest

/-- The scan for the first index `j ≥ i` (in bounds) whose bucket is
non-empty; the cursor advances every step, so a structural fuel of
`tbl.length + 1` always suffices. -/
def findNonemptyFromGo (tbl : List (List (DictEntry K V))) : Nat → Nat → Option Nat
  | 0, _ => none
  | fuel + 1, i =>
    if i < tbl.length then
      if tbl.getD i [] ≠ [] then some i else findNonemptyFromGo tbl fuel (i + 1)
    else none

/-- First index `j ≥ i` (in bounds) whose bucket is non-empty. -/
def findNonemptyFrom (tbl : List (List (DictEntry K V))) (i : Nat) : Option Nat :=
  findNonemptyFromGo tbl (tbl.length + 1) i

/-- Result of `dictRehash`.  `ret` is the C return value (1 = more work
remains, 0 = rehash complete).  `migrated` and `empties` are ghost
instrumentation counting migrated non-empty buckets and probed empty
buckets; they do not influence the dict state. -/
structure RehashResult (K V : Type) where
  d : Dict K V
  ret : Nat
  migrated : Nat
  empties : Nat
deriving DecidableEq, Repr

/-- The completion check at the end of `dictRehash`: when `ht[0]` has
drained, free it, move `ht[1]` into `ht[0]`, reset `ht[1]` and stop
rehashing (return 0); otherwise return 1. -/
def rehashFinish (d : Dict K V) (mig emp : Nat) : RehashResult K V :=
  if d.ht0.used = 0 then
    ⟨⟨d.ht1, dictResetHt, -1, d.iterators⟩, 0, mig, emp⟩
  else ⟨d, 1, mig, emp⟩

/-- The `while (n-- && ht[0].used != 0)` loop of `dictRehash`.  `ev` is the
remaining empty-bucket budget (`empty_visits`).  Skipping an empty bucket
advances `rehashidx` and spends one unit of budget; when the budget hits
zero the call returns 1 immediately.  When no non-empty bucket exists at or
after `rehashidx` and the budget outlasts the in-bounds buckets, the C code
would read past the end of the table; that situation is impossible when
`used` equals the number of stored entries, and is mapped to the same
budget-exhausted result here. -/
def dictRehashLoop (hashF : K → Nat) (d : Dict K V) :
    Nat → Nat → Nat → Nat → RehashResult K V
  | 0, _, mig, emp => rehashFinish d mig emp
  | n + 1, ev, mig, emp =>
    if d.ht0.used = 0 then rehashFinish d mig emp
    else
      let i := d.rehashidx.toNat
      match findNonemptyFrom d.ht0.table i with
      | some j =>
        if ev ≤ j - i then
          ⟨⟨d.ht0, d.ht1, ((i + ev : Nat) : Int), d.iterators⟩, 1, mig, emp + ev⟩
        else
          let chain := bucketAt d.ht0 j
          let ht1' := migrateChain hashF d.ht1 chain
          let ht0' : Dictht K V :=
            ⟨d.ht0.table.set j [], d.ht0.size, d.ht0.sizemask, d.ht0.used - chain.length⟩
          dictRehashLoop hashF ⟨ht0', ht1', ((j + 1 : Nat) : Int), d.iterators⟩
            n (ev - (j - i)) (mig + 1) (emp + (j - i))
      | none =>
        ⟨⟨d.ht0, d.ht1, ((i + ev : Nat) : Int), d.iterators⟩, 1, mig, emp + ev⟩

/-- `dictRehash(d, n)`: perform up to `n` bucket migrations with an
empty-bucket probing budget of `10 * n`. -/
def dictRehash (hashF : K → Nat) (d : Dict K V) (n : Nat) : RehashResult K V :=
  if dictIsRehashing d then dictRehashLoop hashF d n (n * 10) 0 0
  else ⟨d, 0, 0, 0⟩

/-- `_dictRehashStep`: a single rehash step, performed only while no safe
iterator is live. -/
def dictRehashStep (hashF : K → Nat) (d : Dict K V) : Dict K V :=
  if d.iterators = 0 then (dictRehash hashF d 1).d else d

/-! ## Insertion (`_dictKeyIndex`, `dictAddRaw`, `dictAdd`, `dictReplace`) -/

/-- First entry of a chain with the given key (`==` or `keyCompare`). -/
def chainFind (k : K) (chain : List (DictEntry K V)) : Option (DictEntry K V) :=
  chain.find? fun e => decide (e.key = k)

/-- Result of `_dictKeyIndex`: the updated dict (the expansion check may
allocate), the insertion slot (`none` encodes the C return value -1) and
the already-existing entry, if any. -/
structure KeyIndexResult (K V : Type) where
  d : Dict K V
  index : Option Nat
  existing : Option (DictEntry K V)
deriving DecidableEq, Repr

/-- The two-table search loop of `_dictKeyIndex`, after the expansion
check produced `d1`.  Found: slot -1 (`none`) plus the existing entry.
Not found: the insert slot, computed against `ht[1]` when rehashing (the
table-0 slot otherwise, the loop breaking early). -/
def dictKeyIndexSearch (d1 : Dict K V) (key : K) (hash : Nat) : KeyIndexResult K V :=
  match chainFind key (bucketAt d1.ht0 (hash &&& d1.ht0.sizemask)) with
  | some e => ⟨d1, none, some e⟩
  | none =>
    if dictIsRehashing d1 then
      match chainFind key (bucketAt d1.ht1 (hash &&& d1.ht1.sizemask)) with
      | some e => ⟨d1, none, some e⟩
      | none => ⟨d1, some (hash &&& d1.ht1.sizemask), none⟩
    else ⟨d1, some (hash &&& d1.ht0.sizemask), none⟩

/-- `_dictKeyIndex`: run the expansion check (returning -1 on its failure),
then search both tables. -/
def dictKeyIndex (_hashF : K → Nat) (canResize : Bool) (d : Dict K V)
    (key : K) (hash : Nat) : KeyIndexResult K V :=
  match dictExpandIfNeeded canResize d with
  | (d1, false) => ⟨d1, none, none⟩
  | (d1, true) => dictKeyIndexSearch d1 key hash

/-- Result of `dictAddRaw`: `entry` is the freshly inserted entry (C return
value when non-NULL), `existing` the entry that blocked the insert. -/
structure AddRawResult (K V : Type) where
  d : Dict K V
  entry : Option (DictEntry K V)
  existing : Option (DictEntry K V)
deriving DecidableEq, Repr

/-- The insertion step of `dictAddRaw`, after the key-index lookup `r`:
allocate the entry and head-insert it into the bucket `r.index` of `ht[1]`
if rehashing, else of `ht[0]`. -/
def dictAddRawInsert (r : KeyIndexResult K V) (key : K) (v : V) : AddRawResult K V :=
  match r.index with
  | none => ⟨r.d, none, r.existing⟩
  | some idx =>
    if dictIsRehashing r.d then
      ⟨⟨r.d.ht0,
        ⟨r.d.ht1.table.set idx (⟨key, v⟩ :: bucketAt r.d.ht1 idx),
          r.d.ht1.size, r.d.ht1.sizemask, r.d.ht1.used + 1⟩,
        r.d.rehashidx, r.d.iterators⟩, some ⟨key, v⟩, none⟩
    else
      ⟨⟨⟨r.d.ht0.table.set idx (⟨key, v⟩ :: bucketAt r.d.ht0 idx),
          r.d.ht0.size, r.d.ht0.sizemask, r.d.ht0.used + 1⟩,
        r.d.ht1, r.d.rehashidx, r.d.iterators⟩, some ⟨key, v⟩, none⟩

/-- `dictAddRaw`: one rehash step if rehashing, then key-index lookup, then
head insertion into `ht[1]` if (still) rehashing, else into `ht[0]`.  The C
code leaves the new entry's value unset for the caller's `dictSetVal`; the
value `v` stored by that subsequent call is passed in directly. -/
def dictAddRaw (hashF : K → Nat) (canResize : Bool) (d : Dict K V)
    (key : K) (v : V) : AddRawResult K V :=
  dictAddRawInsert
    (dictKeyIndex hashF canResize
      (if dictIsRehashing d then dictRehashStep hashF d else d) key (hashF key))
    key v

/-- `dictAdd`: insert if absent; `true` encodes `DICT_OK`. -/
def dictAdd (hashF : K → Nat) (canResize : Bool) (d : Dict K V)
    (key : K) (v : V) : Dict K V × Bool :=
  let r := dictAddRaw hashF canResize d key v
  (r.d, r.entry.isSome)

/-- Overwrite the value of the first entry with key `k` in a chain. -/
def chainSetVal (k : K) (v : V) : List (DictEntry K V) → List (DictEntry K V)
  | [] => []
  | e :: rest =>
    if e.key = k then { e with val := v } :: rest else e :: chainSetVal k v rest

/-- `dictReplace`: try `dictAddRaw`; on success return 1 (`true`).  If the
key exists, set the new value first and only then destroy the old value
(recorded as a `freeVal` trace event), returning 0 (`false`). -/
def dictReplace (hashF : K → Nat) (canResize : Bool) (d : Dict K V)
    (key : K) (v : V) : Dict K V × Bool × List (FreeEv K V) :=
  let r := dictAddRaw hashF canResize d key v
  match r.entry with
  | some _ => (r.d, true, [])
  | none =>
    match r.existing with
    | none => (r.d, false, [])
    | some existing =>
      let h := hashF key
      let idx0 := h &&& r.d.ht0.sizemask
      let d' :=
        if (chainFind key (bucketAt r.d.ht0 idx0)).isSome then
          { r.d with ht0 := setBucket r.d.ht0 idx0 (chainSetVal key v (bucketAt r.d.ht0 idx0)) }
        else
          let idx1 := h &&& r.d.ht1.sizemask
          { r.d with ht1 := setBucket r.d.ht1 idx1 (chainSetVal key v (bucketAt r.d.ht1 idx1)) }
      (d', false, [FreeEv.freeVal existing.val])

/-! ## Lookup (`dictFind`) -/

/-- `dictFind`: early out on an empty dict, one rehash step if rehashing,
then probe `ht[0]` and, while rehashing, `ht[1]`. -/
def dictFind (hashF : K → Nat) (d : Dict K V) (key : K) :
    Dict K V × Option (DictEntry K V) :=
  if d.ht0.used + d.ht1.used = 0 then (d, none)
  else
    let d1 := if dictIsRehashing d then dictRehashStep hashF d else d
    let h := hashF key
    let idx0 := h &&& d1.ht0.sizemask
    match chainFind key (bucketAt d1.ht0 idx0) with
    | some e => (d1, some e)
    | none =>
      if dictIsRehashing d1 then
        let idx1 := h &&& d1.ht1.sizemask
        (d1, chainFind key (bucketAt d1.ht1 idx1))
      else (d1, none)

/-! ## Deletion (`_dictGenericDelete`, `dictDelete`, `dictUnlink`,
`dictFreeUnlinkedEntry`) -/

/-- Remove the first entry with key `k` from a chain, returning it and the
remaining chain. -/
def chainRemoveFirst (k : K) :
    List (DictEntry K V) → Option (DictEntry K V × List (DictEntry K V))
  | [] => none
  | e :: rest =>
    if e.key = k then some (e, rest)
    else (chainRemoveFirst k rest).map fun p => (p.1, e :: p.2)

/-- Result of `_dictGenericDelete`: updated dict, the removed entry (the C
return value) and the destructor trace. -/
structure DeleteResult (K V : Type) where
  d : Dict K V
  entry : Option (DictEntry K V)
  trace : List (FreeEv K V)
deriving DecidableEq, Repr

/-- The search-and-unlink part of `_dictGenericDelete`, after the empty
check and the rehash step: search `ht[0]` and, while rehashing, `ht[1]`,
unlinking the first match.  With `nofree = false` the key and value
destructors run on the removed entry. -/
def dictGenericDeleteBody (hashF : K → Nat) (d1 : Dict K V) (key : K)
    (nofree : Bool) : DeleteResult K V :=
  match chainRemoveFirst key (bucketAt d1.ht0 (hashF key &&& d1.ht0.sizemask)) with
    | some (he, rest) =>
      ⟨⟨⟨d1.ht0.table.set (hashF key &&& d1.ht0.sizemask) rest,
          d1.ht0.size, d1.ht0.sizemask, d1.ht0.used - 1⟩,
        d1.ht1, d1.rehashidx, d1.iterators⟩,
        some he,
        if nofree then [] else [FreeEv.freeKey he.key, FreeEv.freeVal he.val]⟩
    | none =>
      if dictIsRehashing d1 then
        match chainRemoveFirst key (bucketAt d1.ht1 (hashF key &&& d1.ht1.sizemask)) with
        | some (he, rest) =>
          ⟨⟨d1.ht0,
            ⟨d1.ht1.table.set (hashF key &&& d1.ht1.sizemask) rest,
              d1.ht1.size, d1.ht1.sizemask, d1.ht1.used - 1⟩,
            d1.rehashidx, d1.iterators⟩,
            some he,
            if nofree then [] else [FreeEv.freeKey he.key, FreeEv.freeVal he.val]⟩
        | none => ⟨d1, none, []⟩
      else ⟨d1, none, []⟩

/-- `_dictGenericDelete`: early out when both tables are empty, one rehash
step if rehashing, then search and unlink. -/
def dictGenericDelete (hashF : K → Nat) (d : Dict K V) (key : K)
    (nofree : Bool) : DeleteResult K V :=
  if d.ht0.used = 0 ∧ d.ht1.used = 0 then ⟨d, none, []⟩
  else
    dictGenericDeleteBody hashF
      (if dictIsRehashing d then dictRehashStep hashF d else d) key nofree

/-- `dictDelete`: destructor-invoking removal; `true` encodes `DICT_OK`. -/
def dictDelete (hashF : K → Nat) (d : Dict K V) (key : K) :
    Dict K V × Bool × List (FreeEv K V) :=
  let r := dictGenericDelete hashF d key false
  (r.d, r.entry.isSome, r.trace)

/-- `dictUnlink`: removal without destructors, returning the detached
entry. -/
def dictUnlink (hashF : K → Nat) (d : Dict K V) (key : K) : DeleteResult K V :=
  dictGenericDelete hashF d key true

/-- `dictFreeUnlinkedEntry`: run both destructors on a previously unlinked
entry; a NULL entry is a no-op. -/
def dictFreeUnlinkedEntry : Option (DictEntry K V) → List (FreeEv K V)
  | none => []
  | some he => [FreeEv.freeKey he.key, FreeEv.freeVal he.val]

/-! ## Iterators (`dictGetIterator`, `dictGetSafeIterator`,
`dictReleaseIterator`) -/

/-- Iterator state.  The C struct's `d` pointer is passed separately to the
operations; `entry`/`nextEntry` model the traversal pointers. -/
structure DictIterator (K V : Type) where
  table : Nat
  index : Int
  safe : Bool
  entry : Option (DictEntry K V)
  nextEntry : Option (DictEntry K V)
  fingerprint : Int
deriving DecidableEq, Repr

/-- `dictGetIterator`: a fresh non-safe iterator. -/
def dictGetIterator : DictIterator K V :=
  ⟨0, -1, false, none, none, 0⟩

/-- `dictGetSafeIterator`: a fresh safe iterator. -/
def dictGetSafeIterator : DictIterator K V :=
  { (dictGetIterator : DictIterator K V) with safe := true }

/-- `dictReleaseIterator`: if the iterator ever advanced (not in its
initial `index = -1, table = 0` state), a safe iterator decrements the
live-iterator count and a non-safe iterator re-computes and asserts the
fingerprint.  The returned flag reports whether the fingerprint assertion
was evaluated (the only path that can abort the process). -/
def dictReleaseIterator (d : Dict K V) (iter : DictIterator K V) :
    Dict K V × Bool :=
  if ¬(iter.index = -1 ∧ iter.table = 0) then
    if iter.safe then ({ d with iterators := d.iterators - 1 }, false)
    else (d, true)
  else (d, false)

/-! ## Cursor scan (`rev`, `dictScan`) -/

/-- One round of the bit-reversal butterfly: `((v >> s) & mask) |
((v << s) & ~mask)` in 64-bit `unsigned long` arithmetic. -/
def revRound (s mask v : Nat) : Nat :=
  ((v >>> s) &&& mask) ||| (((v <<< s) % U64) &&& ((U64 - 1) ^^^ mask))

/-- The `while ((s >>= 1) > 0)` loop of `rev`, updating the block mask and
shuffling `v` at each width.  From `s = 64` the body runs exactly six
times (`s = 32, 16, 8, 4, 2, 1`), so a structural fuel of 6 is exact. -/
def revGo : Nat → Nat → Nat → Nat → Nat
  | 0, _, _, v => v
  | fuel + 1, s, mask, v =>
    let s2 := s >>> 1
    if 0 < s2 then
      let mask2 := mask ^^^ ((mask <<< s2) % U64)
      revGo fuel s2 mask2 (revRound s2 mask2 v)
    else v

/-- `rev`: reverse the 64 bits of an `unsigned long` (Stanford bit-hacks
parallel reversal, starting from `s = 8 * sizeof(v) = 64`, `mask = ~0`). -/
def rev (v : Nat) : Nat :=
  revGo 6 64 (U64 - 1) v

/-- The cursor increment shared by both branches of `dictScan`:
`v |= ~m; v = rev(v); v++; v = rev(v)` (the increment wraps mod 2^64). -/
def scanIncrement (v m : Nat) : Nat :=
  rev ((rev (v ||| ((U64 - 1) ^^^ m)) + 1) % U64)

/-- Result of one `dictScan` call: the next cursor and the entries fed to
the `fn` callback, in invocation order. -/
structure ScanResult (K V : Type) where
  cursor : Nat
  emitted : List (DictEntry K V)
deriving DecidableEq, Repr

/-- The `do/while` of the rehashing branch of `dictScan`: emit the bucket
of the larger table at `v & m1`, increment the reverse cursor with the
larger mask, and continue while the cursor has bits in `m0 ^ m1`.  The C
loop needs at most `m1 + 2` iterations (proved below for well-formed
masks); `fuel` makes the recursion structural. -/
def scanLargeLoop (t1 : Dictht K V) (m0 m1 : Nat) :
    Nat → Nat → List (DictEntry K V) → Nat × List (DictEntry K V)
  | _v, 0, acc => (0, acc)
  | v, fuel + 1, acc =>
    let acc' := acc ++ bucketAt t1 (v &&& m1)
    let v' := scanIncrement v m1
    if v' &&& (m0 ^^^ m1) ≠ 0 then scanLargeLoop t1 m0 m1 v' fuel acc'
    else (v', acc')

/-- `dictScan`: one scan step from cursor `v`.  An empty dict returns
cursor 0 at once.  When not rehashing, emit the `ht[0]` bucket at the
cursor and increment with `ht[0]`'s mask.  When rehashing, order the two
tables so `t0` is the smaller, emit its bucket, then walk every expansion
of the cursor in the larger table. -/
def dictScan (d : Dict K V) (v : Nat) : ScanResult K V :=
  if dictSize d = 0 then ⟨0, []⟩
  else if dictIsRehashing d = false then
    let t0 := d.ht0
    let m0 := t0.sizemask
    ⟨scanIncrement v m0, bucketAt t0 (v &&& m0)⟩
  else
    let t0 := if d.ht0.size > d.ht1.size then d.ht1 else d.ht0
    let t1 := if d.ht0.size > d.ht1.size then d.ht0 else d.ht1
    let m0 := t0.sizemask
    let m1 := t1.sizemask
    let emitted0 := bucketAt t0 (v &&& m0)
    let (v', emitted) := scanLargeLoop t1 m0 m1 v (m1 + 2) emitted0
    ⟨v', emitted⟩

/-! ## Well-formedness

`dict.c` maintains these representation invariants between API calls; the
theorems below take them as hypotheses on the input states. -/

/-- A power of two representable in an `unsigned long` table size. -/
def IsPow2 (n : Nat) : Prop :=
  ∃ b ∈ List.range 65, n = 2 ^ b

instance (n : Nat) : Decidable (IsPow2 n) := by
  unfold IsPow2; infer_instance

/-- Well-formed bucket table: the array has length `size`, the cached mask
is `size - 1`, `used` counts the stored entries, and every entry sits in
the bucket selected by its key's hash and the table mask. -/
def htWF (hashF : K → Nat) (t : Dictht K V) : Prop :=
  t.table.length = t.size ∧
  t.sizemask = t.size - 1 ∧
  t.used = countEntries t.table ∧
  ∀ i < t.table.length, ∀ e ∈ bucketAt t i, hashF e.key &&& t.sizemask = i

instance (hashF : K → Nat) (t : Dictht K V) : Decidable (htWF hashF t) := by
  unfold htWF; infer_instance

/-- Well-formed dictionary: both tables are well formed, `ht[0]` has a
power-of-two size (or is unallocated), `ht[1]` exists exactly while
rehashing, the two sizes differ while rehashing, the rehash cursor is in
range, and every `ht[0]` bucket below the cursor has been drained. -/
def dictWF (hashF : K → Nat) (d : Dict K V) : Prop :=
  htWF hashF d.ht0 ∧ htWF hashF d.ht1 ∧
  (d.ht0.size = 0 ∨ IsPow2 d.ht0.size) ∧
  -1 ≤ d.rehashidx ∧
  (d.rehashidx = -1 → d.ht1.size = 0 ∧ d.ht1.table = []) ∧
  (d.rehashidx ≠ -1 →
    0 < d.ht0.size ∧ 0 < d.ht1.size ∧ IsPow2 d.ht1.size ∧
    d.ht0.size ≠ d.ht1.size ∧ d.rehashidx.toNat ≤ d.ht0.size ∧
    ∀ i < d.rehashidx.toNat, bucketAt d.ht0 i = [])

instance (hashF : K → Nat) (d : Dict K V) : Decidable (dictWF hashF d) := by
  unfold dictWF; infer_instance

/-- The migration-monotonicity invariant on its own (spec §8.1.3): while
rehashing, every `ht[0]` bucket below the rehash cursor is empty. -/
def rehashDrained (d : Dict K V) : Prop :=
  dictIsRehashing d = true → ∀ i < d.rehashidx.toNat, bucketAt d.ht0 i = []

instance (d : Dict K V) : Decidable (rehashDrained d) := by
  unfold rehashDrained; infer_instance

end RedisNote

namespace RedisNote

/-! ## Event loop (ae.c)

Only the logic the claims are about is embedded: the per-descriptor
dispatch of one fired event inside `aeProcessEvents`, and
`processTimeEvents`.  Callback functions are represented by opaque
identifiers (`Nat`); an invocation record carries the identifier of the C
function pointer that is called and which role (read or write) fired it. -/

/-- `AE_READABLE`/`AE_WRITABLE`/`AE_BARRIER` bits of a file-event mask. -/
structure AeMask where
  readable : Bool
  writable : Bool
  barrier : Bool
deriving DecidableEq, Repr

/-- A registered file event: mask plus the two callback pointers
(`rfileProc`, `wfileProc`), as opaque identifiers. -/
structure AeFileEvent where
  mask : AeMask
  rfileProc : Nat
  wfileProc : Nat
deriving DecidableEq, Repr

/-- Which role of a file event fired a callback. -/
inductive AeCallKind where
  | readable
  | writable
deriving DecidableEq, Repr

/-- The per-descriptor dispatch block of `aeProcessEvents` for one fired
event `(fd, mask)`: without `AE_BARRIER` fire the readable callback, then
the writable one; with `AE_BARRIER` the order is inverted.  The second
callback in either order is suppressed when it is the same C function
pointer as the one already fired (`!fired || wfileProc != rfileProc`).
Returns the invocation list in order: (callback identifier, role). -/
def aeFireOne (fe : AeFileEvent) (fired : AeMask) : List (Nat × AeCallKind) :=
  let invert := fe.mask.barrier
  let l1 : List (Nat × AeCallKind) :=
    if invert = false ∧ fe.mask.readable ∧ fired.readable then
      [(fe.rfileProc, AeCallKind.readable)]
    else []
  let l2 : List (Nat × AeCallKind) :=
    if fe.mask.writable ∧ fired.writable ∧
        (l1.length = 0 ∨ fe.wfileProc ≠ fe.rfileProc) then
      [(fe.wfileProc, AeCallKind.writable)]
    else []
  let l3 : List (Nat × AeCallKind) :=
    if invert = true ∧ fe.mask.readable ∧ fired.readable ∧
        (l1.length + l2.length = 0 ∨ fe.wfileProc ≠ fe.rfileProc) then
      [(fe.rfileProc, AeCallKind.readable)]
    else []
  l1 ++ l2 ++ l3

/-- `AE_DELETED_EVENT_ID` (tombstone id). -/
def AE_DELETED_EVENT_ID : Int := -1

/-- `AE_NOMORE` (a time callback's "do not reschedule"). -/
def AE_NOMORE : Int := -1

/-- A time event: id (tombstoned by `AE_DELETED_EVENT_ID`), firing instant
in seconds and milliseconds; the doubly linked list becomes a Lean list. -/
structure AeTimeEvent where
  id : Int
  when_sec : Int
  when_ms : Int
deriving DecidableEq, Repr

/-- `aeAddMillisecondsToNow`: deadline `milliseconds` from now, with
millisecond carry into the seconds part. -/
def aeAddMillisecondsToNow (cur_sec cur_ms : Int) (milliseconds : Int) :
    Int × Int :=
  let when_sec := cur_sec + milliseconds / 1000
  let when_ms := cur_ms + milliseconds % 1000
  if when_ms ≥ 1000 then (when_sec + 1, when_ms - 1000) else (when_sec, when_ms)

/-- Result of `processTimeEvents`: remaining event list, ids fired (in
order) and the `processed` count. -/
structure TimePassResult where
  events : List AeTimeEvent
  firedIds : List Int
  processed : Nat
deriving DecidableEq, Repr

/-- The main loop of `processTimeEvents` over the event list.  Tombstoned
events are unlinked (their finalizer runs); events newer than the `maxId`
snapshot are skipped; a due event's callback (modelled by `timeProc`, from
event id to its return value) fires and the event is rescheduled at
`now + retval` or tombstoned on `AE_NOMORE`.  The wall clock is the pass's
`(now_sec, now_ms)` (the C code re-reads `gettimeofday` per event; a fixed
instant models one pass). -/
def processTimeEventsLoop (timeProc : Int → Int) (now_sec now_ms : Int)
    (maxId : Int) : List AeTimeEvent → TimePassResult
  | [] => ⟨[], [], 0⟩
  | te :: rest =>
    if te.id = AE_DELETED_EVENT_ID then
      processTimeEventsLoop timeProc now_sec now_ms maxId rest
    else if te.id > maxId then
      let r := processTimeEventsLoop timeProc now_sec now_ms maxId rest
      ⟨te :: r.events, r.firedIds, r.processed⟩
    else if now_sec > te.when_sec ∨ (now_sec = te.when_sec ∧ now_ms ≥ te.when_ms) then
      let retval := timeProc te.id
      let te' :=
        if retval ≠ AE_NOMORE then
          let w := aeAddMillisecondsToNow now_sec now_ms retval
          { te with when_sec := w.1, when_ms := w.2 }
        else { te with id := AE_DELETED_EVENT_ID }
      let r := processTimeEventsLoop timeProc now_sec now_ms maxId rest
      ⟨te' :: r.events, te.id :: r.firedIds, r.processed + 1⟩
    else
      let r := processTimeEventsLoop timeProc now_sec now_ms maxId rest
      ⟨te :: r.events, r.firedIds, r.processed⟩

/-- The clock-skew repair at the top of `processTimeEvents`: if the wall
clock moved backwards since the last pass, force every event's `when_sec`
to 0 so that all become due. -/
def skewRepair (now : Int) (lastTime : Int) (events : List AeTimeEvent) :
    List AeTimeEvent :=
  if now < lastTime then events.map fun te => { te with when_sec := 0 } else events

/-- `processTimeEvents`: skew repair, `maxId` snapshot
(`timeEventNextId - 1`), then the processing loop. -/
def processTimeEvents (timeProc : Int → Int) (now_sec now_ms : Int)
    (lastTime : Int) (timeEventNextId : Int) (events : List AeTimeEvent) :
    TimePassResult :=
  let events1 := skewRepair now_sec lastTime events
  processTimeEventsLoop timeProc now_sec now_ms (timeEventNextId - 1) events1

/-! ## Lazy free (lazyfree.c)

The `robj` fields read by this layer: type, encoding, the element count of
the underlying container (`quicklist` length / `dict` size / skiplist
length) and the reference count.  The type and encoding constants are the
standard `server.h` values (that header is not part of the sources). -/

/-- Value-object layout as read by `lazyfreeGetFreeEffort`. -/
structure Robj where
  otype : Nat
  encoding : Nat
  elems : Nat
  refcount : Int
deriving DecidableEq, Repr

def OBJ_STRING : Nat := 0
def OBJ_LIST : Nat := 1
def OBJ_SET : Nat := 2
def OBJ_ZSET : Nat := 3
def OBJ_HASH : Nat := 4
def OBJ_ENCODING_HT : Nat := 2
def OBJ_ENCODING_SKIPLIST : Nat := 7

/-- `lazyfreeGetFreeEffort`: element count for a quicklist-encoded list, a
hashtable-encoded set or hash, or a skiplist-encoded sorted set; 1 for
everything else. -/
def lazyfreeGetFreeEffort (o : Robj) : Nat :=
  if o.otype = OBJ_LIST then o.elems
  else if o.otype = OBJ_SET ∧ o.encoding = OBJ_ENCODING_HT then o.elems
  else if o.otype = OBJ_ZSET ∧ o.encoding = OBJ_ENCODING_SKIPLIST then o.elems
  else if o.otype = OBJ_HASH ∧ o.encoding = OBJ_ENCODING_HT then o.elems
  else 1

/-- `LAZYFREE_THRESHOLD`. -/
def LAZYFREE_THRESHOLD : Nat := 64

/-- A database: the keyspace dict (values are nullable object pointers, as
`dbAsyncDelete` stores NULL before lazily freeing) and the expires dict
(values are TTLs). -/
structure RedisDb (K : Type) where
  dict : Dict K (Option Robj)
  expires : Dict K Int
deriving DecidableEq

/-- Result of `dbAsyncDelete`: updated db, the object handed to the
background `BIO_LAZY_FREE` queue (if any), the destructor trace of
`dictFreeUnlinkedEntry` on the keyspace entry, and the C return value. -/
structure AsyncDeleteResult (K : Type) where
  db : RedisDb K
  enqueued : Option Robj
  trace : List (FreeEv K (Option Robj))
  ret : Nat
deriving DecidableEq

variable {K : Type} [DecidableEq K]

/-- `dbAsyncDelete`: delete the TTL entry (if the expires dict is
non-empty), unlink the keyspace entry, offload the value to the LazyFree
queue iff its free effort exceeds the threshold and its refcount is
exactly 1 (overwriting the entry's value with NULL first), then free the
unlinked entry; returns 1 when the key existed, 0 otherwise.  The
cluster-mode `slotToKeyDel` call touches only the cluster slot map and is
omitted. -/
def dbAsyncDelete (hashF : K → Nat) (db : RedisDb K) (key : K) :
    AsyncDeleteResult K :=
  let expires' :=
    if dictSize db.expires > 0 then (dictDelete hashF db.expires key).1
    else db.expires
  let u := dictUnlink hashF db.dict key
  match u.entry with
  | some de =>
    match de.val with
    | some val =>
      if lazyfreeGetFreeEffort val > LAZYFREE_THRESHOLD ∧ val.refcount = 1 then
        let de' : DictEntry K (Option Robj) := { de with val := none }
        ⟨⟨u.d, expires'⟩, some val, dictFreeUnlinkedEntry (some de'), 1⟩
      else
        ⟨⟨u.d, expires'⟩, none, dictFreeUnlinkedEntry (some de), 1⟩
    | none => ⟨⟨u.d, expires'⟩, none, dictFreeUnlinkedEntry (some de), 1⟩
  | none => ⟨⟨u.d, expires'⟩, none, [], 0⟩

/-- `freeObjAsync`: the same decision applied to an already-unlinked
object; returns `(enqueued, inlineFreed)`. -/
def freeObjAsync (o : Robj) : Option Robj × Option Robj :=
  if lazyfreeGetFreeEffort o > LAZYFREE_THRESHOLD ∧ o.refcount = 1 then
    (some o, none)
  else (none, some o)

/-! ## Spec-side definitions and concrete states

`specNextPow2` transcribes the specification's `next_pow2` ("next power of
two at least x"), to compare the spec's growth-target formula against
`_dictNextPower`.  The concrete dictionaries below are well-formed states
used to instantiate the theorems. -/

/-- The doubling loop of the spec's `next_pow2`, starting from 1; 64
doublings cover every 64-bit argument. -/
def specNextPow2Go (x : Nat) : Nat → Nat → Nat
  | 0, i => i
  | fuel + 1, i => if i ≥ x then i else specNextPow2Go x fuel (i * 2)

/-- The spec's `next_pow2(x)`: the least power of two `≥ x`. -/
def specNextPow2 (x : Nat) : Nat := specNextPow2Go x 64 1

/-- A size-4 table (identity hash) holding 21 entries, not rehashing:
`used > 5 × size` but `used / size = 5`. -/
def c2dict : Dict Nat Nat :=
  ⟨⟨[[⟨0, 0⟩, ⟨4, 0⟩, ⟨8, 0⟩, ⟨12, 0⟩, ⟨16, 0⟩, ⟨20, 0⟩],
     [⟨1, 0⟩, ⟨5, 0⟩, ⟨9, 0⟩, ⟨13, 0⟩, ⟨17, 0⟩],
     [⟨2, 0⟩, ⟨6, 0⟩, ⟨10, 0⟩, ⟨14, 0⟩, ⟨18, 0⟩],
     [⟨3, 0⟩, ⟨7, 0⟩, ⟨11, 0⟩, ⟨15, 0⟩, ⟨19, 0⟩]], 4, 3, 21⟩,
   ⟨[], 0, 0, 0⟩, -1, 0⟩

/-- A full size-4 table (identity hash, `used = size = 4`), not
rehashing: the next insert triggers growth. -/
def c3dict : Dict Nat Nat :=
  ⟨⟨[[⟨0, 0⟩], [⟨1, 0⟩], [⟨2, 0⟩], [⟨3, 0⟩]], 4, 3, 4⟩,
   ⟨[], 0, 0, 0⟩, -1, 0⟩

/-- A mid-rehash state (identity hash): `ht[0]` of size 4 with bucket 0
already drained, cursor at 1, `ht[1]` of size 8 still empty. -/
def c4dict : Dict Nat Nat :=
  ⟨⟨[[], [⟨1, 0⟩, ⟨5, 0⟩], [⟨2, 0⟩], [⟨3, 0⟩]], 4, 3, 4⟩,
   ⟨[[], [], [], [], [], [], [], []], 8, 7, 0⟩, 1, 0⟩

/-- A quicklist-encoded list object of 100 elements, reference count 1:
free effort 100 exceeds the LazyFree threshold. -/
def c6obj : Robj := ⟨OBJ_LIST, 0, 100, 1⟩

/-- A one-key database (identity hash): key 1 maps to `c6obj` and carries
a TTL. -/
def c6db : RedisDb Nat :=
  ⟨⟨⟨[[], [⟨1, some c6obj⟩], [], []], 4, 3, 1⟩, ⟨[], 0, 0, 0⟩, -1, 0⟩,
   ⟨⟨[[], [⟨1, 99⟩], [], []], 4, 3, 1⟩, ⟨[], 0, 0, 0⟩, -1, 0⟩⟩

/-- The cursor sequence `dictScan` produces on a static size-4 table
starting from 0: 0, 2, 1, 3, then back to 0. -/
def c1seq : Nat → Nat := fun i => [0, 2, 1, 3, 0].getD i 0

end RedisNote

namespace RedisNote

/-! ## Basic bucket, counting and migration lemmas -/

variable {K V : Type} [DecidableEq K] [DecidableEq V]

theorem bucketAt_setBucket_self (t : Dictht K V) (i : Nat) (c : List (DictEntry K V))
    (h : i < t.table.length) : bucketAt (setBucket t i c) i = c := by
  simp [bucketAt, setBucket, List.getD_eq_getElem?_getD, List.getElem?_set_self h]

theorem bucketAt_setBucket_ne (t : Dictht K V) (i j : Nat) (c : List (DictEntry K V))
    (h : j ≠ i) : bucketAt (setBucket t i c) j = bucketAt t j := by
  simp [bucketAt, setBucket, List.getD_eq_getElem?_getD,
    List.getElem?_set_ne (Ne.symm h)]

theorem bucketAt_of_le_length (t : Dictht K V) (i : Nat)
    (h : t.table.length ≤ i) : bucketAt t i = [] := by
  simp [bucketAt, List.getD_eq_getElem?_getD, List.getElem?_eq_none h]

theorem countEntries_nil_of_forall {tbl : List (List (DictEntry K V))}
    (h : ∀ c ∈ tbl, c = []) : countEntries tbl = 0 := by
  unfold countEntries
  induction tbl with
  | nil => rfl
  | cons c rest ih =>
    have hc := h c (by simp)
    simp only [List.map_cons, List.sum_cons, hc, List.length_nil, Nat.zero_add]
    exact ih fun x hx => h x (by simp [hx])

theorem forall_nil_of_countEntries {tbl : List (List (DictEntry K V))}
    (h : countEntries tbl = 0) : ∀ c ∈ tbl, c = [] := by
  unfold countEntries at h
  induction tbl with
  | nil => simp
  | cons c rest ih =>
    simp only [List.map_cons, List.sum_cons, Nat.add_eq_zero] at h
    intro x hx
    rcases List.mem_cons.mp hx with rfl | hx
    · exact List.length_eq_zero.mp h.1
    · exact ih h.2 x hx

theorem countEntries_set (tbl : List (List (DictEntry K V))) (j : Nat)
    (c : List (DictEntry K V)) (h : j < tbl.length) :
    countEntries (tbl.set j c) + (tbl.getD j []).length
      = countEntries tbl + c.length := by
  induction tbl generalizing j with
  | nil => simp at h
  | cons b rest ih =>
    cases j with
    | zero => simp [countEntries]; omega
    | succ j =>
      simp only [List.length_cons, Nat.succ_lt_succ_iff] at h
      have := ih j h
      simp only [List.set_cons_succ, countEntries, List.map_cons, List.sum_cons,
        List.getD_cons_succ] at *
      omega

theorem flatten_set_perm (tbl : List (List (DictEntry K V))) (j : Nat)
    (c : List (DictEntry K V)) (h : j < tbl.length) :
    (tbl.set j c).flatten.Perm (c ++ (tbl.set j []).flatten) := by
  induction tbl generalizing j with
  | nil => simp at h
  | cons b rest ih =>
    cases j with
    | zero => simp
    | succ j =>
      simp only [List.length_cons, Nat.succ_lt_succ_iff] at h
      simp only [List.set_cons_succ, List.flatten_cons]
      have h1 := (ih j h).append_left b
      refine h1.trans ?_
      have h2 := (@List.perm_append_comm _ b c).append_right
        (rest.set j []).flatten
      simpa [List.append_assoc] using h2

theorem flatten_getD_perm (tbl : List (List (DictEntry K V))) (j : Nat)
    (h : j < tbl.length) :
    tbl.flatten.Perm (tbl.getD j [] ++ (tbl.set j []).flatten) := by
  have h2 := flatten_set_perm tbl j (tbl.getD j []) h
  have : tbl.set j (tbl.getD j []) = tbl := by
    apply List.ext_getElem?
    intro i
    by_cases hij : i = j
    · subst hij
      simp [List.getElem?_set_self h, List.getD_eq_getElem?_getD,
        List.getElem?_eq_getElem h]
    · exact List.getElem?_set_ne (Ne.symm hij)
  rw [this] at h2
  exact h2

/-! ## `findNonemptyFrom` specification -/

theorem findNonemptyFromGo_some {tbl : List (List (DictEntry K V))} :
    ∀ {fuel i j : Nat}, findNonemptyFromGo tbl fuel i = some j →
    i ≤ j ∧ j < tbl.length ∧ tbl.getD j [] ≠ [] ∧
      ∀ x, i ≤ x → x < j → tbl.getD x [] = [] := by
  intro fuel
  induction fuel with
  | zero =>
    intro i j h
    exact Option.noConfusion h
  | succ n ih =>
    intro i j h
    rw [findNonemptyFromGo] at h
    split at h
    · next hlt =>
      split at h
      · next hne =>
        obtain rfl : i = j := by injection h
        exact ⟨le_refl _, hlt, hne, fun x hx1 hx2 => absurd (lt_of_le_of_lt hx1 hx2) (lt_irrefl _)⟩
      · next hcur =>
        have := ih h
        push_neg at hcur
        refine ⟨by omega, this.2.1, this.2.2.1, ?_⟩
        intro x hx1 hx2
        rcases Nat.eq_or_lt_of_le hx1 with rfl | hx1
        · exact hcur
        · exact this.2.2.2 x hx1 hx2
    · exact absurd h (by simp)

theorem findNonemptyFrom_some {tbl : List (List (DictEntry K V))} {i j : Nat}
    (h : findNonemptyFrom tbl i = some j) :
    i ≤ j ∧ j < tbl.length ∧ tbl.getD j [] ≠ [] ∧
      ∀ x, i ≤ x → x < j → tbl.getD x [] = [] :=
  findNonemptyFromGo_some h

theorem findNonemptyFromGo_none {tbl : List (List (DictEntry K V))} :
    ∀ {fuel i : Nat}, tbl.length ≤ fuel + i →
    findNonemptyFromGo tbl fuel i = none → ∀ x, i ≤ x → tbl.getD x [] = [] := by
  intro fuel
  induction fuel with
  | zero =>
    intro i hn h x hx
    exact List.getD_eq_default _ _ (by omega)
  | succ n ih =>
    intro i hn h x hx
    rw [findNonemptyFromGo] at h
    split at h
    · next hlt =>
      split at h
      · simp at h
      · next hcur =>
        push_neg at hcur
        rcases Nat.eq_or_lt_of_le hx with rfl | hx2
        · exact hcur
        · exact ih (by omega) h x hx2
    · next hge => exact List.getD_eq_default _ _ (by omega)

theorem findNonemptyFrom_none {tbl : List (List (DictEntry K V))} {i : Nat}
    (h : findNonemptyFrom tbl i = none) :
    ∀ x, i ≤ x → tbl.getD x [] = [] :=
  findNonemptyFromGo_none (by omega) h

/-- When the bucket at the cursor itself is non-empty, the search stops
there. -/
theorem findNonemptyFrom_at {tbl : List (List (DictEntry K V))} {i : Nat}
    (hlt : i < tbl.length) (hne : tbl.getD i [] ≠ []) :
    findNonemptyFrom tbl i = some i := by
  show findNonemptyFromGo tbl (tbl.length + 1) i = some i
  rw [findNonemptyFromGo, if_pos hlt, if_pos hne]

/-! ## `_dictNextPower` lemmas -/

theorem dictNextPowerGo_ge (size : Nat) :
    ∀ (fuel i : Nat), size ≤ i * 2 ^ fuel → size ≤ dictNextPowerGo size fuel i := by
  intro fuel
  induction fuel with
  | zero =>
    intro i h
    rw [dictNextPowerGo]
    simpa using h
  | succ n ih =>
    intro i h
    rw [dictNextPowerGo]
    split
    · assumption
    · refine ih (i * 2) ?_
      have h2 : i * 2 ^ (n + 1) = i * 2 * 2 ^ n := by ring
      omega

theorem dictNextPowerGo_pow (size : Nat) :
    ∀ (fuel a c : Nat), a ≤ c → size ≤ 2 ^ c →
    ∃ k, a ≤ k ∧ k ≤ c ∧ dictNextPowerGo size fuel (2 ^ a) = 2 ^ k := by
  intro fuel
  induction fuel with
  | zero =>
    intro a c hac _
    exact ⟨a, le_refl _, hac, rfl⟩
  | succ n ih =>
    intro a c hac hsize
    rw [dictNextPowerGo]
    split
    · exact ⟨a, le_refl _, hac, rfl⟩
    · next hlt =>
      push_neg at hlt
      have hac2 : a + 1 ≤ c := by
        rcases Nat.eq_or_lt_of_le hac with rfl | h
        · exact absurd hsize (by omega)
        · omega
      have h2 : (2 : Nat) ^ a * 2 = 2 ^ (a + 1) := by ring
      obtain ⟨k, hk1, hk2, hk3⟩ := ih (a + 1) c hac2 hsize
      refine ⟨k, by omega, hk2, ?_⟩
      rw [← hk3]
      simp only [h2]

theorem dictNextPower_pow2 (size : Nat) :
    ∃ k, 2 ≤ k ∧ k ≤ 63 ∧ dictNextPower size = 2 ^ k := by
  unfold dictNextPower
  split
  · exact ⟨63, by norm_num, le_refl _, by norm_num [LONG_MAX]⟩
  · next h =>
    push_neg at h
    have hsize : size ≤ 2 ^ 63 := by
      have : LONG_MAX = 2 ^ 63 - 1 := rfl
      omega
    obtain ⟨k, hk1, hk2, hk3⟩ := dictNextPowerGo_pow size 64 2 63 (by norm_num) hsize
    exact ⟨k, hk1, hk2, hk3⟩

theorem dictNextPower_ge (size : Nat) (h : size < LONG_MAX) :
    size ≤ dictNextPower size := by
  unfold dictNextPower
  split
  · omega
  · refine dictNextPowerGo_ge size 64 DICT_HT_INITIAL_SIZE ?_
    have h1 : DICT_HT_INITIAL_SIZE * 2 ^ 64 = 73786976294838206464 := by
      norm_num [DICT_HT_INITIAL_SIZE]
    have h2 : LONG_MAX = 9223372036854775807 := by norm_num [LONG_MAX]
    omega

theorem mem_bucketAt_lt_length {t : Dictht K V} {i : Nat} {e : DictEntry K V}
    (h : e ∈ bucketAt t i) : i < t.table.length := by
  by_contra hc
  push_neg at hc
  rw [bucketAt_of_le_length t i hc] at h
  simp at h

theorem htWF_placement {hashF : K → Nat} {t : Dictht K V} (hwf : htWF hashF t) :
    ∀ i, ∀ e ∈ bucketAt t i, hashF e.key &&& t.sizemask = i := by
  intro i e he
  exact hwf.2.2.2 i (mem_bucketAt_lt_length he) e he

/-- On a power-of-two-sized table, `hash &&& sizemask` is a valid index. -/
theorem mask_index_lt {hashF : K → Nat} {t : Dictht K V} (hwf : htWF hashF t)
    (hpow : IsPow2 t.size) (hash : Nat) : hash &&& t.sizemask < t.table.length := by
  obtain ⟨b, _, hb⟩ := hpow
  rw [hwf.1, hb, hwf.2.1, hb, Nat.and_pow_two_sub_one_eq_mod]
  exact Nat.mod_lt _ (Nat.two_pow_pos b)

/-! ## `migrateChain` lemmas -/

/-- The single-entry migration step inside `migrateChain`. -/
def migrateStep (hashF : K → Nat) (t1 : Dictht K V) (e : DictEntry K V) :
    Dictht K V :=
  ⟨t1.table.set (hashF e.key &&& t1.sizemask) (e :: bucketAt t1 (hashF e.key &&& t1.sizemask)),
    t1.size, t1.sizemask, t1.used + 1⟩

theorem migrateChain_cons (hashF : K → Nat) (t1 : Dictht K V)
    (e : DictEntry K V) (rest : List (DictEntry K V)) :
    migrateChain hashF t1 (e :: rest) = migrateChain hashF (migrateStep hashF t1 e) rest := rfl

@[simp] theorem migrateStep_size (hashF : K → Nat) (t1 : Dictht K V) (e : DictEntry K V) :
    (migrateStep hashF t1 e).size = t1.size := rfl

@[simp] theorem migrateStep_sizemask (hashF : K → Nat) (t1 : Dictht K V) (e : DictEntry K V) :
    (migrateStep hashF t1 e).sizemask = t1.sizemask := rfl

@[simp] theorem migrateStep_used (hashF : K → Nat) (t1 : Dictht K V) (e : DictEntry K V) :
    (migrateStep hashF t1 e).used = t1.used + 1 := rfl

theorem migrateStep_table_length (hashF : K → Nat) (t1 : Dictht K V) (e : DictEntry K V) :
    (migrateStep hashF t1 e).table.length = t1.table.length := by
  simp [migrateStep]

theorem bucketAt_migrateStep_self (hashF : K → Nat) (t1 : Dictht K V) (e : DictEntry K V)
    (h : hashF e.key &&& t1.sizemask < t1.table.length) :
    bucketAt (migrateStep hashF t1 e) (hashF e.key &&& t1.sizemask)
      = e :: bucketAt t1 (hashF e.key &&& t1.sizemask) := by
  simp [migrateStep, bucketAt, List.getD_eq_getElem?_getD, List.getElem?_set_self h]

theorem bucketAt_migrateStep_ne (hashF : K → Nat) (t1 : Dictht K V) (e : DictEntry K V)
    (i : Nat) (h : i ≠ hashF e.key &&& t1.sizemask) :
    bucketAt (migrateStep hashF t1 e) i = bucketAt t1 i := by
  simp [migrateStep, bucketAt, List.getD_eq_getElem?_getD,
    List.getElem?_set_ne (Ne.symm h)]

theorem migrateChain_fields (hashF : K → Nat) (t1 : Dictht K V)
    (c : List (DictEntry K V)) :
    (migrateChain hashF t1 c).size = t1.size ∧
    (migrateChain hashF t1 c).sizemask = t1.sizemask ∧
    (migrateChain hashF t1 c).table.length = t1.table.length ∧
    (migrateChain hashF t1 c).used = t1.used + c.length := by
  induction c generalizing t1 with
  | nil => simp [migrateChain]
  | cons e rest ih =>
    rw [migrateChain_cons]
    obtain ⟨h1, h2, h3, h4⟩ := ih (migrateStep hashF t1 e)
    rw [migrateStep_table_length] at h3
    simp only [migrateStep_size, migrateStep_sizemask, migrateStep_used] at *
    exact ⟨h1, h2, h3, by simp only [List.length_cons]; omega⟩

theorem migrateStep_htWF {hashF : K → Nat} {t1 : Dictht K V} (e : DictEntry K V)
    (hwf : htWF hashF t1) (hpow : IsPow2 t1.size) :
    htWF hashF (migrateStep hashF t1 e) := by
  have hidx := mask_index_lt hwf hpow (hashF e.key)
  refine ⟨?_, hwf.2.1, ?_, ?_⟩
  · rw [migrateStep_table_length]; exact hwf.1
  · have hc := countEntries_set t1.table (hashF e.key &&& t1.sizemask)
      (e :: bucketAt t1 (hashF e.key &&& t1.sizemask)) hidx
    have hb : t1.table.getD (hashF e.key &&& t1.sizemask) []
        = bucketAt t1 (hashF e.key &&& t1.sizemask) := rfl
    rw [hb] at hc
    have hused := hwf.2.2.1
    show t1.used + 1 = countEntries (t1.table.set _ _)
    simp only [List.length_cons] at hc
    omega
  · intro i hi e' he'
    rw [migrateStep_table_length] at hi
    by_cases hieq : i = hashF e.key &&& t1.sizemask
    · subst hieq
      rw [bucketAt_migrateStep_self hashF t1 e hidx] at he'
      rcases List.mem_cons.mp he' with rfl | he'
      · rfl
      · exact htWF_placement hwf _ e' he'
    · rw [bucketAt_migrateStep_ne hashF t1 e i hieq] at he'
      exact htWF_placement hwf _ e' he'

theorem migrateChain_htWF {hashF : K → Nat} {t1 : Dictht K V}
    (c : List (DictEntry K V)) (hwf : htWF hashF t1) (hpow : IsPow2 t1.size) :
    htWF hashF (migrateChain hashF t1 c) := by
  induction c generalizing t1 with
  | nil => simpa [migrateChain] using hwf
  | cons e rest ih =>
    rw [migrateChain_cons]
    exact ih (migrateStep_htWF e hwf hpow) hpow

theorem migrateStep_flatten_perm {hashF : K → Nat} {t1 : Dictht K V} (e : DictEntry K V)
    (hidx : hashF e.key &&& t1.sizemask < t1.table.length) :
    (migrateStep hashF t1 e).table.flatten.Perm (e :: t1.table.flatten) := by
  have h1 := flatten_set_perm t1.table (hashF e.key &&& t1.sizemask)
    (e :: bucketAt t1 (hashF e.key &&& t1.sizemask)) hidx
  have h2 := flatten_getD_perm t1.table (hashF e.key &&& t1.sizemask) hidx
  have hb : t1.table.getD (hashF e.key &&& t1.sizemask) []
      = bucketAt t1 (hashF e.key &&& t1.sizemask) := rfl
  rw [hb] at h2
  refine h1.trans ?_
  have h3 : (e :: bucketAt t1 (hashF e.key &&& t1.sizemask)) ++
        (t1.table.set (hashF e.key &&& t1.sizemask) []).flatten
      = e :: (bucketAt t1 (hashF e.key &&& t1.sizemask) ++
        (t1.table.set (hashF e.key &&& t1.sizemask) []).flatten) := rfl
  rw [h3]
  exact (h2.symm.cons e)

theorem migrateChain_flatten_perm {hashF : K → Nat} {t1 : Dictht K V}
    (c : List (DictEntry K V)) (hwf : htWF hashF t1) (hpow : IsPow2 t1.size) :
    (migrateChain hashF t1 c).table.flatten.Perm (c ++ t1.table.flatten) := by
  induction c generalizing t1 with
  | nil => simp [migrateChain]
  | cons e rest ih =>
    rw [migrateChain_cons]
    have hidx := mask_index_lt hwf hpow (hashF e.key)
    have h1 := ih (migrateStep_htWF e hwf hpow) (by simpa using hpow)
    have h2 := migrateStep_flatten_perm e hidx
    refine (h1.trans (h2.append_left rest)).trans ?_
    exact List.perm_middle.trans (List.Perm.refl _)

theorem migrateChain_bucket_mono {hashF : K → Nat} {t1 : Dictht K V}
    (c : List (DictEntry K V)) (i : Nat) {x : DictEntry K V}
    (hx : x ∈ bucketAt t1 i) :
    x ∈ bucketAt (migrateChain hashF t1 c) i := by
  induction c generalizing t1 with
  | nil => simpa [migrateChain] using hx
  | cons e rest ih =>
    rw [migrateChain_cons]
    refine ih ?_
    by_cases hieq : i = hashF e.key &&& t1.sizemask
    · subst hieq
      by_cases hlt : hashF e.key &&& t1.sizemask < t1.table.length
      · rw [bucketAt_migrateStep_self hashF t1 e hlt]
        exact List.mem_cons_of_mem e hx
      · push_neg at hlt
        rw [bucketAt_of_le_length t1 _ hlt] at hx
        simp at hx
    · rw [bucketAt_migrateStep_ne hashF t1 e i hieq]
      exact hx

theorem migrateChain_mem_target {hashF : K → Nat} {t1 : Dictht K V}
    (c : List (DictEntry K V)) (hwf : htWF hashF t1) (hpow : IsPow2 t1.size) :
    ∀ e ∈ c, e ∈ bucketAt (migrateChain hashF t1 c) (hashF e.key &&& t1.sizemask) := by
  induction c generalizing t1 with
  | nil => simp
  | cons e rest ih =>
    intro x hx
    rw [migrateChain_cons]
    rcases List.mem_cons.mp hx with rfl | hx
    · have hidx := mask_index_lt hwf hpow (hashF x.key)
      apply migrateChain_bucket_mono
      rw [bucketAt_migrateStep_self hashF t1 x hidx]
      exact List.mem_cons_self x _
    · have := ih (migrateStep_htWF e hwf hpow) (by simpa using hpow) x hx
      simpa using this

/-! ## Rehash preservation -/

theorem dictIsRehashing_iff (d : Dict K V) :
    dictIsRehashing d = true ↔ d.rehashidx ≠ -1 := by
  simp [dictIsRehashing]

theorem natCast_ne_negOne (m : Nat) : ((m : Nat) : Int) ≠ -1 := by omega

theorem neg_one_le_natCast (m : Nat) : (-1 : Int) ≤ ((m : Nat) : Int) := by omega

theorem toNat_natCast_eq (m : Nat) : ((m : Nat) : Int).toNat = m := by omega

theorem bucket_length_le_countEntries (tbl : List (List (DictEntry K V))) (j : Nat)
    (h : j < tbl.length) : (tbl.getD j []).length ≤ countEntries tbl := by
  have h2 := countEntries_set tbl j [] h
  simp only [List.length_nil] at h2
  omega

theorem flatten_eq_nil_of_used_zero {hashF : K → Nat} {t : Dictht K V}
    (hwf : htWF hashF t) (h : t.used = 0) : t.table.flatten = [] := by
  rw [List.flatten_eq_nil_iff]
  apply forall_nil_of_countEntries
  rw [← hwf.2.2.1, h]

/-- Facts about the completion check `rehashFinish`. -/
theorem rehashFinish_master {hashF : K → Nat} (d : Dict K V) (mig emp : Nat)
    (hwf : dictWF hashF d) (hreh : d.rehashidx ≠ -1) :
    dictWF hashF (rehashFinish d mig emp).d ∧
    ((rehashFinish d mig emp).d.ht0.table.flatten ++
      (rehashFinish d mig emp).d.ht1.table.flatten).Perm
      (d.ht0.table.flatten ++ d.ht1.table.flatten) ∧
    (rehashFinish d mig emp).migrated = mig ∧
    (rehashFinish d mig emp).empties = emp ∧
    (d.ht0.used ≠ 0 → (rehashFinish d mig emp).ret = 1) ∧
    (rehashFinish d mig emp).d.iterators = d.iterators := by
  obtain ⟨hwf0, hwf1, hpow0, hge, hnon, hrclause⟩ := hwf
  obtain ⟨hs0, hs1, hpow1, hne, hcur, hdrained⟩ := hrclause hreh
  unfold rehashFinish
  split
  · next hused =>
    have hflat : d.ht0.table.flatten = [] := flatten_eq_nil_of_used_zero hwf0 hused
    refine ⟨⟨hwf1, ?_, Or.inr hpow1, by norm_num, fun _ => ⟨rfl, rfl⟩,
      fun h => absurd rfl h⟩, ?_, rfl, rfl, fun h => absurd hused h, rfl⟩
    · exact ⟨rfl, rfl, rfl, by intro i hi; simp [dictResetHt] at hi⟩
    · show (d.ht1.table.flatten ++ List.flatten []).Perm _
      rw [hflat]
      simp
  · next hused =>
    exact ⟨⟨hwf0, hwf1, hpow0, hge, hnon, hrclause⟩, List.Perm.refl _, rfl, rfl,
      fun _ => rfl, rfl⟩

/-- Advancing the rehash cursor over a run of drained buckets preserves
well-formedness. -/
theorem dictWF_cursorAdvance {hashF : K → Nat} {d : Dict K V}
    (hwf : dictWF hashF d) (hreh : d.rehashidx ≠ -1) (m : Nat)
    (_hm0 : d.rehashidx.toNat ≤ m) (hms : m ≤ d.ht0.size)
    (hempty : ∀ x, d.rehashidx.toNat ≤ x → x < m → bucketAt d.ht0 x = []) :
    dictWF hashF ⟨d.ht0, d.ht1, ((m : Nat) : Int), d.iterators⟩ := by
  obtain ⟨hwf0, hwf1, hpow0, hge, hnon, hrclause⟩ := hwf
  obtain ⟨hs0, hs1, hpow1, hne, hcur, hdrained⟩ := hrclause hreh
  refine ⟨hwf0, hwf1, hpow0, neg_one_le_natCast m,
    fun h => absurd h (natCast_ne_negOne m), fun _ => ?_⟩
  refine ⟨hs0, hs1, hpow1, hne, ?_, ?_⟩
  · show ((m : Nat) : Int).toNat ≤ d.ht0.size
    rw [toNat_natCast_eq]
    exact hms
  · show ∀ x < ((m : Nat) : Int).toNat, bucketAt d.ht0 x = []
    rw [toNat_natCast_eq]
    intro x hx
    by_cases hxi : x < d.rehashidx.toNat
    · exact hdrained x hxi
    · push_neg at hxi
      exact hempty x hxi hx

/-- Master lemma for the `dictRehash` loop: well-formedness and the entry
multiset are preserved, at most `n` buckets are migrated, at most `ev`
further empty buckets are probed, and exhausting the empty-bucket budget
returns 1. -/
theorem dictRehashLoop_master (hashF : K → Nat) :
    ∀ (n : Nat) (d : Dict K V) (ev mig emp : Nat),
      dictWF hashF d → d.rehashidx ≠ -1 →
      dictWF hashF (dictRehashLoop hashF d n ev mig emp).d ∧
      ((dictRehashLoop hashF d n ev mig emp).d.ht0.table.flatten ++
        (dictRehashLoop hashF d n ev mig emp).d.ht1.table.flatten).Perm
        (d.ht0.table.flatten ++ d.ht1.table.flatten) ∧
      (dictRehashLoop hashF d n ev mig emp).migrated ≤ mig + n ∧
      (dictRehashLoop hashF d n ev mig emp).empties ≤ emp + ev ∧
      ((dictRehashLoop hashF d n ev mig emp).empties = emp + ev → 0 < ev →
        (dictRehashLoop hashF d n ev mig emp).ret = 1) ∧
      (dictRehashLoop hashF d n ev mig emp).d.iterators = d.iterators := by
  intro n
  induction n with
  | zero =>
    intro d ev mig emp hwf hreh
    obtain ⟨h1, h2, h3, h4, h5, h6⟩ := rehashFinish_master d mig emp hwf hreh
    rw [show dictRehashLoop hashF d 0 ev mig emp = rehashFinish d mig emp from rfl]
    exact ⟨h1, h2, by omega, by omega, fun he hev => by omega, h6⟩
  | succ n ih =>
    intro d ev mig emp hwf hreh
    rw [dictRehashLoop]
    split
    · next hused =>
      obtain ⟨h1, h2, h3, h4, h5, h6⟩ := rehashFinish_master d mig emp hwf hreh
      exact ⟨h1, h2, by omega, by omega, fun he hev => by omega, h6⟩
    · next hused =>
      have hwfc := hwf
      obtain ⟨hwf0, hwf1, hpow0, hge, hnon, hrclause⟩ := hwfc
      obtain ⟨hs0, hs1, hpow1, hne, hcur, hdrained⟩ := hrclause hreh
      cases hfind : findNonemptyFrom d.ht0.table d.rehashidx.toNat with
      | some j =>
        obtain ⟨hij, hjlen, hjne, hempties⟩ := findNonemptyFrom_some hfind
        rw [hwf0.1] at hjlen
        simp only [hfind]
        split
        · next hev =>
          have hwfadv := dictWF_cursorAdvance hwf hreh (d.rehashidx.toNat + ev)
            (by omega) (by omega)
            (fun x hx1 hx2 => hempties x hx1 (by omega))
          exact ⟨hwfadv, List.Perm.refl _, by show mig ≤ mig + (n + 1); omega,
            le_refl _, fun _ _ => rfl, rfl⟩
        · next hev =>
          push_neg at hev
          have hjlen' : j < d.ht0.table.length := by rw [hwf0.1]; exact hjlen
          have hchain_le : (bucketAt d.ht0 j).length ≤ countEntries d.ht0.table :=
            bucket_length_le_countEntries d.ht0.table j hjlen'
          have hwf0' : htWF hashF
              (⟨d.ht0.table.set j [], d.ht0.size, d.ht0.sizemask,
                d.ht0.used - (bucketAt d.ht0 j).length⟩ : Dictht K V) := by
            refine ⟨?_, hwf0.2.1, ?_, ?_⟩
            · show (d.ht0.table.set j []).length = d.ht0.size
              rw [List.length_set]
              exact hwf0.1
            · have hc := countEntries_set d.ht0.table j ([] : List (DictEntry K V)) hjlen'
              have hu := hwf0.2.2.1
              show d.ht0.used - (bucketAt d.ht0 j).length = countEntries (d.ht0.table.set j [])
              simp only [List.length_nil] at hc
              have hb : d.ht0.table.getD j [] = bucketAt d.ht0 j := rfl
              rw [hb] at hc
              omega
            · intro x hx e he
              show hashF e.key &&& d.ht0.sizemask = x
              by_cases hxj : x = j
              · subst hxj
                have hb2 : bucketAt (⟨d.ht0.table.set x [], d.ht0.size, d.ht0.sizemask,
                    d.ht0.used - (bucketAt d.ht0 x).length⟩ : Dictht K V) x = [] := by
                  show (d.ht0.table.set x []).getD x [] = []
                  rw [List.getD_eq_getElem?_getD, List.getElem?_set_self hjlen']
                  rfl
                rw [hb2] at he
                simp at he
              · have hb2 : bucketAt (⟨d.ht0.table.set j [], d.ht0.size, d.ht0.sizemask,
                    d.ht0.used - (bucketAt d.ht0 j).length⟩ : Dictht K V) x
                    = bucketAt d.ht0 x := by
                  show (d.ht0.table.set j []).getD x [] = d.ht0.table.getD x []
                  rw [List.getD_eq_getElem?_getD, List.getElem?_set_ne (Ne.symm hxj),
                    List.getD_eq_getElem?_getD]
                rw [hb2] at he
                exact htWF_placement hwf0 x e he
          have hwf1' : htWF hashF (migrateChain hashF d.ht1 (bucketAt d.ht0 j)) :=
            migrateChain_htWF _ hwf1 hpow1
          have hfields := migrateChain_fields hashF d.ht1 (bucketAt d.ht0 j)
          have hwfd2 : dictWF hashF
              (⟨⟨d.ht0.table.set j [], d.ht0.size, d.ht0.sizemask,
                  d.ht0.used - (bucketAt d.ht0 j).length⟩,
                migrateChain hashF d.ht1 (bucketAt d.ht0 j),
                ((j + 1 : Nat) : Int), d.iterators⟩ : Dict K V) := by
            refine ⟨hwf0', hwf1', Or.elim hpow0 Or.inl (fun h => Or.inr h),
              neg_one_le_natCast (j + 1),
              fun h => absurd h (natCast_ne_negOne (j + 1)), fun _ => ?_⟩
            refine ⟨hs0, ?_, ?_, ?_, ?_, ?_⟩
            · show 0 < (migrateChain hashF d.ht1 (bucketAt d.ht0 j)).size
              rw [hfields.1]
              exact hs1
            · show IsPow2 (migrateChain hashF d.ht1 (bucketAt d.ht0 j)).size
              rw [hfields.1]
              exact hpow1
            · show d.ht0.size ≠ (migrateChain hashF d.ht1 (bucketAt d.ht0 j)).size
              rw [hfields.1]
              exact hne
            · show (((j + 1 : Nat) : Int)).toNat ≤ d.ht0.size
              rw [toNat_natCast_eq]
              rw [← hwf0.1]
              omega
            · intro x hx
              have hx2 : x < j + 1 := by simpa [toNat_natCast_eq] using hx
              by_cases hxj : x = j
              · subst hxj
                show (d.ht0.table.set x []).getD x [] = []
                rw [List.getD_eq_getElem?_getD, List.getElem?_set_self hjlen']
                rfl
              · show (d.ht0.table.set j []).getD x [] = []
                rw [List.getD_eq_getElem?_getD, List.getElem?_set_ne (Ne.symm hxj),
                  ← List.getD_eq_getElem?_getD]
                by_cases hxi : x < d.rehashidx.toNat
                · exact hdrained x hxi
                · push_neg at hxi
                  exact hempties x hxi (by omega)
          have hperm2 : ((d.ht0.table.set j []).flatten ++
              (migrateChain hashF d.ht1 (bucketAt d.ht0 j)).table.flatten).Perm
              (d.ht0.table.flatten ++ d.ht1.table.flatten) := by
            have hp1 := migrateChain_flatten_perm (bucketAt d.ht0 j) hwf1 hpow1
            have hp0 := flatten_getD_perm d.ht0.table j hjlen'
            have hb : d.ht0.table.getD j [] = bucketAt d.ht0 j := rfl
            rw [hb] at hp0
            refine ((List.Perm.refl (d.ht0.table.set j []).flatten).append hp1).trans ?_
            have step1 : ((d.ht0.table.set j []).flatten ++
                (bucketAt d.ht0 j ++ d.ht1.table.flatten)).Perm
                ((bucketAt d.ht0 j ++ (d.ht0.table.set j []).flatten) ++
                  d.ht1.table.flatten) := by
              have hcomm := @List.perm_append_comm _
                ((d.ht0.table.set j []).flatten) (bucketAt d.ht0 j)
              have h2 := hcomm.append_right d.ht1.table.flatten
              simpa [List.append_assoc] using h2
            refine step1.trans ?_
            exact hp0.symm.append_right d.ht1.table.flatten
          obtain ⟨ih1, ih2, ih3, ih4, ih5, ih6⟩ :=
            ih _ (ev - (j - d.rehashidx.toNat)) (mig + 1)
              (emp + (j - d.rehashidx.toNat)) hwfd2 (natCast_ne_negOne (j + 1))
          refine ⟨ih1, ih2.trans hperm2, by omega, by omega, ?_, by rw [ih6]⟩
          intro hemp hev0
          exact ih5 (by omega) (by omega)
      | none =>
        exfalso
        have hall := findNonemptyFrom_none hfind
        have hnil : ∀ c ∈ d.ht0.table, c = [] := by
          intro c hc
          obtain ⟨x, hx, hcx⟩ := List.getElem_of_mem hc
          have hgd : d.ht0.table.getD x [] = c := by
            rw [List.getD_eq_getElem?_getD, List.getElem?_eq_getElem hx, hcx]
            rfl
          by_cases hxi : x < d.rehashidx.toNat
          · rw [← hgd]
            exact hdrained x hxi
          · push_neg at hxi
            rw [← hgd]
            exact hall x hxi
        have hcz : countEntries d.ht0.table = 0 := countEntries_nil_of_forall hnil
        rw [hwf0.2.2.1] at hused
        exact hused hcz
/-- `dictRehash` preserves well-formedness and the stored entries, migrates
at most `n` buckets, probes at most `10 n` empty buckets, and returns 1 the
moment the probing budget is exhausted. -/
theorem dictRehash_master (hashF : K → Nat) (d : Dict K V) (n : Nat)
    (hwf : dictWF hashF d) :
    dictWF hashF (dictRehash hashF d n).d ∧
    (dictAllEntries (dictRehash hashF d n).d).Perm (dictAllEntries d) ∧
    (dictRehash hashF d n).migrated ≤ n ∧
    (dictRehash hashF d n).empties ≤ 10 * n ∧
    ((dictRehash hashF d n).empties = 10 * n → 0 < n →
      (dictRehash hashF d n).ret = 1) ∧
    (dictRehash hashF d n).d.iterators = d.iterators := by
  unfold dictRehash
  split
  · next hreh =>
    rw [dictIsRehashing_iff] at hreh
    obtain ⟨h1, h2, h3, h4, h5, h6⟩ := dictRehashLoop_master hashF n d (n * 10) 0 0 hwf hreh
    exact ⟨h1, h2, by omega, by omega, fun he hn => h5 (by omega) (by omega), h6⟩
  · exact ⟨hwf, List.Perm.refl _, by show (0:Nat) ≤ n; omega,
      by show (0:Nat) ≤ 10 * n; omega, fun he hn => by simp at he; omega, rfl⟩

/-- `_dictRehashStep` preserves well-formedness, the stored entries and the
iterator count. -/
theorem dictRehashStep_master (hashF : K → Nat) (d : Dict K V)
    (hwf : dictWF hashF d) :
    dictWF hashF (dictRehashStep hashF d) ∧
    (dictAllEntries (dictRehashStep hashF d)).Perm (dictAllEntries d) ∧
    (dictRehashStep hashF d).iterators = d.iterators := by
  unfold dictRehashStep
  split
  · obtain ⟨h1, h2, _, _, _, h6⟩ := dictRehash_master hashF d 1 hwf
    exact ⟨h1, h2, h6⟩
  · exact ⟨hwf, List.Perm.refl _, rfl⟩

theorem bucketAt_newTable (realsize : Nat) (i : Nat) :
    bucketAt (⟨List.replicate realsize [], realsize, realsize - 1, 0⟩ : Dictht K V) i
      = [] := by
  show (List.replicate realsize ([] : List (DictEntry K V))).getD i [] = []
  rw [List.getD_eq_getElem?_getD, List.getElem?_replicate]
  split <;> rfl

theorem htWF_newTable (hashF : K → Nat) (realsize : Nat) :
    htWF hashF (⟨List.replicate realsize [], realsize, realsize - 1, 0⟩ : Dictht K V) := by
  refine ⟨by simp, rfl, ?_, ?_⟩
  · show 0 = countEntries (List.replicate realsize [])
    symm
    apply countEntries_nil_of_forall
    intro c hc
    exact (List.eq_of_mem_replicate hc)
  · intro i hi e he
    rw [bucketAt_newTable] at he
    simp at he

theorem flatten_newTable (realsize : Nat) :
    (List.replicate realsize ([] : List (DictEntry K V))).flatten = [] := by
  rw [List.flatten_eq_nil_iff]
  intro l hl
  exact List.eq_of_mem_replicate hl

/-- `dictExpand` preserves well-formedness and the stored entries; on
success with an already-allocated `ht[0]` it installs `ht[1]` and starts
rehashing at cursor 0. -/
theorem dictExpand_master (hashF : K → Nat) (d : Dict K V) (size : Nat)
    (hwf : dictWF hashF d) :
    dictWF hashF (dictExpand d size).1 ∧
    (dictAllEntries (dictExpand d size).1).Perm (dictAllEntries d) ∧
    (dictExpand d size).1.iterators = d.iterators := by
  obtain ⟨hwf0, hwf1, hpow0, hge, hnon, hrclause⟩ := hwf
  unfold dictExpand
  split
  · exact ⟨⟨hwf0, hwf1, hpow0, hge, hnon, hrclause⟩, List.Perm.refl _, rfl⟩
  · next hok =>
    push_neg at hok
    have hreh : d.rehashidx = -1 := by
      have h := hok.1
      simp [dictIsRehashing] at h
      exact h
    obtain ⟨hn1size, hn1tbl⟩ := hnon hreh
    obtain ⟨k, hk2, hk63, hkpow⟩ := dictNextPower_pow2 size
    split
    · exact ⟨⟨hwf0, hwf1, hpow0, hge, hnon, hrclause⟩, List.Perm.refl _, rfl⟩
    · next hneq =>
      split
      · next htbl =>
        refine ⟨⟨htWF_newTable hashF _, hwf1, ?_, ?_, ?_, ?_⟩, ?_, rfl⟩
        · right
          exact ⟨k, List.mem_range.mpr (by omega), hkpow⟩
        · show -1 ≤ d.rehashidx
          exact hge
        · intro _
          exact hnon hreh
        · intro h
          exact absurd hreh h
        · show ((List.replicate (dictNextPower size) ([] : List (DictEntry K V))).flatten
            ++ d.ht1.table.flatten).Perm (d.ht0.table.flatten ++ d.ht1.table.flatten)
          rw [flatten_newTable, htbl]
          simp
      · next htbl =>
        refine ⟨⟨hwf0, htWF_newTable hashF _, hpow0, by norm_num, ?_, fun _ => ?_⟩, ?_, rfl⟩
        · intro h
          exact absurd h (by norm_num)
        · refine ⟨?_, ?_, ?_, ?_, ?_, ?_⟩
          · show 0 < d.ht0.size
            rw [← hwf0.1]
            exact List.length_pos.mpr htbl
          · show 0 < dictNextPower size
            rw [hkpow]
            exact Nat.two_pow_pos k
          · show IsPow2 (dictNextPower size)
            exact ⟨k, List.mem_range.mpr (by omega), hkpow⟩
          · exact fun h => hneq h.symm
          · show (0 : Int).toNat ≤ d.ht0.size
            simp
          · intro x hx
            simp at hx
        · show (d.ht0.table.flatten ++
              (List.replicate (dictNextPower size) ([] : List (DictEntry K V))).flatten).Perm
            (d.ht0.table.flatten ++ d.ht1.table.flatten)
          rw [flatten_newTable, hn1tbl]
          simp

/-- `_dictExpandIfNeeded` preserves well-formedness and the stored
entries. -/
theorem dictExpandIfNeeded_master (hashF : K → Nat) (canResize : Bool)
    (d : Dict K V) (hwf : dictWF hashF d) :
    dictWF hashF (dictExpandIfNeeded canResize d).1 ∧
    (dictAllEntries (dictExpandIfNeeded canResize d).1).Perm (dictAllEntries d) ∧
    (dictExpandIfNeeded canResize d).1.iterators = d.iterators := by
  unfold dictExpandIfNeeded
  split
  · exact ⟨hwf, List.Perm.refl _, rfl⟩
  · split
    · exact dictExpand_master hashF d DICT_HT_INITIAL_SIZE hwf
    · split
      · exact dictExpand_master hashF d (d.ht0.used * 2) hwf
      · exact ⟨hwf, List.Perm.refl _, rfl⟩

/-! ## Search and deletion lemmas -/

/-- Keys are pairwise distinct across both tables (maintained by
`dict.c`; insertion refuses duplicates). -/
def keysNodup (d : Dict K V) : Prop :=
  ((dictAllEntries d).map DictEntry.key).Nodup

instance (d : Dict K V) : Decidable (keysNodup d) := by
  unfold keysNodup; infer_instance

theorem chainRemoveFirst_some {k : K} {chain : List (DictEntry K V)}
    {he : DictEntry K V} {rest : List (DictEntry K V)}
    (h : chainRemoveFirst k chain = some (he, rest)) :
    he.key = k ∧ chain.Perm (he :: rest) := by
  induction chain generalizing rest with
  | nil => simp [chainRemoveFirst] at h
  | cons e tail ih =>
    rw [chainRemoveFirst] at h
    split at h
    · next heq =>
      simp only [Option.some.injEq, Prod.mk.injEq] at h
      obtain ⟨rfl, rfl⟩ := h
      exact ⟨heq, List.Perm.refl _⟩
    · next heq =>
      cases htail : chainRemoveFirst k tail with
      | none => rw [htail] at h; exact Option.noConfusion h
      | some p =>
        obtain ⟨he2, rest2⟩ := p
        rw [htail] at h
        have h2 : some (he2, e :: rest2) = some (he, rest) := h
        simp only [Option.some.injEq, Prod.mk.injEq] at h2
        obtain ⟨rfl, hr⟩ := h2
        subst hr
        obtain ⟨hk, hperm⟩ := ih htail
        exact ⟨hk, (hperm.cons e).trans (List.Perm.swap he2 e rest2)⟩

theorem chainRemoveFirst_none {k : K} {chain : List (DictEntry K V)} :
    chainRemoveFirst k chain = none ↔ ∀ e ∈ chain, e.key ≠ k := by
  induction chain with
  | nil => simp [chainRemoveFirst]
  | cons e tail ih =>
    rw [chainRemoveFirst]
    split
    · next heq =>
      constructor
      · intro h
        exact Option.noConfusion h
      · intro h
        exact absurd heq (h e (by simp))
    · next heq =>
      cases htail : chainRemoveFirst k tail with
      | none =>
        constructor
        · intro _ x hx
          rcases List.mem_cons.mp hx with rfl | hx
          · exact heq
          · exact ih.mp htail x hx
        · intro _; rfl
      | some p =>
        constructor
        · intro h
          exact Option.noConfusion h
        · intro h
          have h2 := ih.mpr fun x hx => h x (List.mem_cons_of_mem e hx)
          rw [h2] at htail
          exact Option.noConfusion htail

theorem chainRemoveFirst_isSome {k : K} {chain : List (DictEntry K V)} :
    (chainRemoveFirst k chain).isSome = true ↔ ∃ e ∈ chain, e.key = k := by
  constructor
  · intro h
    by_contra hc
    push_neg at hc
    rw [chainRemoveFirst_none.mpr hc] at h
    simp at h
  · rintro ⟨e, he, hk⟩
    cases hr : chainRemoveFirst k chain with
    | none => exact absurd hk (chainRemoveFirst_none.mp hr e he)
    | some p => simp

theorem mem_flatten_iff_bucketAt (t : Dictht K V) (e : DictEntry K V) :
    e ∈ t.table.flatten ↔ ∃ i, e ∈ bucketAt t i := by
  rw [List.mem_flatten]
  constructor
  · rintro ⟨l, hl, hel⟩
    obtain ⟨i, hi, hli⟩ := List.getElem_of_mem hl
    refine ⟨i, ?_⟩
    have hb : bucketAt t i = l := by
      show t.table.getD i [] = l
      rw [List.getD_eq_getElem?_getD, List.getElem?_eq_getElem hi]
      simp [hli]
    rw [hb]
    exact hel
  · rintro ⟨i, hi⟩
    have hlt := mem_bucketAt_lt_length hi
    refine ⟨t.table[i], List.getElem_mem hlt, ?_⟩
    have hb : bucketAt t i = t.table[i] := by
      show t.table.getD i [] = _
      rw [List.getD_eq_getElem?_getD, List.getElem?_eq_getElem hlt]
      rfl
    rwa [hb] at hi

theorem countEntries_pos_of_mem {t : Dictht K V} {e : DictEntry K V}
    (h : e ∈ t.table.flatten) : 0 < countEntries t.table := by
  rw [List.mem_flatten] at h
  obtain ⟨l, hl, hel⟩ := h
  have h1 : l.length ∈ t.table.map List.length := List.mem_map_of_mem _ hl
  have h2 : l.length ≤ (t.table.map List.length).sum :=
    List.single_le_sum (fun x _ => Nat.zero_le x) _ h1
  have h3 : 0 < l.length := List.length_pos.mpr (List.ne_nil_of_mem hel)
  unfold countEntries
  omega

theorem dictContainsKey_size_pos {hashF : K → Nat} {d : Dict K V} {k : K}
    (hwf : dictWF hashF d) (h : dictContainsKey d k) :
    d.ht0.used ≠ 0 ∨ d.ht1.used ≠ 0 := by
  obtain ⟨e, he, _⟩ := h
  rw [dictAllEntries, List.mem_append] at he
  rcases he with he | he
  · left
    rw [hwf.1.2.2.1]
    have := countEntries_pos_of_mem he
    omega
  · right
    rw [hwf.2.1.2.2.1]
    have := countEntries_pos_of_mem he
    omega

/-- On a well-formed dict, an entry with key `k` lives either in the
`ht[0]` bucket at `hash & mask0` or, while rehashing, in the `ht[1]`
bucket at `hash & mask1`. -/
theorem contains_located {hashF : K → Nat} {d : Dict K V} {k : K}
    (hwf : dictWF hashF d) (h : dictContainsKey d k) :
    (∃ e ∈ bucketAt d.ht0 (hashF k &&& d.ht0.sizemask), e.key = k) ∨
    (dictIsRehashing d = true ∧
      ∃ e ∈ bucketAt d.ht1 (hashF k &&& d.ht1.sizemask), e.key = k) := by
  obtain ⟨e, he, hk⟩ := h
  subst hk
  rw [dictAllEntries, List.mem_append] at he
  rcases he with he | he
  · left
    obtain ⟨i, hi⟩ := (mem_flatten_iff_bucketAt d.ht0 e).mp he
    have hplace := htWF_placement hwf.1 i e hi
    rw [hplace]
    exact ⟨e, hi, rfl⟩
  · right
    obtain ⟨i, hi⟩ := (mem_flatten_iff_bucketAt d.ht1 e).mp he
    constructor
    · rw [dictIsRehashing_iff]
      intro hm1
      have h2 := (hwf.2.2.2.2.1 hm1).2
      have h3 : bucketAt d.ht1 i = [] := by
        show d.ht1.table.getD i [] = []
        rw [h2]
        rfl
      rw [h3] at hi
      simp at hi
    · have hplace := htWF_placement hwf.2.1 i e hi
      rw [hplace]
      exact ⟨e, hi, rfl⟩

theorem dictContainsKey_iff_of_perm {d d' : Dict K V}
    (hp : (dictAllEntries d').Perm (dictAllEntries d)) (k : K) :
    dictContainsKey d' k ↔ dictContainsKey d k := by
  unfold dictContainsKey
  constructor
  · rintro ⟨e, he, hk⟩
    exact ⟨e, hp.mem_iff.mp he, hk⟩
  · rintro ⟨e, he, hk⟩
    exact ⟨e, hp.mem_iff.mpr he, hk⟩

theorem keysNodup_of_perm {d d' : Dict K V}
    (hp : (dictAllEntries d').Perm (dictAllEntries d)) (hnd : keysNodup d) :
    keysNodup d' := by
  unfold keysNodup at *
  exact (hp.map DictEntry.key).nodup_iff.mpr hnd

/-- The rehash step performed at the top of the mutating operations,
`if (dictIsRehashing(d)) _dictRehashStep(d)`. -/
theorem stepOrId_master (hashF : K → Nat) (d : Dict K V) (hwf : dictWF hashF d) :
    dictWF hashF (if dictIsRehashing d then dictRehashStep hashF d else d) ∧
    (dictAllEntries (if dictIsRehashing d then dictRehashStep hashF d else d)).Perm
      (dictAllEntries d) ∧
    (if dictIsRehashing d then dictRehashStep hashF d else d).iterators = d.iterators := by
  split
  · exact dictRehashStep_master hashF d hwf
  · exact ⟨hwf, List.Perm.refl _, rfl⟩

/-- Master lemma for the search-and-unlink body of `_dictGenericDelete` on
a well-formed dict: the entry is found iff the key is present, the result
is well formed, a removed entry carries the searched key and completes the
remaining entries to the original multiset, and a miss leaves the dict
untouched. -/
theorem dictGenericDeleteBody_master (hashF : K → Nat) (d1 : Dict K V)
    (key : K) (nofree : Bool) (hwf : dictWF hashF d1) :
    ((dictGenericDeleteBody hashF d1 key nofree).entry.isSome = true ↔
      dictContainsKey d1 key) ∧
    dictWF hashF (dictGenericDeleteBody hashF d1 key nofree).d ∧
    (∀ he, (dictGenericDeleteBody hashF d1 key nofree).entry = some he →
      he.key = key ∧
      (he :: dictAllEntries (dictGenericDeleteBody hashF d1 key nofree).d).Perm
        (dictAllEntries d1)) ∧
    ((dictGenericDeleteBody hashF d1 key nofree).entry = none →
      (dictGenericDeleteBody hashF d1 key nofree).d = d1) ∧
    (dictGenericDeleteBody hashF d1 key nofree).d.iterators = d1.iterators := by
  obtain ⟨hwf0, hwf1, hpow0, hge, hnon, hrclause⟩ := hwf
  unfold dictGenericDeleteBody
  cases hc0 : chainRemoveFirst key (bucketAt d1.ht0 (hashF key &&& d1.ht0.sizemask)) with
  | some p =>
    obtain ⟨he, rest⟩ := p
    obtain ⟨hkey, hperm⟩ := chainRemoveFirst_some hc0
    have hmem : he ∈ bucketAt d1.ht0 (hashF key &&& d1.ht0.sizemask) :=
      hperm.mem_iff.mpr (List.mem_cons_self he rest)
    have hlen : hashF key &&& d1.ht0.sizemask < d1.ht0.table.length :=
      mem_bucketAt_lt_length hmem
    have hchainlen : (bucketAt d1.ht0 (hashF key &&& d1.ht0.sizemask)).length
        = rest.length + 1 := by
      have := hperm.length_eq
      simpa using this
    have hsetperm := flatten_set_perm d1.ht0.table (hashF key &&& d1.ht0.sizemask) rest hlen
    have hgetperm := flatten_getD_perm d1.ht0.table (hashF key &&& d1.ht0.sizemask) hlen
    have hb : d1.ht0.table.getD (hashF key &&& d1.ht0.sizemask) []
        = bucketAt d1.ht0 (hashF key &&& d1.ht0.sizemask) := rfl
    rw [hb] at hgetperm
    refine ⟨?_, ?_, ?_, ?_, rfl⟩
    · constructor
      · intro _
        exact ⟨he, List.mem_append.mpr (Or.inl ((mem_flatten_iff_bucketAt d1.ht0 he).mpr
          ⟨_, hmem⟩)), hkey⟩
      · intro _
        rfl
    · -- well-formedness of the result
      refine ⟨⟨?_, hwf0.2.1, ?_, ?_⟩, hwf1, hpow0, hge, hnon, ?_⟩
      · show (d1.ht0.table.set _ rest).length = d1.ht0.size
        rw [List.length_set]
        exact hwf0.1
      · show d1.ht0.used - 1 = countEntries (d1.ht0.table.set _ rest)
        have hc := countEntries_set d1.ht0.table (hashF key &&& d1.ht0.sizemask) rest hlen
        rw [hb] at hc
        have hu := hwf0.2.2.1
        have hcl := bucket_length_le_countEntries d1.ht0.table
          (hashF key &&& d1.ht0.sizemask) hlen
        rw [hb] at hcl
        omega
      · intro x hx e he2
        show hashF e.key &&& d1.ht0.sizemask = x
        by_cases hxe : x = hashF key &&& d1.ht0.sizemask
        · rw [hxe] at he2 ⊢
          have hbx : bucketAt (⟨d1.ht0.table.set (hashF key &&& d1.ht0.sizemask) rest,
              d1.ht0.size, d1.ht0.sizemask,
              d1.ht0.used - 1⟩ : Dictht K V) (hashF key &&& d1.ht0.sizemask) = rest := by
            show (d1.ht0.table.set _ rest).getD _ [] = rest
            rw [List.getD_eq_getElem?_getD, List.getElem?_set_self hlen]
            rfl
          rw [hbx] at he2
          have hmem2 : e ∈ bucketAt d1.ht0 (hashF key &&& d1.ht0.sizemask) :=
            hperm.mem_iff.mpr (List.mem_cons_of_mem he he2)
          exact htWF_placement hwf0 _ e hmem2
        · have hbx : bucketAt (⟨d1.ht0.table.set (hashF key &&& d1.ht0.sizemask) rest,
              d1.ht0.size, d1.ht0.sizemask, d1.ht0.used - 1⟩ : Dictht K V) x
              = bucketAt d1.ht0 x := by
            show (d1.ht0.table.set _ rest).getD x [] = d1.ht0.table.getD x []
            rw [List.getD_eq_getElem?_getD, List.getElem?_set_ne (Ne.symm hxe),
              List.getD_eq_getElem?_getD]
          rw [hbx] at he2
          exact htWF_placement hwf0 x e he2
      · intro hreh
        obtain ⟨hs0, hs1, hpow1, hne, hcur, hdrained⟩ := hrclause hreh
        refine ⟨hs0, hs1, hpow1, hne, hcur, ?_⟩
        intro x hx
        by_cases hxe : x = hashF key &&& d1.ht0.sizemask
        · exfalso
          have hempty := hdrained x hx
          rw [hxe] at hempty
          rw [hempty] at hmem
          simp at hmem
        · show (d1.ht0.table.set _ rest).getD x [] = []
          rw [List.getD_eq_getElem?_getD, List.getElem?_set_ne (Ne.symm hxe),
            ← List.getD_eq_getElem?_getD]
          exact hdrained x hx
    · rintro he2 h
      obtain rfl : he = he2 := by injection h
      refine ⟨hkey, ?_⟩
      show (he :: ((d1.ht0.table.set _ rest).flatten ++ d1.ht1.table.flatten)).Perm
        (d1.ht0.table.flatten ++ d1.ht1.table.flatten)
      have s1 : (he :: ((d1.ht0.table.set (hashF key &&& d1.ht0.sizemask) rest).flatten
          ++ d1.ht1.table.flatten)).Perm
          (he :: ((rest ++ (d1.ht0.table.set (hashF key &&& d1.ht0.sizemask) []).flatten)
            ++ d1.ht1.table.flatten)) :=
        ((hsetperm.append_right d1.ht1.table.flatten).cons he)
      refine s1.trans ?_
      have s2 : he :: ((rest ++ (d1.ht0.table.set (hashF key &&& d1.ht0.sizemask) []).flatten)
          ++ d1.ht1.table.flatten)
          = ((he :: rest) ++ (d1.ht0.table.set (hashF key &&& d1.ht0.sizemask) []).flatten)
            ++ d1.ht1.table.flatten := by
        simp
      rw [s2]
      have s3 : (((he :: rest) ++ (d1.ht0.table.set (hashF key &&& d1.ht0.sizemask) []).flatten)
          ++ d1.ht1.table.flatten).Perm
          ((bucketAt d1.ht0 (hashF key &&& d1.ht0.sizemask)
            ++ (d1.ht0.table.set (hashF key &&& d1.ht0.sizemask) []).flatten)
            ++ d1.ht1.table.flatten) :=
        (hperm.symm.append_right _).append_right _
      refine s3.trans ?_
      exact (hgetperm.symm.append_right _)
    · intro h
      exact Option.noConfusion h
  | none =>
    split
    · rename_i heq
      exact Option.noConfusion heq
    · split
      · next hreh =>
        have hrehidx : d1.rehashidx ≠ -1 := (dictIsRehashing_iff d1).mp hreh
        obtain ⟨hs0, hs1, hpow1, hne, hcur, hdrained⟩ := hrclause hrehidx
        cases hc1 : chainRemoveFirst key (bucketAt d1.ht1 (hashF key &&& d1.ht1.sizemask)) with
        | some p =>
          obtain ⟨he, rest⟩ := p
          obtain ⟨hkey, hperm⟩ := chainRemoveFirst_some hc1
          have hmem : he ∈ bucketAt d1.ht1 (hashF key &&& d1.ht1.sizemask) :=
            hperm.mem_iff.mpr (List.mem_cons_self he rest)
          have hlen : hashF key &&& d1.ht1.sizemask < d1.ht1.table.length :=
            mem_bucketAt_lt_length hmem
          have hsetperm := flatten_set_perm d1.ht1.table (hashF key &&& d1.ht1.sizemask) rest hlen
          have hgetperm := flatten_getD_perm d1.ht1.table (hashF key &&& d1.ht1.sizemask) hlen
          have hb : d1.ht1.table.getD (hashF key &&& d1.ht1.sizemask) []
              = bucketAt d1.ht1 (hashF key &&& d1.ht1.sizemask) := rfl
          rw [hb] at hgetperm
          refine ⟨?_, ?_, ?_, ?_, rfl⟩
          · constructor
            · intro _
              exact ⟨he, List.mem_append.mpr (Or.inr ((mem_flatten_iff_bucketAt d1.ht1 he).mpr
                ⟨_, hmem⟩)), hkey⟩
            · intro _
              rfl
          · refine ⟨hwf0, ⟨?_, hwf1.2.1, ?_, ?_⟩, hpow0, hge, ?_, ?_⟩
            · show (d1.ht1.table.set _ rest).length = d1.ht1.size
              rw [List.length_set]
              exact hwf1.1
            · show d1.ht1.used - 1 = countEntries (d1.ht1.table.set _ rest)
              have hc := countEntries_set d1.ht1.table (hashF key &&& d1.ht1.sizemask) rest hlen
              rw [hb] at hc
              have hu := hwf1.2.2.1
              have hcl := bucket_length_le_countEntries d1.ht1.table
                (hashF key &&& d1.ht1.sizemask) hlen
              rw [hb] at hcl
              have hchainlen : (bucketAt d1.ht1 (hashF key &&& d1.ht1.sizemask)).length
                  = rest.length + 1 := by
                have := hperm.length_eq
                simpa using this
              omega
            · intro x hx e he2
              show hashF e.key &&& d1.ht1.sizemask = x
              by_cases hxe : x = hashF key &&& d1.ht1.sizemask
              · rw [hxe] at he2 ⊢
                have hbx : bucketAt (⟨d1.ht1.table.set (hashF key &&& d1.ht1.sizemask) rest,
                    d1.ht1.size, d1.ht1.sizemask,
                    d1.ht1.used - 1⟩ : Dictht K V) (hashF key &&& d1.ht1.sizemask) = rest := by
                  show (d1.ht1.table.set _ rest).getD _ [] = rest
                  rw [List.getD_eq_getElem?_getD, List.getElem?_set_self hlen]
                  rfl
                rw [hbx] at he2
                have hmem2 : e ∈ bucketAt d1.ht1 (hashF key &&& d1.ht1.sizemask) :=
                  hperm.mem_iff.mpr (List.mem_cons_of_mem he he2)
                exact htWF_placement hwf1 _ e hmem2
              · have hbx : bucketAt (⟨d1.ht1.table.set (hashF key &&& d1.ht1.sizemask) rest,
                    d1.ht1.size, d1.ht1.sizemask, d1.ht1.used - 1⟩ : Dictht K V) x
                    = bucketAt d1.ht1 x := by
                  show (d1.ht1.table.set _ rest).getD x [] = d1.ht1.table.getD x []
                  rw [List.getD_eq_getElem?_getD, List.getElem?_set_ne (Ne.symm hxe),
                    List.getD_eq_getElem?_getD]
                rw [hbx] at he2
                exact htWF_placement hwf1 x e he2
            · intro h
              exact absurd h hrehidx
            · intro _
              exact ⟨hs0, hs1, hpow1, hne, hcur, hdrained⟩
          · rintro he2 h
            obtain rfl : he = he2 := by injection h
            refine ⟨hkey, ?_⟩
            show (he :: (d1.ht0.table.flatten ++ (d1.ht1.table.set _ rest).flatten)).Perm
              (d1.ht0.table.flatten ++ d1.ht1.table.flatten)
            have s1 : (he :: (d1.ht0.table.flatten
                ++ (d1.ht1.table.set (hashF key &&& d1.ht1.sizemask) rest).flatten)).Perm
                (d1.ht0.table.flatten
                  ++ (he :: (d1.ht1.table.set (hashF key &&& d1.ht1.sizemask) rest).flatten)) :=
              List.perm_middle.symm
            refine s1.trans ?_
            apply List.Perm.append_left
            have s2 : (he :: (d1.ht1.table.set (hashF key &&& d1.ht1.sizemask) rest).flatten).Perm
                (he :: (rest ++ (d1.ht1.table.set (hashF key &&& d1.ht1.sizemask) []).flatten)) :=
              hsetperm.cons he
            refine s2.trans ?_
            have s3 : he :: (rest ++ (d1.ht1.table.set (hashF key &&& d1.ht1.sizemask) []).flatten)
                = (he :: rest) ++ (d1.ht1.table.set (hashF key &&& d1.ht1.sizemask) []).flatten :=
              rfl
            rw [s3]
            refine (hperm.symm.append_right _).trans ?_
            exact hgetperm.symm
          · intro h
            exact Option.noConfusion h
        | none =>
          have hnc : ¬ dictContainsKey d1 key := by
            intro hcont
            rcases contains_located ⟨hwf0, hwf1, hpow0, hge, hnon, hrclause⟩ hcont with
              ⟨e, he, hk⟩ | ⟨_, e, he, hk⟩
            · exact chainRemoveFirst_none.mp hc0 e he hk
            · exact chainRemoveFirst_none.mp hc1 e he hk
          exact ⟨by simp [hnc], ⟨hwf0, hwf1, hpow0, hge, hnon, hrclause⟩,
            fun he h => Option.noConfusion h, fun _ => rfl, rfl⟩
      · next hreh =>
        have hnc : ¬ dictContainsKey d1 key := by
          intro hcont
          rcases contains_located ⟨hwf0, hwf1, hpow0, hge, hnon, hrclause⟩ hcont with
            ⟨e, he, hk⟩ | ⟨hr, _⟩
          · exact chainRemoveFirst_none.mp hc0 e he hk
          · exact hreh hr
        exact ⟨by simp [hnc], ⟨hwf0, hwf1, hpow0, hge, hnon, hrclause⟩,
          fun he h => Option.noConfusion h, fun _ => rfl, rfl⟩

/-- Master lemma for `_dictGenericDelete` on a well-formed dict. -/
theorem dictGenericDelete_master (hashF : K → Nat) (d : Dict K V) (key : K)
    (nofree : Bool) (hwf : dictWF hashF d) :
    ((dictGenericDelete hashF d key nofree).entry.isSome = true ↔
      dictContainsKey d key) ∧
    dictWF hashF (dictGenericDelete hashF d key nofree).d ∧
    (∀ he, (dictGenericDelete hashF d key nofree).entry = some he →
      he.key = key ∧
      (he :: dictAllEntries (dictGenericDelete hashF d key nofree).d).Perm
        (dictAllEntries d)) ∧
    ((dictGenericDelete hashF d key nofree).entry = none →
      (dictAllEntries (dictGenericDelete hashF d key nofree).d).Perm
        (dictAllEntries d)) ∧
    (dictGenericDelete hashF d key nofree).d.iterators = d.iterators := by
  unfold dictGenericDelete
  split
  · next hempty =>
    have hnc : ¬ dictContainsKey d key := by
      intro hcont
      rcases dictContainsKey_size_pos hwf hcont with h | h
      · exact h hempty.1
      · exact h hempty.2
    exact ⟨by simp [hnc], hwf, fun he h => Option.noConfusion h,
      fun _ => List.Perm.refl _, rfl⟩
  · obtain ⟨hwf1, hperm1, hiter1⟩ := stepOrId_master hashF d hwf
    obtain ⟨b1, b2, b3, b4, b5⟩ := dictGenericDeleteBody_master hashF
      (if dictIsRehashing d then dictRehashStep hashF d else d) key nofree hwf1
    refine ⟨b1.trans (dictContainsKey_iff_of_perm hperm1 key), b2, ?_, ?_, b5.trans hiter1⟩
    · intro he h
      obtain ⟨hk, hp⟩ := b3 he h
      exact ⟨hk, hp.trans hperm1⟩
    · intro h
      rw [b4 h]
      exact hperm1

/-- After `_dictGenericDelete`, the key is gone (given key uniqueness). -/
theorem dictGenericDelete_removes (hashF : K → Nat) (d : Dict K V) (key : K)
    (nofree : Bool) (hwf : dictWF hashF d) (hnd : keysNodup d) :
    ¬ dictContainsKey (dictGenericDelete hashF d key nofree).d key := by
  obtain ⟨hiff, _, hsome, hnone, _⟩ := dictGenericDelete_master hashF d key nofree hwf
  cases hr : (dictGenericDelete hashF d key nofree).entry with
  | none =>
    intro hcont
    have h1 := (dictContainsKey_iff_of_perm (hnone hr) key).mp hcont
    have h2 := hiff.mpr h1
    rw [hr] at h2
    simp at h2
  | some he =>
    obtain ⟨hk, hp⟩ := hsome he hr
    intro hcont
    obtain ⟨e, hmem, hek⟩ := hcont
    have hnd2 : ((he :: dictAllEntries (dictGenericDelete hashF d key nofree).d).map
        DictEntry.key).Nodup := (hp.map DictEntry.key).nodup_iff.mpr hnd
    simp only [List.map_cons, List.nodup_cons] at hnd2
    refine hnd2.1 ?_
    have hmk : e.key ∈ (dictAllEntries (dictGenericDelete hashF d key nofree).d).map
        DictEntry.key := List.mem_map_of_mem DictEntry.key hmem
    rw [hek] at hmk
    rw [hk]
    exact hmk

/-- The `nofree` flag changes only the destructor trace: the resulting dict
and returned entry coincide, the `nofree` run performs no destructor calls,
and the destructing run's trace is exactly what `dictFreeUnlinkedEntry`
would later perform on the unlinked entry. -/
theorem dictGenericDeleteBody_nofree_eq (hashF : K → Nat) (d1 : Dict K V) (key : K) :
    (dictGenericDeleteBody hashF d1 key true).d = (dictGenericDeleteBody hashF d1 key false).d ∧
    (dictGenericDeleteBody hashF d1 key true).entry
      = (dictGenericDeleteBody hashF d1 key false).entry ∧
    (dictGenericDeleteBody hashF d1 key true).trace = [] ∧
    (dictGenericDeleteBody hashF d1 key false).trace
      = dictFreeUnlinkedEntry (dictGenericDeleteBody hashF d1 key true).entry := by
  unfold dictGenericDeleteBody
  cases hc0 : chainRemoveFirst key (bucketAt d1.ht0 (hashF key &&& d1.ht0.sizemask)) with
  | some p =>
    obtain ⟨he, rest⟩ := p
    exact ⟨rfl, rfl, rfl, rfl⟩
  | none =>
    split
    · rename_i heq
      exact Option.noConfusion heq
    · split
      · cases hc1 : chainRemoveFirst key (bucketAt d1.ht1 (hashF key &&& d1.ht1.sizemask)) with
        | some p =>
          obtain ⟨he, rest⟩ := p
          exact ⟨rfl, rfl, rfl, rfl⟩
        | none => exact ⟨rfl, rfl, rfl, rfl⟩
      · exact ⟨rfl, rfl, rfl, rfl⟩

theorem dictGenericDelete_nofree_eq (hashF : K → Nat) (d : Dict K V) (key : K) :
    (dictGenericDelete hashF d key true).d = (dictGenericDelete hashF d key false).d ∧
    (dictGenericDelete hashF d key true).entry
      = (dictGenericDelete hashF d key false).entry ∧
    (dictGenericDelete hashF d key true).trace = [] ∧
    (dictGenericDelete hashF d key false).trace
      = dictFreeUnlinkedEntry (dictGenericDelete hashF d key true).entry := by
  unfold dictGenericDelete
  split
  · exact ⟨rfl, rfl, rfl, rfl⟩
  · exact dictGenericDeleteBody_nofree_eq hashF _ key

/-! ## Insertion lemmas -/

/-- Success of the expansion check guarantees a usable `ht[0]`. -/
theorem dictExpand_ok_size (hashF : K → Nat) (d : Dict K V) (size : Nat)
    (hwf : dictWF hashF d) (hok : (dictExpand d size).2 = true) :
    0 < (dictExpand d size).1.ht0.size := by
  unfold dictExpand at hok ⊢
  by_cases h1 : dictIsRehashing d = true ∨ d.ht0.used > size
  · rw [if_pos h1] at hok
    simp at hok
  · rw [if_neg h1] at hok ⊢
    by_cases h2 : dictNextPower size = d.ht0.size
    · rw [if_pos h2] at hok
      simp at hok
    · rw [if_neg h2] at hok ⊢
      by_cases h3 : d.ht0.table = []
      · rw [if_pos h3]
        show 0 < dictNextPower size
        obtain ⟨k, _, _, hk⟩ := dictNextPower_pow2 size
        rw [hk]
        exact Nat.two_pow_pos k
      · rw [if_neg h3]
        show 0 < d.ht0.size
        rw [← hwf.1.1]
        exact List.length_pos.mpr h3

theorem dictExpandIfNeeded_ok_size (hashF : K → Nat) (canResize : Bool)
    (d : Dict K V) (hwf : dictWF hashF d)
    (hok : (dictExpandIfNeeded canResize d).2 = true)
    (hsz : 0 < d.ht0.size ∨ d.rehashidx = -1) :
    0 < (dictExpandIfNeeded canResize d).1.ht0.size := by
  unfold dictExpandIfNeeded at hok ⊢
  by_cases h1 : dictIsRehashing d = true
  · rw [if_pos h1] at hok ⊢
    show 0 < d.ht0.size
    rw [dictIsRehashing_iff] at h1
    rcases hsz with h | h
    · exact h
    · exact absurd h h1
  · rw [if_neg h1] at hok ⊢
    by_cases h2 : d.ht0.size = 0
    · rw [if_pos h2] at hok ⊢
      exact dictExpand_ok_size hashF d DICT_HT_INITIAL_SIZE hwf hok
    · rw [if_neg h2] at hok ⊢
      by_cases h3 : d.ht0.used ≥ d.ht0.size ∧
          (canResize = true ∨ d.ht0.used / d.ht0.size > dict_force_resize_ratio)
      · rw [if_pos h3] at hok ⊢
        exact dictExpand_ok_size hashF d (d.ht0.used * 2) hwf hok
      · rw [if_neg h3]
        show 0 < d.ht0.size
        omega

/-- The two-table search step does not modify the dict. -/
theorem dictKeyIndexSearch_d (d1 : Dict K V) (key : K) (hash : Nat) :
    (dictKeyIndexSearch d1 key hash).d = d1 := by
  unfold dictKeyIndexSearch
  cases hc0 : chainFind key (bucketAt d1.ht0 (hash &&& d1.ht0.sizemask)) with
  | some e => rfl
  | none =>
    by_cases hreh : dictIsRehashing d1 = true
    · rw [if_pos hreh]
      cases hc1 : chainFind key (bucketAt d1.ht1 (hash &&& d1.ht1.sizemask)) with
      | some e => rfl
      | none => rfl
    · rw [if_neg hreh]

/-- The insert slot returned by the search step is the key's bucket in the
table that will receive the insertion. -/
theorem dictKeyIndexSearch_index_spec (d1 : Dict K V) (key : K) (hash : Nat) :
    ∀ idx, (dictKeyIndexSearch d1 key hash).index = some idx →
      (dictIsRehashing d1 = true → idx = hash &&& d1.ht1.sizemask) ∧
      (dictIsRehashing d1 = false → idx = hash &&& d1.ht0.sizemask) := by
  unfold dictKeyIndexSearch
  cases hc0 : chainFind key (bucketAt d1.ht0 (hash &&& d1.ht0.sizemask)) with
  | some e =>
    intro idx hidx
    exact Option.noConfusion hidx
  | none =>
    by_cases hreh : dictIsRehashing d1 = true
    · rw [if_pos hreh]
      cases hc1 : chainFind key (bucketAt d1.ht1 (hash &&& d1.ht1.sizemask)) with
      | some e =>
        intro idx hidx
        exact Option.noConfusion hidx
      | none =>
        intro idx hidx
        have h2 : hash &&& d1.ht1.sizemask = idx := by injection hidx
        subst h2
        exact ⟨fun _ => rfl, fun hr => absurd hreh (by rw [hr]; simp)⟩
    · rw [if_neg hreh]
      intro idx hidx
      have h2 : hash &&& d1.ht0.sizemask = idx := by injection hidx
      subst h2
      have hrf : dictIsRehashing d1 = false := by
        cases hd : dictIsRehashing d1
        · rfl
        · exact absurd hd hreh
      exact ⟨fun hr => absurd hr hreh, fun _ => rfl⟩

/-- The key-index lookup returns the dict produced by the expansion
check. -/
theorem dictKeyIndex_d (hashF : K → Nat) (canResize : Bool) (d : Dict K V)
    (key : K) (hash : Nat) :
    (dictKeyIndex hashF canResize d key hash).d = (dictExpandIfNeeded canResize d).1 := by
  unfold dictKeyIndex
  rcases h : dictExpandIfNeeded canResize d with ⟨d1, ok⟩
  cases ok
  · rfl
  · exact dictKeyIndexSearch_d d1 key hash

/-- The insert slot returned by `_dictKeyIndex` is the key's bucket in the
table that will receive the insertion. -/
theorem dictKeyIndex_index_spec (hashF : K → Nat) (canResize : Bool)
    (d : Dict K V) (key : K) (hash : Nat) :
    ∀ idx, (dictKeyIndex hashF canResize d key hash).index = some idx →
      (dictIsRehashing (dictKeyIndex hashF canResize d key hash).d = true →
        idx = hash &&& (dictKeyIndex hashF canResize d key hash).d.ht1.sizemask) ∧
      (dictIsRehashing (dictKeyIndex hashF canResize d key hash).d = false →
        idx = hash &&& (dictKeyIndex hashF canResize d key hash).d.ht0.sizemask) := by
  rw [dictKeyIndex_d hashF canResize d key hash]
  unfold dictKeyIndex
  rcases h : dictExpandIfNeeded canResize d with ⟨d1, ok⟩
  cases ok
  · intro idx hidx
    exact Option.noConfusion hidx
  · intro idx hidx
    exact dictKeyIndexSearch_index_spec d1 key hash idx hidx

/-- Master lemma for `dictAddRaw` on a well-formed dict: the result is
well formed, and a freshly inserted entry sits at the head of its key's
bucket in `ht[1]` while rehashing (`ht[0]` otherwise). -/
theorem dictAddRaw_master (hashF : K → Nat) (canResize : Bool) (d : Dict K V)
    (key : K) (v : V) (hwf : dictWF hashF d) :
    dictWF hashF (dictAddRaw hashF canResize d key v).d ∧
    (∀ e, (dictAddRaw hashF canResize d key v).entry = some e →
      (dictIsRehashing (dictAddRaw hashF canResize d key v).d = true →
        e ∈ bucketAt (dictAddRaw hashF canResize d key v).d.ht1
          (hashF key &&& (dictAddRaw hashF canResize d key v).d.ht1.sizemask)) ∧
      (dictIsRehashing (dictAddRaw hashF canResize d key v).d = false →
        e ∈ bucketAt (dictAddRaw hashF canResize d key v).d.ht0
          (hashF key &&& (dictAddRaw hashF canResize d key v).d.ht0.sizemask))) := by
  have hgoal : dictAddRaw hashF canResize d key v
      = dictAddRawInsert (dictKeyIndex hashF canResize
          (if dictIsRehashing d then dictRehashStep hashF d else d) key (hashF key)) key v := rfl
  rw [hgoal]
  obtain ⟨hwfstep, hpermstep, hiterstep⟩ := stepOrId_master hashF d hwf
  set d0 := if dictIsRehashing d then dictRehashStep hashF d else d with hd0
  obtain ⟨hwfki', hpermki, hiterki⟩ := dictExpandIfNeeded_master hashF canResize d0 hwfstep
  have hkid := dictKeyIndex_d hashF canResize d0 key (hashF key)
  have hwfki : dictWF hashF (dictKeyIndex hashF canResize d0 key (hashF key)).d := by
    rw [hkid]; exact hwfki'
  have hspec := dictKeyIndex_index_spec hashF canResize d0 key (hashF key)
  set ki := dictKeyIndex hashF canResize d0 key (hashF key) with hki
  obtain ⟨kwf0, kwf1, kpow0, kge, knon, krclause⟩ := hwfki
  unfold dictAddRawInsert
  cases hidx : ki.index with
  | none =>
    exact ⟨⟨kwf0, kwf1, kpow0, kge, knon, krclause⟩, fun e he => Option.noConfusion he⟩
  | some idx =>
    obtain ⟨hspec1, hspec0⟩ := hspec idx hidx
    split
    · rename_i heq
      exact Option.noConfusion heq
    rename_i idx2 heq
    obtain rfl : idx = idx2 := Option.some.inj heq
    split
    · next hreh =>
      have hrehidx : ki.d.rehashidx ≠ -1 := (dictIsRehashing_iff ki.d).mp hreh
      obtain ⟨hs0, hs1, hpow1, hne, hcur, hdrained⟩ := krclause hrehidx
      have hidxval := hspec1 hreh
      have hidxlt : idx < ki.d.ht1.table.length := by
        rw [hidxval]
        exact mask_index_lt kwf1 hpow1 (hashF key)
      constructor
      · refine ⟨kwf0, ⟨?_, kwf1.2.1, ?_, ?_⟩, kpow0, kge, ?_, fun _ => ?_⟩
        · show (ki.d.ht1.table.set idx _).length = ki.d.ht1.size
          rw [List.length_set]
          exact kwf1.1
        · show ki.d.ht1.used + 1 = countEntries (ki.d.ht1.table.set idx _)
          have hc := countEntries_set ki.d.ht1.table idx
            (⟨key, v⟩ :: bucketAt ki.d.ht1 idx) hidxlt
          have hb : ki.d.ht1.table.getD idx [] = bucketAt ki.d.ht1 idx := rfl
          rw [hb] at hc
          have hu := kwf1.2.2.1
          simp only [List.length_cons] at hc
          omega
        · intro x hx e he2
          show hashF e.key &&& ki.d.ht1.sizemask = x
          by_cases hxe : x = idx
          · subst hxe
            have hbx : bucketAt (⟨ki.d.ht1.table.set x (⟨key, v⟩ :: bucketAt ki.d.ht1 x),
                ki.d.ht1.size, ki.d.ht1.sizemask, ki.d.ht1.used + 1⟩ : Dictht K V) x
                = ⟨key, v⟩ :: bucketAt ki.d.ht1 x := by
              show (ki.d.ht1.table.set x _).getD x [] = _
              rw [List.getD_eq_getElem?_getD, List.getElem?_set_self hidxlt]
              rfl
            rw [hbx] at he2
            rcases List.mem_cons.mp he2 with rfl | he2
            · exact hidxval.symm
            · exact htWF_placement kwf1 x e he2
          · have hbx : bucketAt (⟨ki.d.ht1.table.set idx (⟨key, v⟩ :: bucketAt ki.d.ht1 idx),
                ki.d.ht1.size, ki.d.ht1.sizemask, ki.d.ht1.used + 1⟩ : Dictht K V) x
                = bucketAt ki.d.ht1 x := by
              show (ki.d.ht1.table.set idx _).getD x [] = ki.d.ht1.table.getD x []
              rw [List.getD_eq_getElem?_getD, List.getElem?_set_ne (Ne.symm hxe),
                List.getD_eq_getElem?_getD]
            rw [hbx] at he2
            exact htWF_placement kwf1 x e he2
        · intro h
          exact absurd h hrehidx
        · exact ⟨hs0, hs1, hpow1, hne, hcur, hdrained⟩
      · rintro e he
        obtain rfl : (⟨key, v⟩ : DictEntry K V) = e := by injection he
        constructor
        · intro _
          show (⟨key, v⟩ : DictEntry K V) ∈ bucketAt
            (⟨ki.d.ht1.table.set idx (⟨key, v⟩ :: bucketAt ki.d.ht1 idx),
              ki.d.ht1.size, ki.d.ht1.sizemask, ki.d.ht1.used + 1⟩ : Dictht K V)
            (hashF key &&& ki.d.ht1.sizemask)
          rw [← hidxval]
          have hbx : bucketAt (⟨ki.d.ht1.table.set idx (⟨key, v⟩ :: bucketAt ki.d.ht1 idx),
              ki.d.ht1.size, ki.d.ht1.sizemask, ki.d.ht1.used + 1⟩ : Dictht K V) idx
              = ⟨key, v⟩ :: bucketAt ki.d.ht1 idx := by
            show (ki.d.ht1.table.set idx _).getD idx [] = _
            rw [List.getD_eq_getElem?_getD, List.getElem?_set_self hidxlt]
            rfl
          rw [hbx]
          exact List.mem_cons_self _ _
        · intro hrf
          exact absurd hrf (by rw [show dictIsRehashing
              (⟨ki.d.ht0, ⟨ki.d.ht1.table.set idx (⟨key, v⟩ :: bucketAt ki.d.ht1 idx),
                ki.d.ht1.size, ki.d.ht1.sizemask, ki.d.ht1.used + 1⟩,
                ki.d.rehashidx, ki.d.iterators⟩ : Dict K V)
              = dictIsRehashing ki.d from rfl, hreh]; simp)
    · next hreh =>
      have hrehf : dictIsRehashing ki.d = false := by
        cases hd : dictIsRehashing ki.d
        · rfl
        · exact absurd hd hreh
      have hrehidx : ki.d.rehashidx = -1 := by
        by_contra hc
        exact hreh ((dictIsRehashing_iff ki.d).mpr hc)
      have hidxval := hspec0 hrehf
      have hpow0' : IsPow2 ki.d.ht0.size := by
        rcases kpow0 with h | h
        · -- a zero-sized ht0 cannot receive an insertion: the expansion
          -- check created a table when needed, so the slot implies success
          exfalso
          have hok : (dictExpandIfNeeded canResize d0).2 = true := by
            by_contra hok
            have hokf : (dictExpandIfNeeded canResize d0).2 = false := by
              cases hx : (dictExpandIfNeeded canResize d0).2
              · rfl
              · exact absurd hx hok
            have : ki.index = none := by
              rw [hki]
              unfold dictKeyIndex
              rcases hx : dictExpandIfNeeded canResize d0 with ⟨d1, ok⟩
              rw [hx] at hokf
              simp at hokf
              subst hokf
              rfl
            rw [this] at hidx
            exact Option.noConfusion hidx
          have hszpos := dictExpandIfNeeded_ok_size hashF canResize d0 hwfstep hok
            (by
              by_cases hx : d0.rehashidx = -1
              · right; exact hx
              · left
                exact (hwfstep.2.2.2.2.2 hx).1)
          rw [← hkid] at hszpos
          omega
        · exact h
      have hidxlt : idx < ki.d.ht0.table.length := by
        rw [hidxval]
        exact mask_index_lt kwf0 hpow0' (hashF key)
      constructor
      · refine ⟨⟨?_, kwf0.2.1, ?_, ?_⟩, kwf1, Or.inr hpow0', kge, ?_, ?_⟩
        · show (ki.d.ht0.table.set idx _).length = ki.d.ht0.size
          rw [List.length_set]
          exact kwf0.1
        · show ki.d.ht0.used + 1 = countEntries (ki.d.ht0.table.set idx _)
          have hc := countEntries_set ki.d.ht0.table idx
            (⟨key, v⟩ :: bucketAt ki.d.ht0 idx) hidxlt
          have hb : ki.d.ht0.table.getD idx [] = bucketAt ki.d.ht0 idx := rfl
          rw [hb] at hc
          have hu := kwf0.2.2.1
          simp only [List.length_cons] at hc
          omega
        · intro x hx e he2
          show hashF e.key &&& ki.d.ht0.sizemask = x
          by_cases hxe : x = idx
          · subst hxe
            have hbx : bucketAt (⟨ki.d.ht0.table.set x (⟨key, v⟩ :: bucketAt ki.d.ht0 x),
                ki.d.ht0.size, ki.d.ht0.sizemask, ki.d.ht0.used + 1⟩ : Dictht K V) x
                = ⟨key, v⟩ :: bucketAt ki.d.ht0 x := by
              show (ki.d.ht0.table.set x _).getD x [] = _
              rw [List.getD_eq_getElem?_getD, List.getElem?_set_self hidxlt]
              rfl
            rw [hbx] at he2
            rcases List.mem_cons.mp he2 with rfl | he2
            · exact hidxval.symm
            · exact htWF_placement kwf0 x e he2
          · have hbx : bucketAt (⟨ki.d.ht0.table.set idx (⟨key, v⟩ :: bucketAt ki.d.ht0 idx),
                ki.d.ht0.size, ki.d.ht0.sizemask, ki.d.ht0.used + 1⟩ : Dictht K V) x
                = bucketAt ki.d.ht0 x := by
              show (ki.d.ht0.table.set idx _).getD x [] = ki.d.ht0.table.getD x []
              rw [List.getD_eq_getElem?_getD, List.getElem?_set_ne (Ne.symm hxe),
                List.getD_eq_getElem?_getD]
            rw [hbx] at he2
            exact htWF_placement kwf0 x e he2
        · intro _
          exact knon hrehidx
        · intro h
          exact absurd hrehidx h
      · rintro e he
        obtain rfl : (⟨key, v⟩ : DictEntry K V) = e := by injection he
        constructor
        · intro hrt
          exact absurd hrt (by rw [show dictIsRehashing
              (⟨⟨ki.d.ht0.table.set idx (⟨key, v⟩ :: bucketAt ki.d.ht0 idx),
                ki.d.ht0.size, ki.d.ht0.sizemask, ki.d.ht0.used + 1⟩,
                ki.d.ht1, ki.d.rehashidx, ki.d.iterators⟩ : Dict K V)
              = dictIsRehashing ki.d from rfl, hrehf]; simp)
        · intro _
          show (⟨key, v⟩ : DictEntry K V) ∈ bucketAt
            (⟨ki.d.ht0.table.set idx (⟨key, v⟩ :: bucketAt ki.d.ht0 idx),
              ki.d.ht0.size, ki.d.ht0.sizemask, ki.d.ht0.used + 1⟩ : Dictht K V)
            (hashF key &&& ki.d.ht0.sizemask)
          rw [← hidxval]
          have hbx : bucketAt (⟨ki.d.ht0.table.set idx (⟨key, v⟩ :: bucketAt ki.d.ht0 idx),
              ki.d.ht0.size, ki.d.ht0.sizemask, ki.d.ht0.used + 1⟩ : Dictht K V) idx
              = ⟨key, v⟩ :: bucketAt ki.d.ht0 idx := by
            show (ki.d.ht0.table.set idx _).getD idx [] = _
            rw [List.getD_eq_getElem?_getD, List.getElem?_set_self hidxlt]
            rfl
          rw [hbx]
          exact List.mem_cons_self _ _

theorem dictNextPower_exact (c : Nat) (hc : 2 ≤ c) (hc2 : c ≤ 62) :
    dictNextPower (2 ^ c) = 2 ^ c := by
  unfold dictNextPower
  have hlt : (2:Nat) ^ c < LONG_MAX := by
    have : (2:Nat) ^ c ≤ 2 ^ 62 := Nat.pow_le_pow_right (by norm_num) hc2
    have : (2:Nat) ^ 62 < LONG_MAX := by norm_num [LONG_MAX]
    omega
  rw [if_neg (by omega)]
  obtain ⟨k, hk1, hk2, hk3⟩ := dictNextPowerGo_pow (2 ^ c) 64 2 c hc (le_refl _)
  have hge := dictNextPowerGo_ge (2 ^ c) 64 (2 ^ 2) (by
    rw [show (2 : Nat) ^ 2 * 2 ^ 64 = 2 ^ 66 from by norm_num]
    exact Nat.pow_le_pow_right (by norm_num) (by omega))
  rw [hk3] at hge
  have hkc : k = c :=
    le_antisymm hk2 ((Nat.pow_le_pow_iff_right (by norm_num)).mp hge)
  exact hkc ▸ hk3

/-! ## Claim support lemmas -/

/-- The insertion step never changes the size of `ht[1]` (a head insertion
only rewrites one bucket). -/
theorem dictAddRawInsert_ht1_size (r : KeyIndexResult K V) (key : K) (v : V) :
    (dictAddRawInsert r key v).d.ht1.size = r.d.ht1.size := by
  unfold dictAddRawInsert
  cases hidx : r.index with
  | none => rfl
  | some idx =>
    split
    · rename_i heq
      exact Option.noConfusion heq
    split
    · rfl
    · rfl

/-- Well-formedness subsumes the drained-prefix invariant. -/
theorem dictWF_rehashDrained {hashF : K → Nat} {d : Dict K V}
    (hwf : dictWF hashF d) : rehashDrained d := by
  intro hreh
  exact (hwf.2.2.2.2.2 ((dictIsRehashing_iff d).mp hreh)).2.2.2.2.2

/-- One unfolding of the rehash loop when the bucket at the cursor itself
is non-empty: that bucket is migrated into `ht[1]` and the cursor advances
by one. -/
theorem dictRehashLoop_step (hashF : K → Nat) (d : Dict K V) (n ev mig emp : Nat)
    (hused : ¬ d.ht0.used = 0)
    (hlt : d.rehashidx.toNat < d.ht0.table.length)
    (hne : bucketAt d.ht0 d.rehashidx.toNat ≠ [])
    (hev : 0 < ev) :
    dictRehashLoop hashF d (n + 1) ev mig emp
      = dictRehashLoop hashF
          ⟨⟨d.ht0.table.set d.rehashidx.toNat [], d.ht0.size, d.ht0.sizemask,
              d.ht0.used - (bucketAt d.ht0 d.rehashidx.toNat).length⟩,
            migrateChain hashF d.ht1 (bucketAt d.ht0 d.rehashidx.toNat),
            ((d.rehashidx.toNat + 1 : Nat) : Int), d.iterators⟩
          n (ev - (d.rehashidx.toNat - d.rehashidx.toNat)) (mig + 1)
          (emp + (d.rehashidx.toNat - d.rehashidx.toNat)) := by
  have hfind : findNonemptyFrom d.ht0.table d.rehashidx.toNat
      = some d.rehashidx.toNat := findNonemptyFrom_at hlt hne
  rw [dictRehashLoop]
  rw [if_neg hused]
  simp only [hfind]
  rw [if_neg (by omega : ¬ ev ≤ d.rehashidx.toNat - d.rehashidx.toNat)]

/-- A single `dictRehash(d, 1)` step on a non-empty cursor bucket (with
other entries remaining in `ht[0]`): the cursor advances by one, the
migrated bucket is left empty, and every entry of it lands in its `ht[1]`
bucket computed with `ht[1]`'s mask. -/
theorem dictRehash_one_step (hashF : K → Nat) (d : Dict K V) (hwf : dictWF hashF d)
    (hreh : dictIsRehashing d = true)
    (hne : bucketAt d.ht0 d.rehashidx.toNat ≠ [])
    (hrem : (bucketAt d.ht0 d.rehashidx.toNat).length < d.ht0.used) :
    (dictRehash hashF d 1).d.rehashidx = ((d.rehashidx.toNat + 1 : Nat) : Int) ∧
    bucketAt (dictRehash hashF d 1).d.ht0 d.rehashidx.toNat = [] ∧
    ∀ e ∈ bucketAt d.ht0 d.rehashidx.toNat,
      e ∈ bucketAt (dictRehash hashF d 1).d.ht1 (hashF e.key &&& d.ht1.sizemask) := by
  obtain ⟨hwf0, hwf1, hpow0, hge, hnon, hrclause⟩ := hwf
  obtain ⟨hs0, hs1, hpow1, hne2, hcur, hdrained⟩ :=
    hrclause ((dictIsRehashing_iff d).mp hreh)
  have hlt : d.rehashidx.toNat < d.ht0.table.length := by
    by_contra hcon
    push_neg at hcon
    exact hne (bucketAt_of_le_length d.ht0 _ hcon)
  have husedne : ¬ d.ht0.used = 0 := by omega
  have hr1 : dictRehash hashF d 1 = dictRehashLoop hashF d 1 (1 * 10) 0 0 := by
    unfold dictRehash
    rw [if_pos hreh]
  have h01 : dictRehashLoop hashF d 1 (1 * 10) 0 0
      = dictRehashLoop hashF d (0 + 1) (1 * 10) 0 0 := rfl
  rw [hr1, h01,
    dictRehashLoop_step hashF d 0 (1 * 10) 0 0 husedne hlt hne (by omega)]
  have hfin : dictRehashLoop hashF
      (⟨⟨d.ht0.table.set d.rehashidx.toNat [], d.ht0.size, d.ht0.sizemask,
          d.ht0.used - (bucketAt d.ht0 d.rehashidx.toNat).length⟩,
        migrateChain hashF d.ht1 (bucketAt d.ht0 d.rehashidx.toNat),
        ((d.rehashidx.toNat + 1 : Nat) : Int), d.iterators⟩ : Dict K V)
      0 (1 * 10 - (d.rehashidx.toNat - d.rehashidx.toNat)) (0 + 1)
      (0 + (d.rehashidx.toNat - d.rehashidx.toNat))
      = ⟨⟨⟨d.ht0.table.set d.rehashidx.toNat [], d.ht0.size, d.ht0.sizemask,
            d.ht0.used - (bucketAt d.ht0 d.rehashidx.toNat).length⟩,
          migrateChain hashF d.ht1 (bucketAt d.ht0 d.rehashidx.toNat),
          ((d.rehashidx.toNat + 1 : Nat) : Int), d.iterators⟩, 1, 0 + 1,
          0 + (d.rehashidx.toNat - d.rehashidx.toNat)⟩ := by
    show rehashFinish _ _ _ = _
    unfold rehashFinish
    rw [if_neg (by
      show ¬ d.ht0.used - (bucketAt d.ht0 d.rehashidx.toNat).length = 0
      omega)]
  rw [hfin]
  refine ⟨rfl, ?_, ?_⟩
  · show (d.ht0.table.set d.rehashidx.toNat []).getD d.rehashidx.toNat [] = []
    rw [List.getD_eq_getElem?_getD, List.getElem?_set_self hlt]
    rfl
  · intro e he
    exact migrateChain_mem_target _ hwf1 hpow1 e he

/-- The loop of `processTimeEvents` fires every non-tombstoned,
within-snapshot event once all deadlines have second part 0 and the wall
clock's second is positive. -/
theorem processTimeEventsLoop_fires_all (timeProc : Int → Int)
    (now_sec now_ms maxId : Int) (hpos : 0 < now_sec) :
    ∀ events : List AeTimeEvent, (∀ te ∈ events, te.when_sec = 0) →
      ∀ te ∈ events, te.id ≠ AE_DELETED_EVENT_ID → te.id ≤ maxId →
        te.id ∈ (processTimeEventsLoop timeProc now_sec now_ms maxId events).firedIds := by
  intro events
  induction events with
  | nil =>
    intro _ te hte
    simp at hte
  | cons e rest ih =>
    intro hall te hte hid hle
    have hallrest : ∀ te2 ∈ rest, te2.when_sec = 0 :=
      fun te2 h2 => hall te2 (List.mem_cons_of_mem e h2)
    rw [processTimeEventsLoop]
    rcases List.mem_cons.mp hte with rfl | hmem
    · rw [if_neg hid, if_neg (by omega : ¬ te.id > maxId),
        if_pos (Or.inl (by
          have h0 := hall te (List.mem_cons_self te rest)
          omega))]
      show te.id ∈ te.id ::
        (processTimeEventsLoop timeProc now_sec now_ms maxId rest).firedIds
      exact List.mem_cons_self _ _
    · by_cases h1 : e.id = AE_DELETED_EVENT_ID
      · rw [if_pos h1]
        exact ih hallrest te hmem hid hle
      · rw [if_neg h1]
        by_cases h2 : e.id > maxId
        · rw [if_pos h2]
          show te.id ∈
            (processTimeEventsLoop timeProc now_sec now_ms maxId rest).firedIds
          exact ih hallrest te hmem hid hle
        · rw [if_neg h2]
          by_cases h3 : now_sec > e.when_sec ∨
              (now_sec = e.when_sec ∧ now_ms ≥ e.when_ms)
          · rw [if_pos h3]
            show te.id ∈ e.id ::
              (processTimeEventsLoop timeProc now_sec now_ms maxId rest).firedIds
            exact List.mem_cons_of_mem _ (ih hallrest te hmem hid hle)
          · rw [if_neg h3]
            show te.id ∈
              (processTimeEventsLoop timeProc now_sec now_ms maxId rest).firedIds
            exact ih hallrest te hmem hid hle

/-! ## Reverse-cursor development for `dictScan`

`rev` reverses the 64 bits of the cursor.  The six butterfly rounds each
swap adjacent blocks of width `s`, so round `s` maps bit `j` to bit
`j ^^^ s` and the composition maps `j` to `63 - j`. -/

/-- `rev` unfolded to its six rounds with the concrete block masks. -/
theorem rev_eq_rounds (v : Nat) :
    rev v = revRound 1 0x5555555555555555 (revRound 2 0x3333333333333333
      (revRound 4 0x0F0F0F0F0F0F0F0F (revRound 8 0x00FF00FF00FF00FF
        (revRound 16 0x0000FFFF0000FFFF (revRound 32 0xFFFFFFFF v))))) := by
  rfl

/-- One butterfly round relocates bit `j` to bit `j ^^^ s`, for any mask
whose bit pattern matches the round width in this sense. -/
theorem revRound_testBit {s m : Nat}
    (hm : ∀ j, j < 64 →
      (m.testBit j = true → j ^^^ s = j + s) ∧
      (m.testBit j = false → s ≤ j ∧ j ^^^ s = j - s)) :
    ∀ v j, j < 64 → (revRound s m v).testBit j = v.testBit (j ^^^ s) := by
  intro v j hj
  obtain ⟨hmt, hmf⟩ := hm j hj
  unfold revRound
  rw [Nat.testBit_or, Nat.testBit_and, Nat.testBit_and, Nat.testBit_shiftRight,
    show U64 = 2 ^ 64 from rfl, Nat.testBit_mod_two_pow, Nat.testBit_shiftLeft,
    Nat.testBit_xor, Nat.testBit_two_pow_sub_one]
  cases hmb : m.testBit j with
  | true =>
    rw [hmt hmb]
    simp [hj, Nat.add_comm]
  | false =>
    obtain ⟨hs, hx⟩ := hmf hmb
    rw [hx]
    simp [hj, hs]

theorem revMask32_fact : ∀ j, j < 64 →
    ((0xFFFFFFFF : Nat).testBit j = true → j ^^^ 32 = j + 32) ∧
    ((0xFFFFFFFF : Nat).testBit j = false → 32 ≤ j ∧ j ^^^ 32 = j - 32) := by
  decide

theorem revMask16_fact : ∀ j, j < 64 →
    ((0x0000FFFF0000FFFF : Nat).testBit j = true → j ^^^ 16 = j + 16) ∧
    ((0x0000FFFF0000FFFF : Nat).testBit j = false → 16 ≤ j ∧ j ^^^ 16 = j - 16) := by
  decide

theorem revMask8_fact : ∀ j, j < 64 →
    ((0x00FF00FF00FF00FF : Nat).testBit j = true → j ^^^ 8 = j + 8) ∧
    ((0x00FF00FF00FF00FF : Nat).testBit j = false → 8 ≤ j ∧ j ^^^ 8 = j - 8) := by
  decide

theorem revMask4_fact : ∀ j, j < 64 →
    ((0x0F0F0F0F0F0F0F0F : Nat).testBit j = true → j ^^^ 4 = j + 4) ∧
    ((0x0F0F0F0F0F0F0F0F : Nat).testBit j = false → 4 ≤ j ∧ j ^^^ 4 = j - 4) := by
  decide

theorem revMask2_fact : ∀ j, j < 64 →
    ((0x3333333333333333 : Nat).testBit j = true → j ^^^ 2 = j + 2) ∧
    ((0x3333333333333333 : Nat).testBit j = false → 2 ≤ j ∧ j ^^^ 2 = j - 2) := by
  decide

theorem revMask1_fact : ∀ j, j < 64 →
    ((0x5555555555555555 : Nat).testBit j = true → j ^^^ 1 = j + 1) ∧
    ((0x5555555555555555 : Nat).testBit j = false → 1 ≤ j ∧ j ^^^ 1 = j - 1) := by
  decide

theorem revXor_chain : ∀ j, j < 64 → j ^^^ 1 < 64 ∧ j ^^^ 1 ^^^ 2 < 64 ∧
    j ^^^ 1 ^^^ 2 ^^^ 4 < 64 ∧ j ^^^ 1 ^^^ 2 ^^^ 4 ^^^ 8 < 64 ∧
    j ^^^ 1 ^^^ 2 ^^^ 4 ^^^ 8 ^^^ 16 < 64 ∧
    j ^^^ 1 ^^^ 2 ^^^ 4 ^^^ 8 ^^^ 16 ^^^ 32 = 63 - j := by
  decide

/-- Bit `j` of `rev v` is bit `63 - j` of `v`. -/
theorem rev_testBit (v : Nat) : ∀ j, j < 64 →
    (rev v).testBit j = v.testBit (63 - j) := by
  intro j hj
  obtain ⟨h1, h2, h3, h4, h5, h6⟩ := revXor_chain j hj
  rw [rev_eq_rounds,
    revRound_testBit revMask1_fact _ j hj,
    revRound_testBit revMask2_fact _ _ h1,
    revRound_testBit revMask4_fact _ _ h2,
    revRound_testBit revMask8_fact _ _ h3,
    revRound_testBit revMask16_fact _ _ h4,
    revRound_testBit revMask32_fact _ _ h5,
    h6]

theorem revRound_lt (s m v : Nat) (hm : m < U64) : revRound s m v < U64 := by
  show ((v >>> s) &&& m) ||| (((v <<< s) % U64) &&& ((U64 - 1) ^^^ m)) < 2 ^ 64
  refine Nat.or_lt_two_pow ?_ ?_
  · exact lt_of_le_of_lt Nat.and_le_right hm
  · refine lt_of_le_of_lt Nat.and_le_left ?_
    exact Nat.mod_lt _ (by norm_num [U64])

theorem rev_lt (v : Nat) : rev v < U64 := by
  rw [rev_eq_rounds]
  refine revRound_lt _ _ _ (by norm_num [U64])

/-- `rev` is an involution on 64-bit values. -/
theorem rev_rev (v : Nat) (hv : v < U64) : rev (rev v) = v := by
  apply Nat.eq_of_testBit_eq
  intro i
  by_cases hi : i < 64
  · rw [rev_testBit _ i hi, rev_testBit _ (63 - i) (by omega)]
    congr 1
    omega
  · push_neg at hi
    have h1 : rev (rev v) < 2 ^ 64 := rev_lt _
    have h2 : v < 2 ^ 64 := hv
    have h3 : (2 : Nat) ^ 64 ≤ 2 ^ i := Nat.pow_le_pow_right (by norm_num) hi
    rw [Nat.testBit_lt_two_pow (by omega), Nat.testBit_lt_two_pow (by omega)]

theorem rev_zero : rev 0 = 0 := by rfl

theorem rev_eq_zero {v : Nat} (hv : v < U64) (h : rev v = 0) : v = 0 := by
  have h2 := rev_rev v hv
  rw [h, rev_zero] at h2
  exact h2.symm

/-! ## Bit-arithmetic bridges between the cursor and the reversed domain -/

theorem mod_two_pow_eq_iff_testBit (a b k : Nat) :
    a % 2 ^ k = b % 2 ^ k ↔ ∀ j, j < k → a.testBit j = b.testBit j := by
  constructor
  · intro h j hj
    have h1 : (a % 2 ^ k).testBit j = (b % 2 ^ k).testBit j := by rw [h]
    rw [Nat.testBit_mod_two_pow, Nat.testBit_mod_two_pow] at h1
    simpa [hj] using h1
  · intro h
    apply Nat.eq_of_testBit_eq
    intro j
    rw [Nat.testBit_mod_two_pow, Nat.testBit_mod_two_pow]
    by_cases hj : j < k
    · simp [hj, h j hj]
    · simp [hj]

theorem div_two_pow_eq_iff_testBit (a b k : Nat) :
    a / 2 ^ k = b / 2 ^ k ↔ ∀ j, k ≤ j → a.testBit j = b.testBit j := by
  rw [← Nat.shiftRight_eq_div_pow, ← Nat.shiftRight_eq_div_pow]
  constructor
  · intro h j hj
    have h1 : (a >>> k).testBit (j - k) = (b >>> k).testBit (j - k) := by rw [h]
    rw [Nat.testBit_shiftRight, Nat.testBit_shiftRight,
      Nat.add_sub_cancel' hj] at h1
    exact h1
  · intro h
    apply Nat.eq_of_testBit_eq
    intro j
    rw [Nat.testBit_shiftRight, Nat.testBit_shiftRight]
    exact h (k + j) (by omega)

/-- Two 64-bit values agree modulo `2^b` iff their reversals lie in the
same block of width `2^(64-b)`. -/
theorem emission_block_iff (v h b : Nat) (hb : b ≤ 64) :
    v % 2 ^ b = h % 2 ^ b ↔ rev v / 2 ^ (64 - b) = rev h / 2 ^ (64 - b) := by
  rw [mod_two_pow_eq_iff_testBit, div_two_pow_eq_iff_testBit]
  constructor
  · intro hlow j hj
    by_cases hj64 : j < 64
    · rw [rev_testBit _ j hj64, rev_testBit _ j hj64]
      exact hlow (63 - j) (by omega)
    · push_neg at hj64
      have h1 : rev v < 2 ^ 64 := rev_lt _
      have h2 : rev h < 2 ^ 64 := rev_lt _
      have h3 : (2 : Nat) ^ 64 ≤ 2 ^ j := Nat.pow_le_pow_right (by norm_num) hj64
      rw [Nat.testBit_lt_two_pow (by omega), Nat.testBit_lt_two_pow (by omega)]
  · intro hhigh j hj
    have hj64 : j < 64 := by omega
    have h1 := hhigh (63 - j) (by omega)
    rw [rev_testBit _ (63 - j) (by omega), rev_testBit _ (63 - j) (by omega),
      show 63 - (63 - j) = j from by omega] at h1
    exact h1

theorem and_mask_eq_mod (a k : Nat) : a &&& (2 ^ k - 1) = a % 2 ^ k := by
  apply Nat.eq_of_testBit_eq
  intro j
  rw [Nat.testBit_and, Nat.testBit_two_pow_sub_one, Nat.testBit_mod_two_pow]
  exact Bool.and_comm _ _

theorem two_pow_dvd_iff_low_bits (a k : Nat) :
    2 ^ k ∣ a ↔ ∀ j, j < k → a.testBit j = false := by
  rw [Nat.dvd_iff_mod_eq_zero]
  constructor
  · intro h j hj
    have h2 := (mod_two_pow_eq_iff_testBit a 0 k).mp (by simpa using h) j hj
    simpa using h2
  · intro h
    have h2 := (mod_two_pow_eq_iff_testBit a 0 k).mpr
      (by intro j hj; simpa using h j hj)
    simpa using h2

theorem and_eq_zero_iff_testBit (a b : Nat) :
    a &&& b = 0 ↔ ∀ j, a.testBit j = false ∨ b.testBit j = false := by
  constructor
  · intro h j
    by_cases h1 : a.testBit j = false
    · exact Or.inl h1
    · right
      have ha : a.testBit j = true := by
        cases hx : a.testBit j
        · exact absurd hx h1
        · rfl
      have h2 : (a &&& b).testBit j = false := by rw [h]; simp
      rw [Nat.testBit_and, ha] at h2
      simpa using h2
  · intro h
    apply Nat.eq_of_testBit_eq
    intro j
    rw [Nat.testBit_and]
    rcases h j with h1 | h1 <;> simp [h1]

theorem lt_succ_div_mul (a b : Nat) (hb : 0 < b) : a < (a / b + 1) * b := by
  have h1 := Nat.div_add_mod a b
  have h2 : a % b < b := Nat.mod_lt _ hb
  have h3 : (a / b + 1) * b = b * (a / b) + b := by ring
  omega

/-- Setting all cursor bits at and above `b` corresponds, in the reversed
domain, to setting the low `64 - b` bits. -/
theorem rev_or_high (v b : Nat) (hb : b ≤ 64) :
    rev (v ||| ((U64 - 1) ^^^ (2 ^ b - 1))) = rev v ||| (2 ^ (64 - b) - 1) := by
  apply Nat.eq_of_testBit_eq
  intro j
  by_cases hj : j < 64
  · rw [rev_testBit _ j hj, Nat.testBit_or, Nat.testBit_or, rev_testBit _ j hj,
      Nat.testBit_xor, show U64 - 1 = 2 ^ 64 - 1 from rfl,
      Nat.testBit_two_pow_sub_one, Nat.testBit_two_pow_sub_one,
      Nat.testBit_two_pow_sub_one]
    have e1 : 63 - j < 64 := by omega
    by_cases e2 : 63 - j < b
    · have e3 : ¬ j < 64 - b := by omega
      simp [e1, e2, e3]
    · have e3 : j < 64 - b := by omega
      simp [e1, e2, e3]
  · push_neg at hj
    have h3 : (2 : Nat) ^ 64 ≤ 2 ^ j := Nat.pow_le_pow_right (by norm_num) hj
    have hl : rev (v ||| ((U64 - 1) ^^^ (2 ^ b - 1))) < 2 ^ 64 := rev_lt _
    have hq : (2 : Nat) ^ (64 - b) ≤ 2 ^ 64 :=
      Nat.pow_le_pow_right (by norm_num) (by omega)
    have hr : rev v ||| (2 ^ (64 - b) - 1) < 2 ^ 64 :=
      Nat.or_lt_two_pow (rev_lt _) (by omega)
    rw [Nat.testBit_lt_two_pow (by omega), Nat.testBit_lt_two_pow (by omega)]

theorem or_low_ones (a k : Nat) :
    a ||| (2 ^ k - 1) = 2 ^ k * (a / 2 ^ k) + (2 ^ k - 1) := by
  apply Nat.eq_of_testBit_eq
  intro j
  rw [Nat.testBit_or, Nat.testBit_two_pow_sub_one,
    Nat.testBit_mul_pow_two_add _ (Nat.sub_lt (Nat.two_pow_pos k) (by norm_num))]
  by_cases hjk : j < k
  · simp [hjk, Nat.testBit_two_pow_sub_one]
  · rw [← Nat.shiftRight_eq_div_pow, Nat.testBit_shiftRight,
      show k + (j - k) = j from by omega]
    simp [hjk]

/-- The cursor increment in the reversed domain: add one block of width
`2^(64-b)` (wrapping at `2^64`). -/
theorem rev_scanIncrement (v b : Nat) (hb : b ≤ 64) :
    rev (scanIncrement v (2 ^ b - 1))
      = (rev v / 2 ^ (64 - b) + 1) * 2 ^ (64 - b) % U64 := by
  unfold scanIncrement
  rw [rev_rev _ (Nat.mod_lt _ (by norm_num [U64]))]
  rw [rev_or_high v b hb, or_low_ones]
  have hq : (0 : Nat) < 2 ^ (64 - b) := Nat.two_pow_pos _
  have hstep : 2 ^ (64 - b) * (rev v / 2 ^ (64 - b)) + (2 ^ (64 - b) - 1) + 1
      = (rev v / 2 ^ (64 - b) + 1) * 2 ^ (64 - b) := by
    have h3 : (rev v / 2 ^ (64 - b) + 1) * 2 ^ (64 - b)
        = 2 ^ (64 - b) * (rev v / 2 ^ (64 - b)) + 2 ^ (64 - b) := by ring
    omega
  rw [hstep]

theorem scanIncrement_lt (v m : Nat) : scanIncrement v m < U64 := rev_lt _

theorem succ_div_mul_le_U64 (a c : Nat) (hc : c ≤ 64) (ha : a < U64) :
    (a / 2 ^ c + 1) * 2 ^ c ≤ U64 := by
  have hdvd : (2 : Nat) ^ c ∣ U64 := by
    rw [show U64 = 2 ^ 64 from rfl]
    exact pow_dvd_pow 2 hc
  have h1 : a / 2 ^ c < U64 / 2 ^ c := Nat.div_lt_div_of_lt_of_dvd hdvd ha
  calc (a / 2 ^ c + 1) * 2 ^ c ≤ U64 / 2 ^ c * 2 ^ c :=
        Nat.mul_le_mul_right _ h1
    _ = U64 := Nat.div_mul_cancel hdvd

theorem floor_coarse_le (a q M : Nat) :
    a / (q * M) * (q * M) ≤ a / q * q := by
  rcases Nat.eq_zero_or_pos M with rfl | hM
  · simp
  · have h1 : a / (q * M) = a / q / M := (Nat.div_div_eq_div_mul a q M).symm
    rw [h1]
    have h2 : a / q / M * M ≤ a / q := Nat.div_mul_le_self _ _
    calc a / q / M * (q * M) = a / q / M * M * q := by ring
      _ ≤ a / q * q := Nat.mul_le_mul_right q h2

/-- The exit test of the rehashing scan loop, read in the reversed domain:
once the reversed cursor is a multiple of the fine block width, having no
bits in `m0 ^ m1` says exactly that it is a multiple of the coarse block
width. -/
theorem exit_cond_iff (x bS bL : Nat) (hblt : bS < bL) (hbL : bL ≤ 64)
    (hqL : 2 ^ (64 - bL) ∣ rev x) :
    x &&& ((2 ^ bS - 1) ^^^ (2 ^ bL - 1)) = 0 ↔ 2 ^ (64 - bS) ∣ rev x := by
  rw [and_eq_zero_iff_testBit, two_pow_dvd_iff_low_bits]
  rw [two_pow_dvd_iff_low_bits] at hqL
  constructor
  · intro h j hj
    by_cases hj2 : j < 64 - bL
    · exact hqL j hj2
    · push_neg at hj2
      have hj64 : j < 64 := by omega
      rw [rev_testBit _ j hj64]
      rcases h (63 - j) with h1 | h1
      · exact h1
      · exfalso
        rw [Nat.testBit_xor, Nat.testBit_two_pow_sub_one,
          Nat.testBit_two_pow_sub_one] at h1
        have e1 : ¬ (63 - j < bS) := by omega
        have e2 : 63 - j < bL := by omega
        simp [e1, e2] at h1
  · intro h j
    by_cases hjm : bS ≤ j ∧ j < bL
    · left
      have hj64 : j < 64 := by omega
      have h2 := h (63 - j) (by omega)
      rw [rev_testBit _ (63 - j) (by omega),
        show 63 - (63 - j) = j from by omega] at h2
      exact h2
    · right
      rw [Nat.testBit_xor, Nat.testBit_two_pow_sub_one,
        Nat.testBit_two_pow_sub_one]
      by_cases hjs : j < bS
      · simp [hjs, show j < bL from by omega]
      · have hjL : ¬ j < bL := by omega
        simp [hjs, hjL]

/-- Master lemma for the do/while of the rehashing branch of `dictScan`,
over a larger table of size `2^bL` paired with a smaller mask of size
`2^bS`: with enough fuel the loop lands on the next coarse block boundary
(in the reversed domain), keeps everything accumulated so far, and emits
the larger table's bucket of every 64-bit value whose reversal lies
between the current fine block and that boundary. -/
theorem scanLargeLoop_master (tL : Dictht K V) (bS bL : Nat)
    (hblt : bS < bL) (hbL : bL ≤ 64) :
    ∀ (fuel v : Nat) (acc : List (DictEntry K V)), v < U64 →
      ((rev v / 2 ^ (64 - bS) + 1) * 2 ^ (64 - bS)) / 2 ^ (64 - bL)
          - rev v / 2 ^ (64 - bL) ≤ fuel →
      (scanLargeLoop tL (2 ^ bS - 1) (2 ^ bL - 1) v fuel acc).1 < U64 ∧
      rev (scanLargeLoop tL (2 ^ bS - 1) (2 ^ bL - 1) v fuel acc).1
        = (rev v / 2 ^ (64 - bS) + 1) * 2 ^ (64 - bS) % U64 ∧
      (∀ a ∈ acc, a ∈ (scanLargeLoop tL (2 ^ bS - 1) (2 ^ bL - 1) v fuel acc).2) ∧
      (∀ x, x < U64 →
        rev v / 2 ^ (64 - bL) * 2 ^ (64 - bL) ≤ rev x →
        rev x < (rev v / 2 ^ (64 - bS) + 1) * 2 ^ (64 - bS) →
        ∀ e ∈ bucketAt tL (x &&& (2 ^ bL - 1)),
          e ∈ (scanLargeLoop tL (2 ^ bS - 1) (2 ^ bL - 1) v fuel acc).2) := by
  have hqpos : (0 : Nat) < 2 ^ (64 - bL) := Nat.two_pow_pos _
  have hQpos : (0 : Nat) < 2 ^ (64 - bS) := Nat.two_pow_pos _
  have hQq : (2 : Nat) ^ (64 - bS) = 2 ^ (64 - bL) * 2 ^ (bL - bS) := by
    rw [← pow_add]
    congr 1
    omega
  intro fuel
  induction fuel with
  | zero =>
    intro v acc hv hbud
    exfalso
    have hE : (rev v / 2 ^ (64 - bS) + 1) * 2 ^ (64 - bS)
        = ((rev v / 2 ^ (64 - bS) + 1) * 2 ^ (bL - bS)) * 2 ^ (64 - bL) := by
      rw [hQq]
      ring
    have hEdiv : (rev v / 2 ^ (64 - bS) + 1) * 2 ^ (64 - bS) / 2 ^ (64 - bL)
        = (rev v / 2 ^ (64 - bS) + 1) * 2 ^ (bL - bS) := by
      rw [hE]
      exact Nat.mul_div_cancel _ hqpos
    have hvlt : rev v < (rev v / 2 ^ (64 - bS) + 1) * 2 ^ (64 - bS) :=
      lt_succ_div_mul _ _ hQpos
    have hvq : rev v / 2 ^ (64 - bL)
        < (rev v / 2 ^ (64 - bS) + 1) * 2 ^ (bL - bS) := by
      rw [Nat.div_lt_iff_lt_mul hqpos]
      rw [hE] at hvlt
      exact hvlt
    omega
  | succ n ih =>
    intro v acc hv hbud
    have hbody : scanLargeLoop tL (2 ^ bS - 1) (2 ^ bL - 1) v (n + 1) acc
        = if scanIncrement v (2 ^ bL - 1) &&& ((2 ^ bS - 1) ^^^ (2 ^ bL - 1)) ≠ 0
          then scanLargeLoop tL (2 ^ bS - 1) (2 ^ bL - 1)
            (scanIncrement v (2 ^ bL - 1)) n
            (acc ++ bucketAt tL (v &&& (2 ^ bL - 1)))
          else (scanIncrement v (2 ^ bL - 1),
            acc ++ bucketAt tL (v &&& (2 ^ bL - 1))) := rfl
    have hv' : scanIncrement v (2 ^ bL - 1) < U64 := scanIncrement_lt _ _
    have hrevinc := rev_scanIncrement v bL hbL
    have hN_gt : rev v < (rev v / 2 ^ (64 - bL) + 1) * 2 ^ (64 - bL) :=
      lt_succ_div_mul _ _ hqpos
    have hE_gt : rev v < (rev v / 2 ^ (64 - bS) + 1) * 2 ^ (64 - bS) :=
      lt_succ_div_mul _ _ hQpos
    have hE_le : (rev v / 2 ^ (64 - bS) + 1) * 2 ^ (64 - bS) ≤ U64 :=
      succ_div_mul_le_U64 _ _ (by omega) (rev_lt v)
    have hN_le_E : (rev v / 2 ^ (64 - bL) + 1) * 2 ^ (64 - bL)
        ≤ (rev v / 2 ^ (64 - bS) + 1) * 2 ^ (64 - bS) := by
      have hX : (rev v / 2 ^ (64 - bS) + 1) * 2 ^ (64 - bS)
          = ((rev v / 2 ^ (64 - bS) + 1) * 2 ^ (bL - bS)) * 2 ^ (64 - bL) := by
        rw [hQq]
        ring
      rw [hX]
      refine Nat.mul_le_mul_right _ ?_
      have hm : rev v / 2 ^ (64 - bL)
          < (rev v / 2 ^ (64 - bS) + 1) * 2 ^ (bL - bS) := by
        rw [Nat.div_lt_iff_lt_mul hqpos]
        rw [hX] at hE_gt
        exact hE_gt
      exact hm
    -- same-block emission: values in the current fine block share the bucket
    have hsame : ∀ x, x < U64 →
        rev v / 2 ^ (64 - bL) * 2 ^ (64 - bL) ≤ rev x →
        rev x < (rev v / 2 ^ (64 - bL) + 1) * 2 ^ (64 - bL) →
        x &&& (2 ^ bL - 1) = v &&& (2 ^ bL - 1) := by
      intro x hx hx1 hx2
      have hdiv : rev x / 2 ^ (64 - bL) = rev v / 2 ^ (64 - bL) :=
        Nat.div_eq_of_lt_le (by
          calc rev v / 2 ^ (64 - bL) * 2 ^ (64 - bL) ≤ rev x := hx1) hx2
      have hmod : x % 2 ^ bL = v % 2 ^ bL :=
        (emission_block_iff x v bL hbL).mpr (by rw [hdiv])
      rw [and_mask_eq_mod, and_mask_eq_mod, hmod]
    rw [hbody]
    by_cases hcond : scanIncrement v (2 ^ bL - 1) &&&
        ((2 ^ bS - 1) ^^^ (2 ^ bL - 1)) ≠ 0
    · rw [if_pos hcond]
      -- the next fine boundary is strictly inside the coarse block
      have hNlt : (rev v / 2 ^ (64 - bL) + 1) * 2 ^ (64 - bL) < U64 := by
        rcases Nat.lt_or_ge ((rev v / 2 ^ (64 - bL) + 1) * 2 ^ (64 - bL)) U64 with h | h
        · exact h
        · exfalso
          have hNU : (rev v / 2 ^ (64 - bL) + 1) * 2 ^ (64 - bL) = U64 := by omega
          have hz : rev (scanIncrement v (2 ^ bL - 1)) = 0 := by
            rw [hrevinc, hNU]
            simp
          have hzero : scanIncrement v (2 ^ bL - 1) = 0 := rev_eq_zero hv' hz
          apply hcond
          rw [hzero]
          simp
      have hrevv' : rev (scanIncrement v (2 ^ bL - 1))
          = (rev v / 2 ^ (64 - bL) + 1) * 2 ^ (64 - bL) := by
        rw [hrevinc]
        exact Nat.mod_eq_of_lt hNlt
      have hqdvd : 2 ^ (64 - bL) ∣ rev (scanIncrement v (2 ^ bL - 1)) := by
        rw [hrevv']
        exact ⟨rev v / 2 ^ (64 - bL) + 1, by ring⟩
      have hnotQ : ¬ 2 ^ (64 - bS) ∣ rev (scanIncrement v (2 ^ bL - 1)) := by
        intro hdvd
        exact hcond ((exit_cond_iff _ bS bL hblt hbL hqdvd).mpr hdvd)
      have hNneE : rev (scanIncrement v (2 ^ bL - 1))
          ≠ (rev v / 2 ^ (64 - bS) + 1) * 2 ^ (64 - bS) := by
        intro heq
        apply hnotQ
        rw [heq]
        exact ⟨rev v / 2 ^ (64 - bS) + 1, by ring⟩
      have hNltE : rev (scanIncrement v (2 ^ bL - 1))
          < (rev v / 2 ^ (64 - bS) + 1) * 2 ^ (64 - bS) := by
        rw [hrevv']
        rw [hrevv'] at hNneE
        omega
      have hdivQ : rev (scanIncrement v (2 ^ bL - 1)) / 2 ^ (64 - bS)
          = rev v / 2 ^ (64 - bS) := by
        refine Nat.div_eq_of_lt_le ?_ hNltE
        calc rev v / 2 ^ (64 - bS) * 2 ^ (64 - bS)
            ≤ rev v := Nat.div_mul_le_self _ _
          _ ≤ rev (scanIncrement v (2 ^ bL - 1)) := by
              rw [hrevv']
              omega
      have hdivq : rev (scanIncrement v (2 ^ bL - 1)) / 2 ^ (64 - bL)
          = rev v / 2 ^ (64 - bL) + 1 := by
        rw [hrevv']
        exact Nat.mul_div_cancel _ hqpos
      obtain ⟨ih1, ih2, ih3, ih4⟩ := ih (scanIncrement v (2 ^ bL - 1))
        (acc ++ bucketAt tL (v &&& (2 ^ bL - 1))) hv'
        (by rw [hdivQ, hdivq]; omega)
      refine ⟨ih1, ?_, ?_, ?_⟩
      · rw [ih2, hdivQ]
      · intro a ha
        exact ih3 a (List.mem_append_left _ ha)
      · intro x hx hx1 hx2 e he
        by_cases hxblk : rev x < (rev v / 2 ^ (64 - bL) + 1) * 2 ^ (64 - bL)
        · have hbk := hsame x hx hx1 hxblk
          rw [hbk] at he
          exact ih3 e (List.mem_append_right _ he)
        · push_neg at hxblk
          refine ih4 x hx ?_ ?_ e he
          · rw [hdivq]
            exact hxblk
          · rw [hdivQ]
            exact hx2
    · rw [if_neg hcond]
      push_neg at hcond
      -- the loop exits: the next fine boundary IS the coarse boundary
      have hNeqE : (rev v / 2 ^ (64 - bL) + 1) * 2 ^ (64 - bL)
          = (rev v / 2 ^ (64 - bS) + 1) * 2 ^ (64 - bS) := by
        rcases Nat.lt_or_ge ((rev v / 2 ^ (64 - bL) + 1) * 2 ^ (64 - bL)) U64
          with hNlt | hNge
        · have hrevv' : rev (scanIncrement v (2 ^ bL - 1))
              = (rev v / 2 ^ (64 - bL) + 1) * 2 ^ (64 - bL) := by
            rw [hrevinc]
            exact Nat.mod_eq_of_lt hNlt
          have hqdvd : 2 ^ (64 - bL) ∣ rev (scanIncrement v (2 ^ bL - 1)) := by
            rw [hrevv']
            exact ⟨rev v / 2 ^ (64 - bL) + 1, by ring⟩
          have hQdvd : 2 ^ (64 - bS) ∣ rev (scanIncrement v (2 ^ bL - 1)) :=
            (exit_cond_iff _ bS bL hblt hbL hqdvd).mp hcond
          rw [hrevv'] at hQdvd
          -- a multiple of the coarse width strictly between rev v and the
          -- coarse boundary does not exist, so it must be the boundary
          by_contra hne
          have hNltE : (rev v / 2 ^ (64 - bL) + 1) * 2 ^ (64 - bL)
              < (rev v / 2 ^ (64 - bS) + 1) * 2 ^ (64 - bS) := by omega
          obtain ⟨m, hm⟩ := hQdvd
          have hm1 : rev v < 2 ^ (64 - bS) * m := by
            rw [← hm]
            exact hN_gt
          have hm2 : 2 ^ (64 - bS) * m
              < (rev v / 2 ^ (64 - bS) + 1) * 2 ^ (64 - bS) := by
            rw [← hm]
            exact hNltE
          have hm3 : rev v / 2 ^ (64 - bS) + 1 ≤ m := by
            by_contra hmc
            push_neg at hmc
            have : m ≤ rev v / 2 ^ (64 - bS) := by omega
            have h4 : 2 ^ (64 - bS) * m ≤ 2 ^ (64 - bS) * (rev v / 2 ^ (64 - bS)) :=
              Nat.mul_le_mul_left _ this
            have h5 : 2 ^ (64 - bS) * (rev v / 2 ^ (64 - bS)) ≤ rev v := by
              rw [Nat.mul_comm]
              exact Nat.div_mul_le_self _ _
            omega
          have h6 : (rev v / 2 ^ (64 - bS) + 1) * 2 ^ (64 - bS)
              ≤ 2 ^ (64 - bS) * m := by
            calc (rev v / 2 ^ (64 - bS) + 1) * 2 ^ (64 - bS)
                = 2 ^ (64 - bS) * (rev v / 2 ^ (64 - bS) + 1) := by ring
              _ ≤ 2 ^ (64 - bS) * m := Nat.mul_le_mul_left _ hm3
          omega
        · omega
      have hrevv'E : rev (scanIncrement v (2 ^ bL - 1))
          = (rev v / 2 ^ (64 - bS) + 1) * 2 ^ (64 - bS) % U64 := by
        rw [hrevinc, hNeqE]
      refine ⟨hv', hrevv'E, ?_, ?_⟩
      · intro a ha
        exact List.mem_append_left _ ha
      · intro x hx hx1 hx2 e he
        have hxblk : rev x < (rev v / 2 ^ (64 - bL) + 1) * 2 ^ (64 - bL) := by
          rw [hNeqE]
          exact hx2
        have hbk := hsame x hx hx1 hxblk
        rw [hbk] at he
        exact List.mem_append_right _ he

theorem scanLargeLoop_fst_lt (t1 : Dictht K V) (m0 m1 : Nat) :
    ∀ (fuel v : Nat) (acc : List (DictEntry K V)),
      (scanLargeLoop t1 m0 m1 v fuel acc).1 < U64 := by
  intro fuel
  induction fuel with
  | zero =>
    intro v acc
    show (0 : Nat) < U64
    norm_num [U64]
  | succ n ih =>
    intro v acc
    rw [show scanLargeLoop t1 m0 m1 v (n + 1) acc
        = if scanIncrement v m1 &&& (m0 ^^^ m1) ≠ 0
          then scanLargeLoop t1 m0 m1 (scanIncrement v m1) n
            (acc ++ bucketAt t1 (v &&& m1))
          else (scanIncrement v m1, acc ++ bucketAt t1 (v &&& m1)) from rfl]
    split
    · exact ih _ _
    · exact scanIncrement_lt _ _

theorem dictScan_cursor_lt (d : Dict K V) (v : Nat) :
    (dictScan d v).cursor < U64 := by
  unfold dictScan
  split
  · show (0 : Nat) < U64
    norm_num [U64]
  · split
    · exact scanIncrement_lt _ _
    · show (scanLargeLoop (if d.ht0.size > d.ht1.size then d.ht0 else d.ht1)
          (if d.ht0.size > d.ht1.size then d.ht1 else d.ht0).sizemask
          (if d.ht0.size > d.ht1.size then d.ht0 else d.ht1).sizemask
          v ((if d.ht0.size > d.ht1.size then d.ht0 else d.ht1).sizemask + 2)
          (bucketAt (if d.ht0.size > d.ht1.size then d.ht1 else d.ht0)
            (v &&& (if d.ht0.size > d.ht1.size then d.ht1 else d.ht0).sizemask))).1
          < U64
      exact scanLargeLoop_fst_lt _ _ _ _ _ _

/-- Contract of the rehashing branch of one `dictScan` call, stated for a
smaller table `tS` of size `2^bS` and a larger table `tL` of size `2^bL`:
the loop result lands on the next coarse boundary of the reversed domain
and contains, for every 64-bit value reversed into the covered interval,
both tables' buckets of that value. -/
theorem dictScan_rehash_contract (hashF : K → Nat) (tS tL : Dictht K V) (t : Nat)
    (bS bL : Nat) (hwfS : htWF hashF tS) (hwfL : htWF hashF tL)
    (hsS : tS.size = 2 ^ bS) (hsL : tL.size = 2 ^ bL)
    (hblt : bS < bL) (hbL : bL ≤ 64) (ht : t < U64) :
    (scanLargeLoop tL tS.sizemask tL.sizemask t (tL.sizemask + 2)
      (bucketAt tS (t &&& tS.sizemask))).1 < U64 ∧
    (rev t / 2 ^ (64 - bS) + 1) * 2 ^ (64 - bS) ≤ U64 ∧
    rev (scanLargeLoop tL tS.sizemask tL.sizemask t (tL.sizemask + 2)
      (bucketAt tS (t &&& tS.sizemask))).1
      = (rev t / 2 ^ (64 - bS) + 1) * 2 ^ (64 - bS) % U64 ∧
    (∀ x e, x < U64 →
      rev t / 2 ^ (64 - bL) * 2 ^ (64 - bL) ≤ rev x →
      rev x < (rev t / 2 ^ (64 - bS) + 1) * 2 ^ (64 - bS) →
      (e ∈ bucketAt tS (x &&& tS.sizemask) ∨ e ∈ bucketAt tL (x &&& tL.sizemask)) →
      e ∈ (scanLargeLoop tL tS.sizemask tL.sizemask t (tL.sizemask + 2)
        (bucketAt tS (t &&& tS.sizemask))).2) := by
  have hmS : tS.sizemask = 2 ^ bS - 1 := by rw [hwfS.2.1, hsS]
  have hmL : tL.sizemask = 2 ^ bL - 1 := by rw [hwfL.2.1, hsL]
  rw [hmS, hmL]
  have hE_le : (rev t / 2 ^ (64 - bS) + 1) * 2 ^ (64 - bS) ≤ U64 :=
    succ_div_mul_le_U64 _ _ (by omega) (rev_lt t)
  have hEdivle : (rev t / 2 ^ (64 - bS) + 1) * 2 ^ (64 - bS) / 2 ^ (64 - bL)
      ≤ 2 ^ bL := by
    have h1 : (rev t / 2 ^ (64 - bS) + 1) * 2 ^ (64 - bS) / 2 ^ (64 - bL)
        ≤ U64 / 2 ^ (64 - bL) := Nat.div_le_div_right hE_le
    rw [show U64 = 2 ^ 64 from rfl, Nat.pow_div (by omega) (by norm_num),
      show 64 - (64 - bL) = bL from by omega] at h1
    exact h1
  have hbud : (rev t / 2 ^ (64 - bS) + 1) * 2 ^ (64 - bS) / 2 ^ (64 - bL)
      - rev t / 2 ^ (64 - bL) ≤ 2 ^ bL - 1 + 2 := by
    have h2 : (0 : Nat) < 2 ^ bL := Nat.two_pow_pos bL
    have h3 : (2 : Nat) ^ bL - 1 + 1 = 2 ^ bL := Nat.sub_add_cancel h2
    calc (rev t / 2 ^ (64 - bS) + 1) * 2 ^ (64 - bS) / 2 ^ (64 - bL)
        - rev t / 2 ^ (64 - bL)
        ≤ (rev t / 2 ^ (64 - bS) + 1) * 2 ^ (64 - bS) / 2 ^ (64 - bL) :=
          Nat.sub_le _ _
      _ ≤ 2 ^ bL := hEdivle
      _ ≤ 2 ^ bL - 1 + 2 := by omega
  obtain ⟨m1c, m2c, m3c, m4c⟩ := scanLargeLoop_master tL bS bL hblt hbL
    (2 ^ bL - 1 + 2) t (bucketAt tS (t &&& (2 ^ bS - 1))) ht hbud
  refine ⟨m1c, hE_le, m2c, ?_⟩
  intro x e hx hlow hhigh hor
  rcases hor with hS | hL
  · -- smaller-table bucket: covered because x shares t's coarse block
    have hcoarse : rev t / 2 ^ (64 - bS) * 2 ^ (64 - bS)
        ≤ rev t / 2 ^ (64 - bL) * 2 ^ (64 - bL) := by
      have h := floor_coarse_le (rev t) (2 ^ (64 - bL)) (2 ^ (bL - bS))
      rw [show (2 : Nat) ^ (64 - bL) * 2 ^ (bL - bS) = 2 ^ (64 - bS) from by
        rw [← pow_add]
        congr 1
        omega] at h
      exact h
    have hdiv : rev x / 2 ^ (64 - bS) = rev t / 2 ^ (64 - bS) := by
      refine Nat.div_eq_of_lt_le ?_ hhigh
      calc rev t / 2 ^ (64 - bS) * 2 ^ (64 - bS)
          ≤ rev t / 2 ^ (64 - bL) * 2 ^ (64 - bL) := hcoarse
        _ ≤ rev x := hlow
    have hmod : x % 2 ^ bS = t % 2 ^ bS :=
      (emission_block_iff x t bS (by omega)).mpr hdiv
    have hbuck : x &&& (2 ^ bS - 1) = t &&& (2 ^ bS - 1) := by
      rw [and_mask_eq_mod, and_mask_eq_mod, hmod]
    rw [hbuck] at hS
    exact m3c e hS
  · exact m4c x hx hlow hhigh e hL

/-- Contract of one `dictScan` call on a well-formed, non-empty
dictionary: there are block widths `Q ≥ q` (the cursor-mask quantum and
the finer quantum of the larger table while rehashing) such that the new
cursor is the next `Q`-boundary of the reversed domain, and every stored
entry whose reversed 64-bit hash lies between the cursor's `q`-block start
and that boundary is emitted. -/
theorem dictScan_call (hashF : K → Nat) (d : Dict K V) (t : Nat)
    (hwf : dictWF hashF d) (ht : t < U64) (hszn : dictSize d ≠ 0) :
    ∃ Q q : Nat, 0 < Q ∧ 0 < q ∧
      (dictScan d t).cursor < U64 ∧
      (rev t / Q + 1) * Q ≤ U64 ∧
      rev ((dictScan d t).cursor) = (rev t / Q + 1) * Q % U64 ∧
      ∀ e ∈ dictAllEntries d,
        rev t / q * q ≤ rev (hashF e.key % U64) →
        rev (hashF e.key % U64) < (rev t / Q + 1) * Q →
        e ∈ (dictScan d t).emitted := by
  obtain ⟨hwf0, hwf1, hpow0, hge, hnon, hrclause⟩ := hwf
  have hU : (0 : Nat) < U64 := by norm_num [U64]
  cases hreh : dictIsRehashing d with
  | false =>
    have hidx : d.rehashidx = -1 := by
      by_contra hc
      have h2 := (dictIsRehashing_iff d).mpr hc
      rw [hreh] at h2
      exact Bool.noConfusion h2
    obtain ⟨hs1z, ht1nil⟩ := hnon hidx
    have hused1 : d.ht1.used = 0 := by
      have h3 := hwf1.2.2.1
      rw [ht1nil] at h3
      simpa [countEntries] using h3
    have hused0 : d.ht0.used ≠ 0 := by
      unfold dictSize at hszn
      omega
    have htbl0 : d.ht0.table ≠ [] := by
      intro hnil
      apply hused0
      rw [hwf0.2.2.1, hnil]
      rfl
    have hs0pos : 0 < d.ht0.size := by
      rw [← hwf0.1]
      exact List.length_pos.mpr htbl0
    obtain ⟨b, hbmem, hbpow⟩ : IsPow2 d.ht0.size := by
      rcases hpow0 with h | h
      · omega
      · exact h
    have hb64 : b ≤ 64 := by
      have := List.mem_range.mp hbmem
      omega
    have hmask : d.ht0.sizemask = 2 ^ b - 1 := by rw [hwf0.2.1, hbpow]
    have hscan : dictScan d t
        = ⟨scanIncrement t d.ht0.sizemask,
           bucketAt d.ht0 (t &&& d.ht0.sizemask)⟩ := by
      unfold dictScan
      rw [if_neg hszn, if_pos hreh]
    refine ⟨2 ^ (64 - b), 2 ^ (64 - b), Nat.two_pow_pos _, Nat.two_pow_pos _,
      ?_, ?_, ?_, ?_⟩
    · rw [hscan]
      exact scanIncrement_lt _ _
    · exact succ_div_mul_le_U64 _ _ (by omega) (rev_lt t)
    · rw [hscan]
      show rev (scanIncrement t d.ht0.sizemask) = _
      rw [hmask]
      exact rev_scanIncrement t b hb64
    · intro e he hlow hhigh
      have he0 : e ∈ d.ht0.table.flatten := by
        unfold dictAllEntries at he
        rw [ht1nil] at he
        simpa using he
      obtain ⟨i, hib⟩ := (mem_flatten_iff_bucketAt d.ht0 e).mp he0
      have hplace : hashF e.key &&& d.ht0.sizemask = i :=
        htWF_placement hwf0 i e hib
      have hdiv : rev (hashF e.key % U64) / 2 ^ (64 - b)
          = rev t / 2 ^ (64 - b) :=
        Nat.div_eq_of_lt_le hlow hhigh
      have hmod : hashF e.key % U64 % 2 ^ b = t % 2 ^ b :=
        (emission_block_iff _ t b hb64).mpr hdiv
      have hmodb : hashF e.key % 2 ^ b = t % 2 ^ b := by
        rw [← hmod]
        exact (Nat.mod_mod_of_dvd _ (by
          rw [show U64 = 2 ^ 64 from rfl]
          exact pow_dvd_pow 2 hb64)).symm
      have hbuck : hashF e.key &&& d.ht0.sizemask = t &&& d.ht0.sizemask := by
        rw [hmask, and_mask_eq_mod, and_mask_eq_mod, hmodb]
      rw [hscan]
      show e ∈ bucketAt d.ht0 (t &&& d.ht0.sizemask)
      rw [← hbuck, hplace]
      exact hib
  | true =>
    obtain ⟨hs0, hs1, hpow1, hneq, hcur, hdrained⟩ :=
      hrclause ((dictIsRehashing_iff d).mp hreh)
    obtain ⟨b0, hb0mem, hb0⟩ : IsPow2 d.ht0.size := by
      rcases hpow0 with h | h
      · omega
      · exact h
    obtain ⟨b1, hb1mem, hb1⟩ := hpow1
    have hb0le : b0 ≤ 64 := by
      have := List.mem_range.mp hb0mem
      omega
    have hb1le : b1 ≤ 64 := by
      have := List.mem_range.mp hb1mem
      omega
    have hfcond : ¬ (dictIsRehashing d = false) := by
      rw [hreh]
      simp
    have hdvdU : ∀ c : Nat, c ≤ 64 → (2 : Nat) ^ c ∣ U64 := by
      intro c hc
      rw [show U64 = 2 ^ 64 from rfl]
      exact pow_dvd_pow 2 hc
    by_cases hcmp : d.ht0.size > d.ht1.size
    · have hblt : b1 < b0 := by
        rw [hb0, hb1] at hcmp
        exact (Nat.pow_lt_pow_iff_right (by norm_num)).mp hcmp
      have hscan : dictScan d t
          = ⟨(scanLargeLoop d.ht0 d.ht1.sizemask d.ht0.sizemask t
                (d.ht0.sizemask + 2) (bucketAt d.ht1 (t &&& d.ht1.sizemask))).1,
             (scanLargeLoop d.ht0 d.ht1.sizemask d.ht0.sizemask t
                (d.ht0.sizemask + 2) (bucketAt d.ht1 (t &&& d.ht1.sizemask))).2⟩ := by
        unfold dictScan
        rw [if_neg hszn, if_neg hfcond]
        simp only [if_pos hcmp]
      obtain ⟨c1, c2, c3, c4⟩ := dictScan_rehash_contract hashF d.ht1 d.ht0 t
        b1 b0 hwf1 hwf0 hb1 hb0 hblt hb0le ht
      refine ⟨2 ^ (64 - b1), 2 ^ (64 - b0), Nat.two_pow_pos _, Nat.two_pow_pos _,
        ?_, c2, ?_, ?_⟩
      · rw [hscan]
        exact c1
      · rw [hscan]
        exact c3
      · intro e he hlow hhigh
        rw [hscan]
        show e ∈ (scanLargeLoop d.ht0 d.ht1.sizemask d.ht0.sizemask t
          (d.ht0.sizemask + 2) (bucketAt d.ht1 (t &&& d.ht1.sizemask))).2
        unfold dictAllEntries at he
        rcases List.mem_append.mp he with h0 | h1
        · obtain ⟨i, hib⟩ := (mem_flatten_iff_bucketAt d.ht0 e).mp h0
          have hplace := htWF_placement hwf0 i e hib
          refine c4 (hashF e.key % U64) e (Nat.mod_lt _ hU) hlow hhigh (Or.inr ?_)
          have hmm : hashF e.key % U64 &&& d.ht0.sizemask
              = hashF e.key &&& d.ht0.sizemask := by
            rw [hwf0.2.1, hb0, and_mask_eq_mod, and_mask_eq_mod]
            exact Nat.mod_mod_of_dvd _ (hdvdU b0 hb0le)
          rw [hmm, hplace]
          exact hib
        · obtain ⟨i, hib⟩ := (mem_flatten_iff_bucketAt d.ht1 e).mp h1
          have hplace := htWF_placement hwf1 i e hib
          refine c4 (hashF e.key % U64) e (Nat.mod_lt _ hU) hlow hhigh (Or.inl ?_)
          have hmm : hashF e.key % U64 &&& d.ht1.sizemask
              = hashF e.key &&& d.ht1.sizemask := by
            rw [hwf1.2.1, hb1, and_mask_eq_mod, and_mask_eq_mod]
            exact Nat.mod_mod_of_dvd _ (hdvdU b1 hb1le)
          rw [hmm, hplace]
          exact hib
    · have hlt : d.ht0.size < d.ht1.size := by
        have hne2 : d.ht0.size ≠ d.ht1.size := hneq
        omega
      have hblt : b0 < b1 := by
        rw [hb0, hb1] at hlt
        exact (Nat.pow_lt_pow_iff_right (by norm_num)).mp hlt
      have hscan : dictScan d t
          = ⟨(scanLargeLoop d.ht1 d.ht0.sizemask d.ht1.sizemask t
                (d.ht1.sizemask + 2) (bucketAt d.ht0 (t &&& d.ht0.sizemask))).1,
             (scanLargeLoop d.ht1 d.ht0.sizemask d.ht1.sizemask t
                (d.ht1.sizemask + 2) (bucketAt d.ht0 (t &&& d.ht0.sizemask))).2⟩ := by
        unfold dictScan
        rw [if_neg hszn, if_neg hfcond]
        simp only [if_neg hcmp]
      obtain ⟨c1, c2, c3, c4⟩ := dictScan_rehash_contract hashF d.ht0 d.ht1 t
        b0 b1 hwf0 hwf1 hb0 hb1 hblt hb1le ht
      refine ⟨2 ^ (64 - b0), 2 ^ (64 - b1), Nat.two_pow_pos _, Nat.two_pow_pos _,
        ?_, c2, ?_, ?_⟩
      · rw [hscan]
        exact c1
      · rw [hscan]
        exact c3
      · intro e he hlow hhigh
        rw [hscan]
        show e ∈ (scanLargeLoop d.ht1 d.ht0.sizemask d.ht1.sizemask t
          (d.ht1.sizemask + 2) (bucketAt d.ht0 (t &&& d.ht0.sizemask))).2
        unfold dictAllEntries at he
        rcases List.mem_append.mp he with h0 | h1
        · obtain ⟨i, hib⟩ := (mem_flatten_iff_bucketAt d.ht0 e).mp h0
          have hplace := htWF_placement hwf0 i e hib
          refine c4 (hashF e.key % U64) e (Nat.mod_lt _ hU) hlow hhigh (Or.inl ?_)
          have hmm : hashF e.key % U64 &&& d.ht0.sizemask
              = hashF e.key &&& d.ht0.sizemask := by
            rw [hwf0.2.1, hb0, and_mask_eq_mod, and_mask_eq_mod]
            exact Nat.mod_mod_of_dvd _ (hdvdU b0 hb0le)
          rw [hmm, hplace]
          exact hib
        · obtain ⟨i, hib⟩ := (mem_flatten_iff_bucketAt d.ht1 e).mp h1
          have hplace := htWF_placement hwf1 i e hib
          refine c4 (hashF e.key % U64) e (Nat.mod_lt _ hU) hlow hhigh (Or.inr ?_)
          have hmm : hashF e.key % U64 &&& d.ht1.sizemask
              = hashF e.key &&& d.ht1.sizemask := by
            rw [hwf1.2.1, hb1, and_mask_eq_mod, and_mask_eq_mod]
            exact Nat.mod_mod_of_dvd _ (hdvdU b1 hb1le)
          rw [hmm, hplace]
          exact hib

/-! ## Claims -/

/-- Claim C1: across any sequence of `dictScan` calls that starts at
cursor 0, feeds each returned cursor into the next call and stops when the
cursor returns to 0 — the dictionary observed by each call being an
arbitrary well-formed state, so inserts, deletes, rehash steps, grows and
shrinks may happen freely between calls — every key present in the
dictionary at every call is passed to the callback at least once. -/
theorem c1_scan_completeness (hashF : K → Nat) (N : Nat) (ds : Nat → Dict K V)
    (ts : Nat → Nat) (k : K) (hN : 0 < N) (hts0 : ts 0 = 0)
    (hstep : ∀ i, i < N → ts (i + 1) = (dictScan (ds i) (ts i)).cursor)
    (hstop : ts N = 0)
    (hwf : ∀ i, i < N → dictWF hashF (ds i))
    (hpresent : ∀ i, i < N → ∃ e ∈ dictAllEntries (ds i), e.key = k) :
    ∃ i, i < N ∧ ∃ e ∈ (dictScan (ds i) (ts i)).emitted, e.key = k := by
  have hU : (0 : Nat) < U64 := by norm_num [U64]
  have hts_lt : ∀ i, i ≤ N → ts i < U64 := by
    intro i
    induction i with
    | zero =>
      intro _
      rw [hts0]
      exact hU
    | succ m _ =>
      intro hle
      rw [hstep m (by omega)]
      exact dictScan_cursor_lt _ _
  have hszn : ∀ i, i < N → dictSize (ds i) ≠ 0 := by
    intro i hi hz
    obtain ⟨e, he, hek⟩ := hpresent i hi
    have hcont : dictContainsKey (ds i) k := ⟨e, he, hek⟩
    unfold dictSize at hz
    rcases dictContainsKey_size_pos (hwf i hi) hcont with h | h
    · exact h (by omega)
    · exact h (by omega)
  set R := rev (hashF k % U64) with hR
  have hRlt : R < U64 := rev_lt _
  set iStar := Nat.findGreatest (fun i => rev (ts i) ≤ R) (N - 1) with hiStar
  have hP0 : rev (ts 0) ≤ R := by
    rw [hts0, rev_zero]
    omega
  have hiN1 : iStar ≤ N - 1 := Nat.findGreatest_le _
  have hilt : iStar < N := by omega
  have hPi0 : (fun i => rev (ts i) ≤ R)
      (Nat.findGreatest (fun i => rev (ts i) ≤ R) (N - 1)) :=
    @Nat.findGreatest_spec 0 (fun i => rev (ts i) ≤ R)
      (fun i => Nat.decLe (rev (ts i)) R) (N - 1) (Nat.zero_le _) hP0
  have hPi : rev (ts iStar) ≤ R := hPi0
  obtain ⟨Q, q, hQ, hq, hclt, hEle, hrevc, hemit⟩ :=
    dictScan_call hashF (ds iStar) (ts iStar) (hwf _ hilt)
      (hts_lt iStar (by omega)) (hszn iStar hilt)
  have hlow : rev (ts iStar) / q * q ≤ R :=
    le_trans (Nat.div_mul_le_self _ _) hPi
  have hupper : R < (rev (ts iStar) / Q + 1) * Q := by
    by_cases hlast : iStar = N - 1
    · have hsN : rev (ts N) = ((rev (ts iStar) / Q + 1) * Q) % U64 := by
        have h1 := hstep iStar (by omega)
        rw [hlast, show N - 1 + 1 = N from by omega] at h1
        rw [h1, ← hlast]
        exact hrevc
      rw [hstop, rev_zero] at hsN
      rcases Nat.lt_or_ge ((rev (ts iStar) / Q + 1) * Q) U64 with hcase | hcase
      · rw [Nat.mod_eq_of_lt hcase] at hsN
        have hEpos : 0 < (rev (ts iStar) / Q + 1) * Q :=
          Nat.mul_pos (Nat.succ_pos _) hQ
        rw [← hsN] at hEpos
        exact absurd hEpos (lt_irrefl 0)
      · rw [Nat.le_antisymm hEle hcase]
        exact hRlt
    · have hnot0 : ¬ (fun i => rev (ts i) ≤ R) (iStar + 1) :=
        @Nat.findGreatest_is_greatest (iStar + 1) (fun i => rev (ts i) ≤ R)
          (fun i => Nat.decLe (rev (ts i)) R) (N - 1) (by omega) (by omega)
      have hnot : R < rev (ts (iStar + 1)) := Nat.lt_of_not_le hnot0
      have hs1 : rev (ts (iStar + 1)) = ((rev (ts iStar) / Q + 1) * Q) % U64 := by
        rw [hstep iStar (by omega)]
        exact hrevc
      rw [hs1] at hnot
      exact lt_of_lt_of_le hnot (Nat.mod_le _ _)
  obtain ⟨e, he, hek⟩ := hpresent iStar hilt
  refine ⟨iStar, hilt, e, ?_, hek⟩
  refine hemit e he ?_ ?_
  · rw [hek]
    exact hlow
  · rw [hek]
    exact hupper

theorem c1_scan_completeness_witness :
    (∀ i, i < 4 → dictWF (fun k => k) c2dict) ∧
    (∀ i, i < 4 → c1seq (i + 1) = (dictScan c2dict (c1seq i)).cursor) ∧
    (∃ i, i < 4 ∧ ∃ e ∈ (dictScan c2dict (c1seq i)).emitted, e.key = 0) :=
  ⟨by decide, by decide,
    c1_scan_completeness (fun k => k) 4 (fun _ => c2dict) c1seq 0 (by decide)
      (by decide) (by decide) (by decide) (by decide) (by decide)⟩

/-- Claim C9: for any dictionary and key, `dictUnlink` followed by
`dictFreeUnlinkedEntry` on the returned entry yields the same dictionary
state and the same destructor invocations as `dictDelete`, and finds the
key in exactly the same cases (the unlink itself frees nothing). -/
theorem c9_unlink_free_equals_delete (hashF : K → Nat) (d : Dict K V) (key : K) :
    (dictUnlink hashF d key).d = (dictDelete hashF d key).1 ∧
    (dictUnlink hashF d key).trace = [] ∧
    dictFreeUnlinkedEntry (dictUnlink hashF d key).entry
      = (dictDelete hashF d key).2.2 ∧
    (dictUnlink hashF d key).entry.isSome = (dictDelete hashF d key).2.1 := by
  obtain ⟨h1, h2, h3, h4⟩ := dictGenericDelete_nofree_eq hashF d key
  refine ⟨h1, h3, h4.symm, ?_⟩
  show (dictGenericDelete hashF d key true).entry.isSome
      = (dictGenericDelete hashF d key false).entry.isSome
  rw [h2]

/-- Claim C10: releasing an iterator that never advanced (still at
`index = -1, table = 0`) performs no bookkeeping: the dictionary — in
particular its live-iterator counter — is returned unchanged and the
fingerprint assertion (the only path that can abort the process) is not
evaluated, for both the plain and the safe iterator. -/
theorem c10_release_fresh_iterator (d : Dict K V) :
    dictReleaseIterator d (dictGetIterator : DictIterator K V) = (d, false) ∧
    dictReleaseIterator d (dictGetSafeIterator : DictIterator K V) = (d, false) := by
  constructor
  · rfl
  · rfl

/-- Claim C8: `dictRehash(d, n)` — a total function of this embedding, so
the call always terminates — migrates at most `n` non-empty buckets,
probes at most `10 × n` empty buckets, and returns 1 (work remaining) the
moment the empty-bucket budget is exhausted. -/
theorem c8_rehash_bounds (hashF : K → Nat) (d : Dict K V) (n : Nat)
    (hwf : dictWF hashF d) :
    (dictRehash hashF d n).migrated ≤ n ∧
    (dictRehash hashF d n).empties ≤ 10 * n ∧
    ((dictRehash hashF d n).empties = 10 * n → 0 < n →
      (dictRehash hashF d n).ret = 1) := by
  obtain ⟨_, _, h3, h4, h5, _⟩ := dictRehash_master hashF d n hwf
  exact ⟨h3, h4, h5⟩

theorem c8_rehash_bounds_witness :
    dictWF (fun k => k) c4dict ∧
    ((dictRehash (fun k => k) c4dict 2).migrated ≤ 2 ∧
     (dictRehash (fun k => k) c4dict 2).empties ≤ 10 * 2 ∧
     ((dictRehash (fun k => k) c4dict 2).empties = 10 * 2 → 0 < 2 →
       (dictRehash (fun k => k) c4dict 2).ret = 1)) :=
  ⟨by decide, c8_rehash_bounds (fun k => k) c4dict 2 (by decide)⟩

/-- Claim C2 counterexample: at `size = 4`, `used = 21` the claim's test
`used > 5 × size` holds, yet with resizing disallowed the expansion check
leaves the table untouched and starts no rehash (`21 / 4 = 5`, and the
code requires the integer ratio to exceed 5). -/
theorem c2_counterexample :
    dictWF (fun k => k) c2dict ∧
    dictIsRehashing c2dict = false ∧
    dict_force_resize_ratio * c2dict.ht0.size < c2dict.ht0.used ∧
    (dictExpandIfNeeded false c2dict).1 = c2dict ∧
    dictIsRehashing (dictExpandIfNeeded false c2dict).1 = false := by
  refine ⟨by decide, by decide, by decide, by decide, by decide⟩

/-- Claim C2 (corrected): with resizing disallowed and no rehash in
progress, the expansion check run by an insertion triggers growth iff the
integer ratio `used / size` exceeds the force ratio 5 — not iff
`used > 5 × size`; the two predicates differ whenever
`5 × size < used < 6 × size`. -/
theorem c2_force_resize_integer_division (hashF : K → Nat) (d : Dict K V)
    (hwf : dictWF hashF d) (hreh : dictIsRehashing d = false)
    (hsz : 0 < d.ht0.size) (hbound : d.ht0.used < 2 ^ 62) :
    dictIsRehashing (dictExpandIfNeeded false d).1 = true ↔
      dict_force_resize_ratio < d.ht0.used / d.ht0.size := by
  have hszne : ¬ d.ht0.size = 0 := by omega
  have hmain : dictExpandIfNeeded false d
      = if d.ht0.used ≥ d.ht0.size ∧
          ((false : Bool) = true ∨ d.ht0.used / d.ht0.size > dict_force_resize_ratio)
        then dictExpand d (d.ht0.used * 2) else (d, true) := by
    unfold dictExpandIfNeeded
    rw [hreh]
    rw [if_neg (by simp : ¬ ((false : Bool) = true))]
    rw [if_neg hszne]
  by_cases hc : d.ht0.used ≥ d.ht0.size ∧
      ((false : Bool) = true ∨ d.ht0.used / d.ht0.size > dict_force_resize_ratio)
  · have hratio : dict_force_resize_ratio < d.ht0.used / d.ht0.size := by
      rcases hc.2 with h | h
      · exact absurd h (by simp)
      · exact h
    have h6 : 6 * d.ht0.size ≤ d.ht0.used := by
      refine (Nat.le_div_iff_mul_le hsz).mp ?_
      rw [show dict_force_resize_ratio = 5 from rfl] at hratio
      exact hratio
    have hexp : dictIsRehashing (dictExpand d (d.ht0.used * 2)).1 = true := by
      unfold dictExpand
      have hc1 : ¬ (dictIsRehashing d = true ∨ d.ht0.used > d.ht0.used * 2) := by
        rw [hreh]
        rintro (h | h)
        · exact absurd h (by simp)
        · omega
      rw [if_neg hc1]
      have hlm : d.ht0.used * 2 < LONG_MAX := by
        have h2 : LONG_MAX = 9223372036854775807 := by norm_num [LONG_MAX]
        have h3 : (2 : Nat) ^ 62 = 4611686018427387904 := by norm_num
        omega
      have hnp := dictNextPower_ge (d.ht0.used * 2) hlm
      have hc2 : ¬ (dictNextPower (d.ht0.used * 2) = d.ht0.size) := by omega
      rw [if_neg hc2]
      have hc3 : ¬ (d.ht0.table = []) := by
        intro h
        have hlen := hwf.1.1
        rw [h] at hlen
        simp at hlen
        omega
      rw [if_neg hc3]
      rfl
    rw [hmain, if_pos hc]
    exact ⟨fun _ => hratio, fun _ => hexp⟩
  · rw [hmain, if_neg hc]
    constructor
    · intro h
      exact absurd (show dictIsRehashing d = true from h) (by rw [hreh]; simp)
    · intro hratio
      exfalso
      apply hc
      have h6 : 6 * d.ht0.size ≤ d.ht0.used := by
        refine (Nat.le_div_iff_mul_le hsz).mp ?_
        rw [show dict_force_resize_ratio = 5 from rfl] at hratio
        exact hratio
      exact ⟨by omega, Or.inr hratio⟩

theorem c2_force_resize_integer_division_witness :
    dictWF (fun k => k) c2dict ∧ 0 < c2dict.ht0.size ∧
    (dictIsRehashing (dictExpandIfNeeded false c2dict).1 = true ↔
      dict_force_resize_ratio < c2dict.ht0.used / c2dict.ht0.size) :=
  ⟨by decide, by decide,
    c2_force_resize_integer_division (fun k => k) c2dict (by decide) (by decide)
      (by decide) (by decide)⟩

/-- Claim C3 counterexample: a full size-4 table (`used = size = 4`).
Inserting the 5th element allocates a new table of size
`next_pow2(2 × used) = 8`, while the claim's formula
`2 × next_pow2(used + 1)` predicts 16. -/
theorem c3_counterexample :
    dictWF (fun k => k) c3dict ∧
    dictIsRehashing c3dict = false ∧
    c3dict.ht0.used = c3dict.ht0.size ∧
    (dictAdd (fun k => k) true c3dict 4 0).1.ht1.size = 8 ∧
    dictNextPower (c3dict.ht0.used * 2) = 8 ∧
    2 * specNextPow2 (c3dict.ht0.used + 1) = 16 := by
  refine ⟨by decide, by decide, by decide, by decide, by decide, by decide⟩

/-- Claim C3 (corrected): with resizing allowed and no rehash in progress,
the insert that finds `used = size` (a power of two `2^c`) allocates a new
table of size `next_pow2(used × 2)`, which equals `2 × size` — not the
claim's `2 × next_pow2(used + 1) = 4 × size`. -/
theorem c3_growth_target (hashF : K → Nat) (d : Dict K V) (key : K) (v : V)
    (c : Nat) (hwf : dictWF hashF d) (hreh : dictIsRehashing d = false)
    (hsize : d.ht0.size = 2 ^ c) (hc2 : 2 ≤ c) (hc61 : c ≤ 61)
    (hused : d.ht0.used = d.ht0.size) :
    (dictAddRaw hashF true d key v).d.ht1.size = dictNextPower (d.ht0.used * 2) ∧
    dictNextPower (d.ht0.used * 2) = 2 * d.ht0.size := by
  have hszpos : 0 < d.ht0.size := by
    rw [hsize]
    exact Nat.two_pow_pos c
  have hszne : ¬ d.ht0.size = 0 := by omega
  have hnp : dictNextPower (d.ht0.used * 2) = 2 * d.ht0.size := by
    rw [hused, hsize]
    have hpow : (2 : Nat) ^ c * 2 = 2 ^ (c + 1) := by ring
    rw [hpow, dictNextPower_exact (c + 1) (by omega) (by omega)]
    ring
  refine ⟨?_, hnp⟩
  have hstep : (if dictIsRehashing d then dictRehashStep hashF d else d) = d := by
    rw [hreh]
    simp
  have hraw : dictAddRaw hashF true d key v
      = dictAddRawInsert (dictKeyIndex hashF true d key (hashF key)) key v := by
    unfold dictAddRaw
    rw [hstep]
  rw [hraw, dictAddRawInsert_ht1_size, dictKeyIndex_d]
  have h1 : dictExpandIfNeeded true d = dictExpand d (d.ht0.used * 2) := by
    unfold dictExpandIfNeeded
    rw [hreh]
    rw [if_neg (by simp : ¬ ((false : Bool) = true)), if_neg hszne,
      if_pos ⟨by omega, Or.inl rfl⟩]
  rw [h1]
  unfold dictExpand
  have hc1 : ¬ (dictIsRehashing d = true ∨ d.ht0.used > d.ht0.used * 2) := by
    rw [hreh]
    rintro (h | h)
    · exact absurd h (by simp)
    · omega
  rw [if_neg hc1]
  have hcne : ¬ (dictNextPower (d.ht0.used * 2) = d.ht0.size) := by
    rw [hnp]
    omega
  rw [if_neg hcne]
  have hc3 : ¬ (d.ht0.table = []) := by
    intro h
    have hlen := hwf.1.1
    rw [h] at hlen
    simp at hlen
    omega
  rw [if_neg hc3]

theorem c3_growth_target_witness :
    dictWF (fun k => k) c3dict ∧ c3dict.ht0.used = c3dict.ht0.size ∧
    ((dictAddRaw (fun k => k) true c3dict 4 0).d.ht1.size
        = dictNextPower (c3dict.ht0.used * 2) ∧
      dictNextPower (c3dict.ht0.used * 2) = 2 * c3dict.ht0.size) :=
  ⟨by decide, by decide,
    c3_growth_target (fun k => k) c3dict 4 0 2 (by decide) (by decide) (by decide)
      (by decide) (by decide) (by decide)⟩

/-- Claim C4: while rehashing, every `ht[0]` bucket below the cursor is
drained; this invariant is preserved by rehashing, insertion and deletion
(each returns a well-formed state, and well-formedness contains the
drained prefix); a rehash step on a non-empty cursor bucket moves all of
that bucket's entries to their `ht[1]` buckets (computed with `ht[1]`'s
mask) and advances the cursor; and an insertion performed while rehashing
places the new entry in `ht[1]`. -/
theorem c4_rehash_invariant (hashF : K → Nat) (d : Dict K V)
    (hwf : dictWF hashF d) :
    rehashDrained d ∧
    (∀ n, rehashDrained (dictRehash hashF d n).d) ∧
    (∀ canResize key v, rehashDrained (dictAddRaw hashF canResize d key v).d) ∧
    (∀ key nofree, rehashDrained (dictGenericDelete hashF d key nofree).d) ∧
    (dictIsRehashing d = true →
      bucketAt d.ht0 d.rehashidx.toNat ≠ [] →
      (bucketAt d.ht0 d.rehashidx.toNat).length < d.ht0.used →
      (dictRehash hashF d 1).d.rehashidx = ((d.rehashidx.toNat + 1 : Nat) : Int) ∧
      bucketAt (dictRehash hashF d 1).d.ht0 d.rehashidx.toNat = [] ∧
      ∀ e ∈ bucketAt d.ht0 d.rehashidx.toNat,
        e ∈ bucketAt (dictRehash hashF d 1).d.ht1
          (hashF e.key &&& d.ht1.sizemask)) ∧
    (∀ canResize key v e,
      (dictAddRaw hashF canResize d key v).entry = some e →
      dictIsRehashing (dictAddRaw hashF canResize d key v).d = true →
      e ∈ bucketAt (dictAddRaw hashF canResize d key v).d.ht1
        (hashF key &&& (dictAddRaw hashF canResize d key v).d.ht1.sizemask)) := by
  refine ⟨dictWF_rehashDrained hwf, ?_, ?_, ?_, ?_, ?_⟩
  · intro n
    exact dictWF_rehashDrained (dictRehash_master hashF d n hwf).1
  · intro canResize key v
    exact dictWF_rehashDrained (dictAddRaw_master hashF canResize d key v hwf).1
  · intro key nofree
    exact dictWF_rehashDrained (dictGenericDelete_master hashF d key nofree hwf).2.1
  · intro hreh hne hrem
    exact dictRehash_one_step hashF d hwf hreh hne hrem
  · intro canResize key v e he hreh
    exact ((dictAddRaw_master hashF canResize d key v hwf).2 e he).1 hreh

theorem c4_rehash_invariant_witness :
    dictWF (fun k => k) c4dict ∧
    (rehashDrained c4dict ∧
     (∀ n, rehashDrained (dictRehash (fun k => k) c4dict n).d) ∧
     (∀ canResize key v,
       rehashDrained (dictAddRaw (fun k => k) canResize c4dict key v).d) ∧
     (∀ key nofree,
       rehashDrained (dictGenericDelete (fun k => k) c4dict key nofree).d) ∧
     (dictIsRehashing c4dict = true →
       bucketAt c4dict.ht0 c4dict.rehashidx.toNat ≠ [] →
       (bucketAt c4dict.ht0 c4dict.rehashidx.toNat).length < c4dict.ht0.used →
       (dictRehash (fun k => k) c4dict 1).d.rehashidx
          = ((c4dict.rehashidx.toNat + 1 : Nat) : Int) ∧
       bucketAt (dictRehash (fun k => k) c4dict 1).d.ht0
          c4dict.rehashidx.toNat = [] ∧
       ∀ e ∈ bucketAt c4dict.ht0 c4dict.rehashidx.toNat,
         e ∈ bucketAt (dictRehash (fun k => k) c4dict 1).d.ht1
           ((fun k => k) e.key &&& c4dict.ht1.sizemask)) ∧
     (∀ canResize key v e,
       (dictAddRaw (fun k => k) canResize c4dict key v).entry = some e →
       dictIsRehashing (dictAddRaw (fun k => k) canResize c4dict key v).d = true →
       e ∈ bucketAt (dictAddRaw (fun k => k) canResize c4dict key v).d.ht1
         ((fun k => k) key &&&
           (dictAddRaw (fun k => k) canResize c4dict key v).d.ht1.sizemask))) :=
  ⟨by decide, c4_rehash_invariant (fun k => k) c4dict (by decide)⟩

/-- Claim C5: in the dispatch of one fired descriptor, without
`AE_BARRIER` the readable callback is invoked before the writable one;
with `AE_BARRIER` the writable callback is invoked before the readable
one; and when the same function is registered for both roles it is
invoked at most once in the pass. -/
theorem c5_barrier_ordering (fe : AeFileEvent) (fired : AeMask) :
    (fe.mask.barrier = false → fe.mask.readable = true → fired.readable = true →
      fe.mask.writable = true → fired.writable = true →
      fe.wfileProc ≠ fe.rfileProc →
      aeFireOne fe fired
        = [(fe.rfileProc, AeCallKind.readable),
           (fe.wfileProc, AeCallKind.writable)]) ∧
    (fe.mask.barrier = true → fe.mask.readable = true → fired.readable = true →
      fe.mask.writable = true → fired.writable = true →
      fe.wfileProc ≠ fe.rfileProc →
      aeFireOne fe fired
        = [(fe.wfileProc, AeCallKind.writable),
           (fe.rfileProc, AeCallKind.readable)]) ∧
    (fe.wfileProc = fe.rfileProc → (aeFireOne fe fired).length ≤ 1) := by
  refine ⟨?_, ?_, ?_⟩
  · intro hb hr hfr hw hfw hne
    simp [aeFireOne, hb, hr, hfr, hw, hfw, hne]
  · intro hb hr hfr hw hfw hne
    simp [aeFireOne, hb, hr, hfr, hw, hfw, hne]
  · intro heq
    cases hb : fe.mask.barrier <;> cases hr : fe.mask.readable <;>
      cases hfr : fired.readable <;> cases hw : fe.mask.writable <;>
      cases hfw : fired.writable <;>
      simp [aeFireOne, hb, hr, hfr, hw, hfw, heq]

theorem c5_barrier_ordering_witness :
    aeFireOne ⟨⟨true, true, false⟩, 1, 2⟩ ⟨true, true, false⟩
      = [(1, AeCallKind.readable), (2, AeCallKind.writable)] ∧
    aeFireOne ⟨⟨true, true, true⟩, 1, 2⟩ ⟨true, true, false⟩
      = [(2, AeCallKind.writable), (1, AeCallKind.readable)] ∧
    (aeFireOne ⟨⟨true, true, false⟩, 7, 7⟩ ⟨true, true, false⟩).length ≤ 1 :=
  ⟨(c5_barrier_ordering ⟨⟨true, true, false⟩, 1, 2⟩ ⟨true, true, false⟩).1
      rfl rfl rfl rfl rfl (by decide),
   (c5_barrier_ordering ⟨⟨true, true, true⟩, 1, 2⟩ ⟨true, true, false⟩).2.1
      rfl rfl rfl rfl rfl (by decide),
   (c5_barrier_ordering ⟨⟨true, true, false⟩, 7, 7⟩ ⟨true, true, false⟩).2.2 rfl⟩

/-- Claim C6: `dbAsyncDelete` removes the key's TTL entry and unlinks the
key from the keyspace; the unlinked value is handed to the background
LazyFree queue iff its free effort exceeds 64 and its refcount is exactly
1 (the entry is then freed with a NULL value), otherwise it is destroyed
inline together with the entry; the return value is 1 iff the key
existed, 0 otherwise. -/
theorem c6_dbAsyncDelete (hashF : K → Nat) (db : RedisDb K) (key : K)
    (hwfd : dictWF hashF db.dict) (hndd : keysNodup db.dict)
    (hwfe : dictWF hashF db.expires) (hnde : keysNodup db.expires) :
    ((dbAsyncDelete hashF db key).ret = 1 ↔ dictContainsKey db.dict key) ∧
    ((dbAsyncDelete hashF db key).ret = 0 ↔ ¬ dictContainsKey db.dict key) ∧
    ¬ dictContainsKey (dbAsyncDelete hashF db key).db.expires key ∧
    ¬ dictContainsKey (dbAsyncDelete hashF db key).db.dict key ∧
    (∀ de val, (dictUnlink hashF db.dict key).entry = some de →
      de.val = some val →
      ((LAZYFREE_THRESHOLD < lazyfreeGetFreeEffort val ∧ val.refcount = 1) →
        (dbAsyncDelete hashF db key).enqueued = some val ∧
        (dbAsyncDelete hashF db key).trace
          = [FreeEv.freeKey de.key, FreeEv.freeVal none]) ∧
      (¬ (LAZYFREE_THRESHOLD < lazyfreeGetFreeEffort val ∧ val.refcount = 1) →
        (dbAsyncDelete hashF db key).enqueued = none ∧
        (dbAsyncDelete hashF db key).trace
          = [FreeEv.freeKey de.key, FreeEv.freeVal (some val)])) := by
  have hiff := (dictGenericDelete_master hashF db.dict key true hwfd).1
  have hrm := dictGenericDelete_removes hashF db.dict key true hwfd hndd
  have hexpires : ¬ dictContainsKey
      (if dictSize db.expires > 0 then (dictDelete hashF db.expires key).1
       else db.expires) key := by
    split
    · exact dictGenericDelete_removes hashF db.expires key false hwfe hnde
    · next hsz =>
      have h0 : db.expires.ht0.used = 0 := by
        unfold dictSize at hsz
        omega
      have h1 : db.expires.ht1.used = 0 := by
        unfold dictSize at hsz
        omega
      have hf0 := flatten_eq_nil_of_used_zero hwfe.1 h0
      have hf1 := flatten_eq_nil_of_used_zero hwfe.2.1 h1
      rintro ⟨e, he, hek⟩
      unfold dictAllEntries at he
      rw [hf0, hf1] at he
      simp at he
  rcases hue : (dictUnlink hashF db.dict key).entry with _ | de
  · have hue2 : (dictGenericDelete hashF db.dict key true).entry = none := hue
    have hnc : ¬ dictContainsKey db.dict key := by
      intro hcont
      have h2 := hiff.mpr hcont
      rw [hue2] at h2
      simp at h2
    have hret : dbAsyncDelete hashF db key
        = ⟨⟨(dictUnlink hashF db.dict key).d,
            if dictSize db.expires > 0 then (dictDelete hashF db.expires key).1
            else db.expires⟩, none, [], 0⟩ := by
      simp only [dbAsyncDelete, hue]
    rw [hret]
    refine ⟨⟨fun h => absurd (show (0 : Nat) = 1 from h) (by omega),
        fun hcont => absurd hcont hnc⟩,
      ⟨fun _ => hnc, fun _ => rfl⟩, hexpires, hrm, ?_⟩
    intro de2 val2 hde2 hval2
    exact Option.noConfusion hde2
  · have hue2 : (dictGenericDelete hashF db.dict key true).entry = some de := hue
    have hcont : dictContainsKey db.dict key := hiff.mp (by rw [hue2]; rfl)
    rcases hdv : de.val with _ | val
    · have hret : dbAsyncDelete hashF db key
          = ⟨⟨(dictUnlink hashF db.dict key).d,
              if dictSize db.expires > 0 then (dictDelete hashF db.expires key).1
              else db.expires⟩, none, dictFreeUnlinkedEntry (some de), 1⟩ := by
        simp only [dbAsyncDelete, hue, hdv]
      rw [hret]
      refine ⟨⟨fun _ => hcont, fun _ => rfl⟩,
        ⟨fun h => absurd (show (1 : Nat) = 0 from h) (by omega),
          fun hn => absurd hcont hn⟩, hexpires, hrm, ?_⟩
      intro de2 val2 hde2 hval2
      obtain rfl : de = de2 := Option.some.inj hde2
      rw [hdv] at hval2
      exact Option.noConfusion hval2
    · by_cases hoff : LAZYFREE_THRESHOLD < lazyfreeGetFreeEffort val ∧
          val.refcount = 1
      · have hret : dbAsyncDelete hashF db key
            = ⟨⟨(dictUnlink hashF db.dict key).d,
                if dictSize db.expires > 0 then (dictDelete hashF db.expires key).1
                else db.expires⟩, some val,
              dictFreeUnlinkedEntry (some { de with val := none }), 1⟩ := by
          simp only [dbAsyncDelete, hue, hdv]
          rw [if_pos hoff]
        rw [hret]
        refine ⟨⟨fun _ => hcont, fun _ => rfl⟩,
          ⟨fun h => absurd (show (1 : Nat) = 0 from h) (by omega),
            fun hn => absurd hcont hn⟩, hexpires, hrm, ?_⟩
        intro de2 val2 hde2 hval2
        obtain rfl : de = de2 := Option.some.inj hde2
        rw [hdv] at hval2
        obtain rfl : val = val2 := Option.some.inj hval2
        exact ⟨fun _ => ⟨rfl, rfl⟩, fun hn => absurd hoff hn⟩
      · have hret : dbAsyncDelete hashF db key
            = ⟨⟨(dictUnlink hashF db.dict key).d,
                if dictSize db.expires > 0 then (dictDelete hashF db.expires key).1
                else db.expires⟩, none, dictFreeUnlinkedEntry (some de), 1⟩ := by
          simp only [dbAsyncDelete, hue, hdv]
          rw [if_neg hoff]
        rw [hret]
        refine ⟨⟨fun _ => hcont, fun _ => rfl⟩,
          ⟨fun h => absurd (show (1 : Nat) = 0 from h) (by omega),
            fun hn => absurd hcont hn⟩, hexpires, hrm, ?_⟩
        intro de2 val2 hde2 hval2
        obtain rfl : de = de2 := Option.some.inj hde2
        rw [hdv] at hval2
        obtain rfl : val = val2 := Option.some.inj hval2
        refine ⟨fun hyes => absurd hyes hoff, fun _ => ⟨rfl, ?_⟩⟩
        show dictFreeUnlinkedEntry (some de)
            = [FreeEv.freeKey de.key, FreeEv.freeVal (some val)]
        rw [← hdv]
        rfl

theorem c6_dbAsyncDelete_witness :
    dictWF (fun k => k) c6db.dict ∧ keysNodup c6db.dict ∧
    dictWF (fun k => k) c6db.expires ∧ keysNodup c6db.expires ∧
    (((dbAsyncDelete (fun k => k) c6db 1).ret = 1 ↔
        dictContainsKey c6db.dict 1) ∧
     ((dbAsyncDelete (fun k => k) c6db 1).ret = 0 ↔
        ¬ dictContainsKey c6db.dict 1) ∧
     ¬ dictContainsKey (dbAsyncDelete (fun k => k) c6db 1).db.expires 1 ∧
     ¬ dictContainsKey (dbAsyncDelete (fun k => k) c6db 1).db.dict 1 ∧
     (∀ de val, (dictUnlink (fun k => k) c6db.dict 1).entry = some de →
       de.val = some val →
       ((LAZYFREE_THRESHOLD < lazyfreeGetFreeEffort val ∧ val.refcount = 1) →
         (dbAsyncDelete (fun k => k) c6db 1).enqueued = some val ∧
         (dbAsyncDelete (fun k => k) c6db 1).trace
           = [FreeEv.freeKey de.key, FreeEv.freeVal none]) ∧
       (¬ (LAZYFREE_THRESHOLD < lazyfreeGetFreeEffort val ∧ val.refcount = 1) →
         (dbAsyncDelete (fun k => k) c6db 1).enqueued = none ∧
         (dbAsyncDelete (fun k => k) c6db 1).trace
           = [FreeEv.freeKey de.key, FreeEv.freeVal (some val)]))) :=
  ⟨by decide, by decide, by decide, by decide,
    c6_dbAsyncDelete (fun k => k) c6db 1 (by decide) (by decide) (by decide)
      (by decide)⟩

/-- Claim C7: when the wall clock's second is earlier than at the previous
pass, the repair loop sets every event's `when_sec` to 0, and consequently
(the wall-clock second being positive) every non-tombstoned event whose id
is within the `maxId` snapshot (`timeEventNextId - 1`) fires during that
same pass. -/
theorem c7_clock_skew (timeProc : Int → Int)
    (now_sec now_ms lastTime timeEventNextId : Int)
    (events : List AeTimeEvent)
    (hskew : now_sec < lastTime) (hpos : 0 < now_sec) :
    (∀ te ∈ skewRepair now_sec lastTime events, te.when_sec = 0) ∧
    ∀ te ∈ events, te.id ≠ AE_DELETED_EVENT_ID → te.id ≤ timeEventNextId - 1 →
      te.id ∈ (processTimeEvents timeProc now_sec now_ms lastTime timeEventNextId
        events).firedIds := by
  have hrep : skewRepair now_sec lastTime events
      = events.map (fun te => { te with when_sec := 0 }) := by
    unfold skewRepair
    rw [if_pos hskew]
  have hzero : ∀ te ∈ skewRepair now_sec lastTime events, te.when_sec = 0 := by
    rw [hrep]
    intro te hte
    obtain ⟨te0, _, rfl⟩ := List.mem_map.mp hte
    rfl
  refine ⟨hzero, ?_⟩
  intro te hte hid hle
  have hmem2 : ({ te with when_sec := 0 } : AeTimeEvent)
      ∈ skewRepair now_sec lastTime events := by
    rw [hrep]
    exact List.mem_map_of_mem _ hte
  exact processTimeEventsLoop_fires_all timeProc now_sec now_ms
    (timeEventNextId - 1) hpos (skewRepair now_sec lastTime events) hzero
    ({ te with when_sec := 0 }) hmem2 hid hle

theorem c7_clock_skew_witness :
    (100 : Int) < 130 ∧
    ((∀ te ∈ skewRepair 100 130 [(⟨1, 110, 0⟩ : AeTimeEvent)], te.when_sec = 0) ∧
     ∀ te ∈ [(⟨1, 110, 0⟩ : AeTimeEvent)], te.id ≠ AE_DELETED_EVENT_ID →
       te.id ≤ 3 - 1 →
       te.id ∈ (processTimeEvents (fun _ => -1) 100 0 130 3
         [(⟨1, 110, 0⟩ : AeTimeEvent)]).firedIds) :=
  ⟨by decide,
    c7_clock_skew (fun _ => -1) 100 0 130 3 [(⟨1, 110, 0⟩ : AeTimeEvent)]
      (by decide) (by decide)⟩

end RedisNote
